import Mathlib

/-!
Shallow embedding of `sul::dynamic_bitset` (include/sul/dynamic_bitset.hpp).

A bitset is a list of storage blocks (`m_blocks`) plus a logical bit count
(`m_bits_number`).  The C++ code is generic in the block type; here the block
width is an explicit parameter `w` (`bits_per_block`) and blocks are natural
numbers, with truncation `% 2 ^ w` inserted exactly where the C++ block
arithmetic wraps.  Sizes and positions are natural numbers (`size_type`).
-/

namespace DB

/-- The state of a `dynamic_bitset`: `m_blocks` and `m_bits_number`. -/
structure DynBitset where
  blocks : List Nat
  bitsNum : Nat
deriving DecidableEq, Repr

/-- Source `one_block`: the all-ones block, `~block_type(0)` in `w` bits. -/
def onesBlock (w : Nat) : Nat := 2 ^ w - 1

/-- Source `npos = std::numeric_limits<size_type>::max()` for 64-bit `size_t`. -/
def npos : Nat := 2 ^ 64 - 1

/-- Source `blocks_required(nbits) = nbits / bits_per_block + (nbits % bits_per_block > 0)`. -/
def blocksRequired (w nbits : Nat) : Nat :=
  nbits / w + (if nbits % w > 0 then 1 else 0)

/-- Source `block_index(pos) = pos / bits_per_block`. -/
def blockIdx (w pos : Nat) : Nat := pos / w

/-- Source `bit_index(pos) = pos % bits_per_block`. -/
def bitIdx (w pos : Nat) : Nat := pos % w

/-- Source `bit_mask(pos) = block_type(1) << bit_index(pos)`. -/
def bitMask (w pos : Nat) : Nat := 1 <<< bitIdx w pos

/-- Source `l.set i (f l[i])`: write index `i` of a block list through `f` (models
`m_blocks[i] op= ...`); out-of-range indices are untouched. -/
def modifyIdx (l : List Nat) (i : Nat) (f : Nat → Nat) : List Nat :=
  l.set i (f (l.getD i 0))

/-- In-place update of `last_block()` (models `last_block() op= ...`). -/
def modifyLast (f : Nat → Nat) (l : List Nat) : List Nat :=
  modifyIdx l (l.length - 1) f

/-- Source `std::vector::resize(n, fill)`: truncate or extend with `fill`. -/
def listResize (l : List Nat) (n : Nat) (fill : Nat) : List Nat :=
  if n ≤ l.length then l.take n else l ++ List.replicate (n - l.length) fill

/-- Source `sanitize()`: clear the unused bits of the last block,
`last_block() &= ~(one_block << (m_bits_number % bits_per_block))`. -/
def sanitize (w : Nat) (v : DynBitset) : DynBitset :=
  let shift := v.bitsNum % w
  if shift > 0 then
    ⟨modifyLast (fun b => b &&& (onesBlock w ^^^ ((onesBlock w <<< shift) % 2 ^ w))) v.blocks,
      v.bitsNum⟩
  else v

/-- Source `check_unused_bits()`: the unused bits of the last block are all zero. -/
def checkUnusedBits (w : Nat) (v : DynBitset) : Bool :=
  let extra := v.bitsNum % w
  if extra > 0 then
    (v.blocks.getD (v.blocks.length - 1) 0) &&& ((onesBlock w <<< extra) % 2 ^ w) == 0
  else true

/-- Source `check_size()`: `blocks_required(size()) == m_blocks.size()`. -/
def checkSize (w : Nat) (v : DynBitset) : Bool :=
  blocksRequired w v.bitsNum == v.blocks.length

/-- Source `check_consistency() = check_unused_bits() && check_size()`. -/
def checkConsistency (w : Nat) (v : DynBitset) : Bool :=
  checkUnusedBits w v && checkSize w v

/-- Well-formed state: `check_consistency()` holds and every stored block fits
in `w` bits (enforced in C++ by the block type itself). -/
def Wf (w : Nat) (v : DynBitset) : Prop :=
  checkConsistency w v = true ∧ ∀ b ∈ v.blocks, b < 2 ^ w

instance instDecidableWf (w : Nat) (v : DynBitset) : Decidable (Wf w v) := by
  unfold Wf
  infer_instance

/-- Source `test(pos)`: `(m_blocks[block_index(pos)] & bit_mask(pos)) != zero_block`. -/
def test (w : Nat) (v : DynBitset) (pos : Nat) : Bool :=
  (v.blocks.getD (blockIdx w pos) 0) &&& bitMask w pos != 0

/-- Default constructor: empty bitset. -/
def mkEmpty : DynBitset := ⟨[], 0⟩

/-- Source `clear()`. -/
def clear (_v : DynBitset) : DynBitset := ⟨[], 0⟩

/-- Single-bit `set(pos, value)`. -/
def setAt (w : Nat) (v : DynBitset) (pos : Nat) (value : Bool) : DynBitset :=
  if value then
    ⟨modifyIdx v.blocks (blockIdx w pos) (fun b => b ||| bitMask w pos), v.bitsNum⟩
  else
    ⟨modifyIdx v.blocks (blockIdx w pos) (fun b => b &&& (onesBlock w ^^^ bitMask w pos)),
      v.bitsNum⟩

/-- Single-bit `reset(pos)` = `set(pos, false)`. -/
def resetAt (w : Nat) (v : DynBitset) (pos : Nat) : DynBitset := setAt w v pos false

/-- Single-bit `flip(pos)`: `m_blocks[block_index(pos)] ^= bit_mask(pos)`. -/
def flipAt (w : Nat) (v : DynBitset) (pos : Nat) : DynBitset :=
  ⟨modifyIdx v.blocks (blockIdx w pos) (fun b => b ^^^ bitMask w pos), v.bitsNum⟩

/-- Source `set()`: fill all blocks with `one_block`, then sanitize. -/
def setAll (w : Nat) (v : DynBitset) : DynBitset :=
  sanitize w ⟨List.replicate v.blocks.length (onesBlock w), v.bitsNum⟩

/-- Source `reset()`: fill all blocks with `zero_block`. -/
def resetAll (v : DynBitset) : DynBitset :=
  ⟨List.replicate v.blocks.length 0, v.bitsNum⟩

/-- Source `flip()`: complement every block, then sanitize. -/
def flipAll (w : Nat) (v : DynBitset) : DynBitset :=
  sanitize w ⟨v.blocks.map (fun b => onesBlock w ^^^ b), v.bitsNum⟩

/-- Two-argument `bit_mask(first, last)`: mask of bits
`bit_index(first) .. bit_index(last)` inside one block. -/
def bitMaskRange (w first last : Nat) : Nat :=
  let f := bitIdx w first
  let l := bitIdx w last
  if l = w - 1 then (onesBlock w <<< f) % 2 ^ w
  else ((1 <<< (l + 1)) - 1) ^^^ ((1 <<< f) - 1)

/-- Source `set_block_bits(block, first, last, val)`. -/
def setBlockBits (w block first last : Nat) (val : Bool) : Nat :=
  if val then block ||| bitMaskRange w first last
  else block &&& (onesBlock w ^^^ bitMaskRange w first last)

/-- Source `flip_block_bits(block, first, last)`. -/
def flipBlockBits (w block first last : Nat) : Nat :=
  block ^^^ bitMaskRange w first last

/-- Ranged `set(pos, len, value)`: partial first block, full middle blocks,
partial last block. -/
def setRange (w : Nat) (v : DynBitset) (pos len : Nat) (value : Bool) : DynBitset :=
  if len = 0 then v
  else
    let fb := blockIdx w pos
    let lb := blockIdx w (pos + len - 1)
    let fbi := bitIdx w pos
    let lbi := bitIdx w (pos + len - 1)
    if fb = lb then
      ⟨modifyIdx v.blocks fb (fun b => setBlockBits w b fbi lbi value), v.bitsNum⟩
    else
      let ffb := if fbi ≠ 0 then fb + 1 else fb
      let lfb := if lbi ≠ w - 1 then lb - 1 else lb
      let blocks1 :=
        if fbi ≠ 0 then modifyIdx v.blocks fb (fun b => setBlockBits w b fbi (w - 1) value)
        else v.blocks
      let blocks2 :=
        if lbi ≠ w - 1 then modifyIdx blocks1 lb (fun b => setBlockBits w b 0 lbi value)
        else blocks1
      let full := if value then onesBlock w else 0
      ⟨(List.range blocks2.length).map
          (fun i => if ffb ≤ i ∧ i ≤ lfb then full else blocks2.getD i 0),
        v.bitsNum⟩

/-- Ranged `reset(pos, len)` = `set(pos, len, false)`. -/
def resetRange (w : Nat) (v : DynBitset) (pos len : Nat) : DynBitset :=
  setRange w v pos len false

/-- Ranged `flip(pos, len)`. -/
def flipRange (w : Nat) (v : DynBitset) (pos len : Nat) : DynBitset :=
  if len = 0 then v
  else
    let fb := blockIdx w pos
    let lb := blockIdx w (pos + len - 1)
    let fbi := bitIdx w pos
    let lbi := bitIdx w (pos + len - 1)
    if fb = lb then
      ⟨modifyIdx v.blocks fb (fun b => flipBlockBits w b fbi lbi), v.bitsNum⟩
    else
      let ffb := if fbi ≠ 0 then fb + 1 else fb
      let lfb := if lbi ≠ w - 1 then lb - 1 else lb
      let blocks1 :=
        if fbi ≠ 0 then modifyIdx v.blocks fb (fun b => flipBlockBits w b fbi (w - 1))
        else v.blocks
      let blocks2 :=
        if lbi ≠ w - 1 then modifyIdx blocks1 lb (fun b => flipBlockBits w b 0 lbi)
        else blocks1
      ⟨(List.range blocks2.length).map
          (fun i => if ffb ≤ i ∧ i ≤ lfb then onesBlock w ^^^ blocks2.getD i 0
            else blocks2.getD i 0),
        v.bitsNum⟩

/-- Source `push_back(value)`. -/
def pushBack (w : Nat) (v : DynBitset) (value : Bool) : DynBitset :=
  let newLastBit := v.bitsNum
  let grown : DynBitset := ⟨v.blocks, v.bitsNum + 1⟩
  if v.bitsNum + 1 ≤ v.blocks.length * w then
    if value then setAt w grown newLastBit true else grown
  else ⟨v.blocks ++ [if value then 1 else 0], v.bitsNum + 1⟩

/-- Source `pop_back()`. -/
def popBack (w : Nat) (v : DynBitset) : DynBitset :=
  if v.bitsNum = 0 then v
  else
    let bits1 := v.bitsNum - 1
    if v.blocks.length > blocksRequired w bits1 then ⟨v.blocks.dropLast, bits1⟩
    else sanitize w ⟨v.blocks, bits1⟩

/-- Source `append(block)`: add one whole block (`bits_per_block` bits). -/
def appendBlock (w : Nat) (v : DynBitset) (b : Nat) : DynBitset :=
  let extra := v.bitsNum % w
  if extra = 0 then ⟨v.blocks ++ [b], v.bitsNum + w⟩
  else
    ⟨modifyLast (fun t => t ||| ((b <<< extra) % 2 ^ w)) v.blocks ++ [b >>> (w - extra)],
      v.bitsNum + w⟩

/-- Carry loop of `append(first, last)` for a non-aligned current size:
`block = *prev >> unused;` then repeatedly
`block |= (*it << extra); push(block); block = *it >> unused;`, with a final
`push(block)`. -/
def appendCarry (w extra unused carry : Nat) : List Nat → List Nat
  | [] => [carry]
  | x :: xs => (carry ||| ((x <<< extra) % 2 ^ w)) :: appendCarry w extra unused (x >>> unused) xs

/-- Source `append(first, last)`: append a sequence of whole blocks. -/
def appendBlocks (w : Nat) (v : DynBitset) (l : List Nat) : DynBitset :=
  match l with
  | [] => v
  | x :: xs =>
    let extra := v.bitsNum % w
    if extra = 0 then ⟨v.blocks ++ l, v.bitsNum + l.length * w⟩
    else
      let unused := w - extra
      ⟨modifyLast (fun t => t ||| ((x <<< extra) % 2 ^ w)) v.blocks ++
          appendCarry w extra unused (x >>> unused) xs,
        v.bitsNum + l.length * w⟩

/-- The `std::initializer_list<block_type>` constructor: append to empty. -/
def mkFromBlocks (w : Nat) (l : List Nat) : DynBitset := appendBlocks w mkEmpty l

/-- Blockwise in-place binary operation, `m_blocks[i] op= rhs.m_blocks[i]`
for `i < m_blocks.size()`. -/
def zipBlocks (op : Nat → Nat → Nat) (a b : List Nat) : List Nat :=
  (List.range a.length).map (fun i => op (a.getD i 0) (b.getD i 0))

/-- Source `operator&=`. -/
def andEq (A B : DynBitset) : DynBitset :=
  ⟨zipBlocks (· &&& ·) A.blocks B.blocks, A.bitsNum⟩

/-- Source `operator|=`. -/
def orEq (A B : DynBitset) : DynBitset :=
  ⟨zipBlocks (· ||| ·) A.blocks B.blocks, A.bitsNum⟩

/-- Source `operator^=`. -/
def xorEq (A B : DynBitset) : DynBitset :=
  ⟨zipBlocks (· ^^^ ·) A.blocks B.blocks, A.bitsNum⟩

/-- Source `operator-=`: `m_blocks[i] &= ~rhs.m_blocks[i]`. -/
def diffEq (w : Nat) (A B : DynBitset) : DynBitset :=
  ⟨zipBlocks (fun x y => x &&& (onesBlock w ^^^ y)) A.blocks B.blocks, A.bitsNum⟩

/-- Source `operator~`: copy, `flip()` (which sanitizes). -/
def complement (w : Nat) (v : DynBitset) : DynBitset := flipAll w v

/-- Binary `operator&`: copy then `&=`. -/
def andBit (A B : DynBitset) : DynBitset := andEq A B

/-- Source `any()`: some block is nonzero. -/
def anyBit (v : DynBitset) : Bool := v.blocks.any (fun b => b != 0)

/-- Source `none()`: `!any()`. -/
def noneBit (v : DynBitset) : Bool := !anyBit v

/-- Source `apply_left_shift(shift)` viewed functionally: every block is written
before it is read, and each write only reads strictly lower original blocks,
so the result is a pure function of the original block list. -/
def applyLeftShift (w : Nat) (blocks : List Nat) (shift : Nat) : List Nat :=
  let bs := shift / w
  let off := shift % w
  if off = 0 then
    (List.range blocks.length).map (fun i => if bs ≤ i then blocks.getD (i - bs) 0 else 0)
  else
    let rev := w - off
    (List.range blocks.length).map (fun i =>
      if i < bs then 0
      else if i = bs then (blocks.getD 0 0 <<< off) % 2 ^ w
      else ((blocks.getD (i - bs) 0 <<< off) % 2 ^ w) ||| (blocks.getD (i - bs - 1) 0 >>> rev))

/-- Source `apply_right_shift(shift)` viewed functionally. -/
def applyRightShift (w : Nat) (blocks : List Nat) (shift : Nat) : List Nat :=
  let bs := shift / w
  let off := shift % w
  let lastToShift := blocks.length - bs - 1
  if off = 0 then
    (List.range blocks.length).map (fun i =>
      if i ≤ lastToShift then blocks.getD (i + bs) 0 else 0)
  else
    let rev := w - off
    (List.range blocks.length).map (fun i =>
      if i < lastToShift then
        (blocks.getD (i + bs) 0 >>> off) ||| ((blocks.getD (i + bs + 1) 0 <<< rev) % 2 ^ w)
      else if i = lastToShift then blocks.getD (blocks.length - 1) 0 >>> off
      else 0)

/-- Source `operator<<=`. -/
def shlEq (w : Nat) (v : DynBitset) (shift : Nat) : DynBitset :=
  if shift = 0 then v
  else if shift ≥ v.bitsNum then resetAll v
  else sanitize w ⟨applyLeftShift w v.blocks shift, v.bitsNum⟩

/-- Source `operator>>=`. -/
def shrEq (w : Nat) (v : DynBitset) (shift : Nat) : DynBitset :=
  if shift = 0 then v
  else if shift ≥ v.bitsNum then resetAll v
  else ⟨applyRightShift w v.blocks shift, v.bitsNum⟩

/-- Source `dynamic_bitset(nbits, init_val)` where `ull` is the bit width of
`unsigned long long`; `ull / w` models `sizeof(unsigned long long) /
sizeof(block_type)` (equal whenever `w` divides `ull`). -/
def mkFromVal (w ull nbits initVal : Nat) : DynBitset :=
  let nb := blocksRequired w nbits
  if nbits = 0 ∨ initVal = 0 then ⟨List.replicate nb 0, nbits⟩
  else
    let ratio := ull / w
    let blocks :=
      if ratio = 1 then (List.replicate nb 0).set 0 (initVal % 2 ^ w)
      else
        let toInit := min nb ratio
        (List.range nb).map (fun i =>
          if i < toInit then (initVal >>> (i * w)) &&& onesBlock w else 0)
    sanitize w ⟨blocks, nbits⟩

/-- Source `init_from_string(str, pos, n, zero, one)`: bit `i` comes from character
`(pos + size - 1) - i`, where `size = min(n, str.size() - pos)`. -/
def initFromString (w : Nat) (str : List Char) (pos n : Nat) (zero one : Char) : DynBitset :=
  let size := min n (str.length - pos)
  let base : DynBitset := ⟨List.replicate (blocksRequired w size) 0, size⟩
  (List.range size).foldl
    (fun v i => if str.getD (pos + size - 1 - i) zero = one then setAt w v i true else v)
    base

/-- The string constructor over the whole string (the C++ default sub-range
`n = npos` makes the effective length `min(npos, str.size()) = str.size()`). -/
def fromString (w : Nat) (s : List Char) (zero one : Char) : DynBitset :=
  initFromString w s 0 s.length zero one

/-- Source `to_string(zero, one)`: character `size - 1 - p` reports bit `p`; written
as in the source, block by block over a string pre-filled with `zero`. -/
def toString (w : Nat) (v : DynBitset) (zero one : Char) : List Char :=
  let len := v.bitsNum
  (List.range v.blocks.length).foldl
    (fun str iBlock =>
      let block := v.blocks.getD iBlock 0
      if block = 0 then str
      else
        let limit := if iBlock * w < len then len - iBlock * w else w
        (List.range limit).foldl
          (fun str iBit =>
            if block &&& ((1 <<< iBit) % 2 ^ w) != 0 then
              str.set (len - (iBlock * w + iBit + 1)) one
            else str)
          str)
    (List.replicate len zero)

/-- Portable per-bit loop of the one-argument `block_count(block)`. -/
def blockCountFull (w b : Nat) : Nat :=
  if b = 0 then 0
  else (List.range w).foldl (fun c i => c + (if b &&& (1 <<< i) != 0 then 1 else 0)) 0

/-- Portable per-bit loop of `block_count(block, nbits)`; `nbits ≤ w` is the
source's assertion, the loop itself only reads `nbits`. -/
def blockCountPart (_w b nbits : Nat) : Nat :=
  if b = 0 then 0
  else (List.range nbits).foldl (fun c i => c + (if b &&& (1 <<< i) != 0 then 1 else 0)) 0

/-- Accelerated path of `block_count(block, nbits)`: population count of
`block_type(block << (bits_per_block - nbits))`, the intrinsic modelled as an
exact per-bit population count of the shifted block. -/
def blockCountAccel (w b nbits : Nat) : Nat :=
  if b = 0 then 0 else blockCountFull w ((b <<< (w - nbits)) % 2 ^ w)

/-- Source `count()` (portable path): full blocks counted whole, the last block only
over its extra bits. -/
def count (w : Nat) (v : DynBitset) : Nat :=
  if v.bitsNum = 0 then 0
  else
    let full := (List.range (v.blocks.length - 1)).foldl
      (fun c i => c + blockCountFull w (v.blocks.getD i 0)) 0
    let lastB := v.blocks.getD (v.blocks.length - 1) 0
    let lastC :=
      if lastB ≠ 0 then
        let extra := v.bitsNum % w
        if extra = 0 then blockCountFull w lastB else blockCountPart w lastB extra
      else 0
    full + lastC

/-- Portable fallback loop of `first_on(block)`: first set bit at index ≥ `i`
within `fuel` remaining iterations, else `npos`. -/
def firstOnGo (b : Nat) : Nat → Nat → Nat
  | 0, _ => npos
  | fuel + 1, i => if b &&& (1 <<< i) != 0 then i else firstOnGo b fuel (i + 1)

/-- Source `first_on(block)`: index of the lowest set bit. -/
def firstOn (w b : Nat) : Nat := firstOnGo b w 0

/-- Block scan loop shared by `find_first` / `find_next`: first nonzero block
at list position ≥ `i` decides the answer. -/
def findFirstAux (w : Nat) : List Nat → Nat → Nat
  | [], _ => npos
  | b :: rest, i => if b ≠ 0 then i * w + firstOn w b else findFirstAux w rest (i + 1)

/-- Source `find_first()`. -/
def findFirst (w : Nat) (v : DynBitset) : Nat := findFirstAux w v.blocks 0

/-- Source `find_next(prev)`. -/
def findNext (w : Nat) (v : DynBitset) (prev : Nat) : Nat :=
  if v.bitsNum = 0 ∨ prev ≥ v.bitsNum - 1 then npos
  else
    let firstBit := prev + 1
    let fb := blockIdx w firstBit
    let fbi := bitIdx w firstBit
    let shifted := v.blocks.getD fb 0 >>> fbi
    if shifted ≠ 0 then firstBit + firstOn w shifted
    else findFirstAux w (v.blocks.drop (fb + 1)) (fb + 1)

/-- Source `is_subset_of(bitset)`: every block satisfies
`(m_blocks[i] & ~bitset.m_blocks[i]) == 0`. -/
def isSubsetOf (w : Nat) (A B : DynBitset) : Bool :=
  (List.range A.blocks.length).all
    (fun i => A.blocks.getD i 0 &&& (onesBlock w ^^^ B.blocks.getD i 0) == 0)

/-- Loop of `is_proper_subset_of`: early `false` on a self-bit missing from
the other, otherwise accumulate whether the other has a strictly extra bit. -/
def isProperGo (w : Nat) : List (Nat × Nat) → Bool → Bool
  | [], acc => acc
  | (x, y) :: rest, acc =>
    if x &&& (onesBlock w ^^^ y) ≠ 0 then false
    else isProperGo w rest (acc || decide ((onesBlock w ^^^ x) &&& y ≠ 0))

/-- Source `is_proper_subset_of(bitset)`. -/
def isProperSubsetOf (w : Nat) (A B : DynBitset) : Bool :=
  isProperGo w (A.blocks.zip B.blocks) false

/-- Source `intersects(bitset)`: some block pair over the shorter block range has a
nonzero AND. -/
def intersects (A B : DynBitset) : Bool :=
  (List.range (min A.blocks.length B.blocks.length)).any
    (fun i => A.blocks.getD i 0 &&& B.blocks.getD i 0 != 0)

/-- Source `operator==`: equal sizes and equal block vectors. -/
def beqDyn (A B : DynBitset) : Bool :=
  A.bitsNum == B.bitsNum && A.blocks == B.blocks

/-- Most-significant-first block comparison loop `for i = top; i > 0; --i`
with early return, plus the index-0 check: `some c` when the topmost
differing block compares as `c`, `none` when all of `a[top..0]` agree. -/
def msbCmp (a b : List Nat) : Nat → Option Bool
  | 0 =>
    if a.getD 0 0 ≠ b.getD 0 0 then some (decide (a.getD 0 0 < b.getD 0 0)) else none
  | i + 1 =>
    if a.getD (i + 1) 0 ≠ b.getD (i + 1) 0 then some (decide (a.getD (i + 1) 0 < b.getD (i + 1) 0))
    else msbCmp a b i

/-- Loop `for i = hi; i >= lo; --i: if l[i] != 0 return true` of
`operator<` over the longest bitset's high blocks. -/
def anyNonzeroDownTo (l : List Nat) (lo : Nat) : Nat → Bool
  | 0 => if lo = 0 then l.getD 0 0 != 0 else false
  | i + 1 => if i + 1 < lo then false else ((l.getD (i + 1) 0 != 0) || anyNonzeroDownTo l lo i)

/-- Source `operator<`; `rhs_longer = rhs_size > lhs_size` is written as the
proposition `A.bitsNum < B.bitsNum`. -/
def ltDyn (A B : DynBitset) : Bool :=
  if A.bitsNum = B.bitsNum then
    if A.bitsNum = 0 then false
    else (msbCmp A.blocks B.blocks (A.blocks.length - 1)).getD false
  else if A.bitsNum = 0 then true
  else if B.bitsNum = 0 then false
  else
    if anyNonzeroDownTo (if A.bitsNum < B.bitsNum then B.blocks else A.blocks)
        (min A.blocks.length B.blocks.length)
        (max A.blocks.length B.blocks.length - 1) then
      decide (A.bitsNum < B.bitsNum)
    else
      (msbCmp A.blocks B.blocks (min A.blocks.length B.blocks.length - 1)).getD
        (decide (A.bitsNum < B.bitsNum))

/-- Source `resize(nbits, value)`. -/
def resize (w : Nat) (v : DynBitset) (nbits : Nat) (value : Bool) : DynBitset :=
  if nbits = v.bitsNum then v
  else
    let oldNum := v.blocks.length
    let newNum := blocksRequired w nbits
    let initV := if value then onesBlock w else 0
    let blocks1 := if newNum ≠ oldNum then listResize v.blocks newNum initV else v.blocks
    let blocks2 :=
      if value ∧ v.bitsNum < nbits ∧ 0 < oldNum then
        let extra := v.bitsNum % w
        if extra > 0 then
          modifyIdx blocks1 (oldNum - 1) (fun b => b ||| ((initV <<< extra) % 2 ^ w))
        else blocks1
      else blocks1
    sanitize w ⟨blocks2, nbits⟩

/-- The magnitude represented by a block list, least-significant block first. -/
def natVal (w : Nat) : List Nat → Nat
  | [] => 0
  | b :: rest => b + 2 ^ w * natVal w rest

/-! ### List access lemmas -/

theorem getD_of_le (l : List Nat) {i : Nat} (h : l.length ≤ i) : l.getD i 0 = 0 := by
  simp [List.getD_eq_getElem?_getD, List.getElem?_eq_none h]

theorem getD_append_left {l1 l2 : List Nat} {i : Nat} (h : i < l1.length) :
    (l1 ++ l2).getD i 0 = l1.getD i 0 := by
  simp [List.getD_eq_getElem?_getD, List.getElem?_append_left h]

theorem getD_append_right {l1 l2 : List Nat} {i : Nat} (h : l1.length ≤ i) :
    (l1 ++ l2).getD i 0 = l2.getD (i - l1.length) 0 := by
  simp [List.getD_eq_getElem?_getD, List.getElem?_append_right h]

theorem getD_set_self {l : List Nat} {i a : Nat} (h : i < l.length) :
    (l.set i a).getD i 0 = a := by
  simp [List.getD_eq_getElem?_getD, List.getElem?_set_self h]

theorem getD_set_ne {l : List Nat} {i j a : Nat} (h : i ≠ j) :
    (l.set i a).getD j 0 = l.getD j 0 := by
  simp [List.getD_eq_getElem?_getD, List.getElem?_set_ne h]

theorem getD_replicate {n a i : Nat} :
    (List.replicate n a).getD i 0 = if i < n then a else 0 := by
  by_cases h : i < n <;>
    simp [List.getD_eq_getElem?_getD, List.getElem?_replicate, h]

theorem getD_range_map (f : Nat → Nat) (n i : Nat) :
    ((List.range n).map f).getD i 0 = if i < n then f i else 0 := by
  by_cases h : i < n
  · simp [List.getD_eq_getElem?_getD, List.getElem?_map, List.getElem?_range h, h]
  · have hl : ((List.range n).map f).length ≤ i := by
      simpa using Nat.le_of_not_lt h
    simp [List.getD_eq_getElem?_getD, List.getElem?_eq_none hl, h]

theorem length_modifyIdx (l : List Nat) (i : Nat) (f : Nat → Nat) :
    (modifyIdx l i f).length = l.length := by
  simp [modifyIdx]

theorem getD_modifyIdx_self {l : List Nat} {i : Nat} (f : Nat → Nat) (h : i < l.length) :
    (modifyIdx l i f).getD i 0 = f (l.getD i 0) := by
  unfold modifyIdx
  exact getD_set_self h

theorem getD_modifyIdx_ne {l : List Nat} {i j : Nat} (f : Nat → Nat) (h : i ≠ j) :
    (modifyIdx l i f).getD j 0 = l.getD j 0 := by
  unfold modifyIdx
  exact getD_set_ne h

theorem length_modifyLast (f : Nat → Nat) (l : List Nat) :
    (modifyLast f l).length = l.length := length_modifyIdx ..

theorem getD_drop (l : List Nat) (k i : Nat) :
    (l.drop k).getD i 0 = l.getD (k + i) 0 := by
  simp [List.getD_eq_getElem?_getD, List.getElem?_drop]

/-! ### Bit-level bridges -/

theorem ne_zero_of_testBit {x i : Nat} (h : x.testBit i = true) : x ≠ 0 := by
  rintro rfl; simp at h

theorem and_mask_ne_zero_iff (x j : Nat) : (x &&& (1 <<< j) ≠ 0) ↔ x.testBit j = true := by
  rw [Nat.one_shiftLeft]
  constructor
  · intro h
    by_contra hb
    apply h
    apply Nat.eq_of_testBit_eq
    intro i
    rw [Nat.testBit_and, Nat.testBit_two_pow, Nat.zero_testBit]
    by_cases hij : j = i
    · subst hij
      simp [Bool.eq_false_iff.mpr (fun hx => hb hx)]
    · simp [hij]
  · intro h hz
    have := congrArg (fun t => t.testBit j) hz
    simp [Nat.testBit_and, Nat.testBit_two_pow_self, h] at this

theorem bne_zero_eq_testBit (x j : Nat) : (x &&& (1 <<< j) != 0) = x.testBit j := by
  rcases hb : x.testBit j with _ | _
  · have hx0 : x &&& (1 <<< j) = 0 := by
      by_contra hc
      have := (and_mask_ne_zero_iff x j).mp hc
      rw [hb] at this
      exact Bool.false_ne_true this
    simp [hx0]
  · have hne := (and_mask_ne_zero_iff x j).mpr hb
    simp [bne_iff_ne, hne]

/-- The fundamental reading of `test`: bit `pos % w` of block `pos / w`. -/
theorem test_eq_testBit (w : Nat) (v : DynBitset) (pos : Nat) :
    test w v pos = (v.blocks.getD (pos / w) 0).testBit (pos % w) := by
  simp [test, blockIdx, bitIdx, bitMask, bne_zero_eq_testBit]

theorem eq_zero_iff_testBit (x : Nat) : x = 0 ↔ ∀ i, x.testBit i = false := by
  constructor
  · rintro rfl i; simp
  · intro h
    apply Nat.eq_of_testBit_eq
    simp [h]

/-- Bits of the truncated shifted all-ones mask `(one_block << s) % 2^w`. -/
theorem testBit_ones_shift (w s i : Nat) :
    ((onesBlock w <<< s) % 2 ^ w).testBit i = decide (s ≤ i ∧ i < w) := by
  rw [onesBlock, Nat.testBit_mod_two_pow, Nat.testBit_shiftLeft,
    Nat.testBit_two_pow_sub_one]
  by_cases h1 : i < w <;> by_cases h2 : s ≤ i
  · have h3 : i - s < w := by omega
    simp [h1, h2, h3]
  · simp [h1, h2]
  · simp [h1, h2]
  · simp [h1, h2]

/-- Bits of the all-ones block. -/
theorem testBit_onesBlock (w i : Nat) : (onesBlock w).testBit i = decide (i < w) := by
  simp [onesBlock]

theorem lt_two_pow_iff_testBit (x n : Nat) :
    x < 2 ^ n ↔ ∀ i, n ≤ i → x.testBit i = false := by
  constructor
  · intro h i hi
    exact Nat.testBit_lt_two_pow (Nat.lt_of_lt_of_le h (Nat.pow_le_pow_right (by omega) hi))
  · intro h
    exact Nat.lt_pow_two_of_testBit x (fun i hi => h i hi)

theorem getD_mem {l : List Nat} {i : Nat} (h : i < l.length) : l.getD i 0 ∈ l := by
  rw [List.getD_eq_getElem?_getD, List.getElem?_eq_getElem h]
  exact List.getElem_mem h

/-! ### Well-formedness -/

/-- A block with zero unused bits is exactly a block below `2 ^ extra`. -/
theorem mask_zero_iff {w e x : Nat} (hx : x < 2 ^ w) :
    x &&& ((onesBlock w <<< e) % 2 ^ w) = 0 ↔ x < 2 ^ e := by
  rw [eq_zero_iff_testBit, lt_two_pow_iff_testBit]
  constructor
  · intro h i hi
    by_cases hw : i < w
    · have hh := h i
      rw [Nat.testBit_and, testBit_ones_shift] at hh
      simpa [hi, hw] using hh
    · exact Nat.testBit_lt_two_pow
        (Nat.lt_of_lt_of_le hx (Nat.pow_le_pow_right (by omega) (Nat.le_of_not_lt hw)))
  · intro h i
    rw [Nat.testBit_and, testBit_ones_shift]
    by_cases hc : e ≤ i ∧ i < w
    · simp [hc, h i hc.1]
    · simp [hc]

/-- Unfolded form of `Wf`: block count, block bounds, and a sanitized last
block (strictly below `2 ^ (size mod w)` when the size is not aligned). -/
theorem wf_iff (w : Nat) (v : DynBitset) :
    Wf w v ↔
      v.blocks.length = blocksRequired w v.bitsNum ∧
      (∀ b ∈ v.blocks, b < 2 ^ w) ∧
      (v.bitsNum % w > 0 →
        v.blocks.getD (v.blocks.length - 1) 0 < 2 ^ (v.bitsNum % w)) := by
  unfold Wf checkConsistency checkUnusedBits checkSize
  simp only [Bool.and_eq_true, beq_iff_eq]
  constructor
  · rintro ⟨⟨hu, hs⟩, hb⟩
    refine ⟨hs.symm, hb, ?_⟩
    intro he
    rw [if_pos he, beq_iff_eq] at hu
    have hlt : v.blocks.getD (v.blocks.length - 1) 0 < 2 ^ w := by
      rcases Nat.eq_zero_or_pos v.blocks.length with h0 | h0
      · rw [getD_of_le _ (by omega)]
        exact Nat.pos_pow_of_pos _ (by omega)
      · exact hb _ (getD_mem (by omega))
    exact (mask_zero_iff hlt).mp hu
  · rintro ⟨hs, hb, hu⟩
    refine ⟨⟨?_, hs.symm⟩, hb⟩
    by_cases he : v.bitsNum % w > 0
    · rw [if_pos he, beq_iff_eq]
      have hlt : v.blocks.getD (v.blocks.length - 1) 0 < 2 ^ w := by
        rcases Nat.eq_zero_or_pos v.blocks.length with h0 | h0
        · rw [getD_of_le _ (by omega)]
          exact Nat.pos_pow_of_pos _ (by omega)
        · exact hb _ (getD_mem (by omega))
      exact (mask_zero_iff hlt).mpr (hu he)
    · rw [if_neg he]

/-- In a well-formed bitset, a set bit of block `i` at intra-block index `j`
addresses a position `i * w + j` strictly below the logical size. -/
theorem pos_lt_of_testBit {w : Nat} (_hw : 0 < w) {v : DynBitset} (h : Wf w v)
    {i j : Nat} (hj : j < w) (hbit : (v.blocks.getD i 0).testBit j = true) :
    i * w + j < v.bitsNum := by
  rw [wf_iff] at h
  obtain ⟨hlen, _hb, hu⟩ := h
  have hi : i < v.blocks.length := by
    by_contra hc
    rw [getD_of_le _ (Nat.le_of_not_lt hc)] at hbit
    simp at hbit
  rw [hlen] at hi
  unfold blocksRequired at hi
  by_cases he : v.bitsNum % w > 0
  · rw [if_pos he] at hi
    by_cases hq : i < v.bitsNum / w
    · calc i * w + j < i * w + w := by omega
        _ = (i + 1) * w := by ring
        _ ≤ (v.bitsNum / w) * w := Nat.mul_le_mul_right w hq
        _ ≤ v.bitsNum := Nat.div_mul_le_self ..
    · have hieq : i = v.bitsNum / w := by omega
      have hlast : i = v.blocks.length - 1 := by
        rw [hlen]; unfold blocksRequired; rw [if_pos he]; omega
      rw [← hlast] at hu
      have hlt := hu he
      have hjlt : j < v.bitsNum % w := by
        by_contra hc
        have h2 : 2 ^ (v.bitsNum % w) ≤ 2 ^ j :=
          Nat.pow_le_pow_right (by omega) (Nat.le_of_not_lt hc)
        have := Nat.testBit_implies_ge hbit
        omega
      have := Nat.div_add_mod v.bitsNum w
      calc i * w + j < i * w + v.bitsNum % w := by omega
        _ = w * (v.bitsNum / w) + v.bitsNum % w := by rw [hieq]; ring
        _ = v.bitsNum := Nat.div_add_mod ..
  · rw [if_neg he] at hi
    calc i * w + j < i * w + w := by omega
      _ = (i + 1) * w := by ring
      _ ≤ (v.bitsNum / w) * w := Nat.mul_le_mul_right w hi
      _ ≤ v.bitsNum := Nat.div_mul_le_self ..

/-- In a well-formed bitset a set position is below the size. -/
theorem lt_size_of_test {w : Nat} (hw : 0 < w) {v : DynBitset} (h : Wf w v)
    {p : Nat} (ht : test w v p = true) : p < v.bitsNum := by
  rw [test_eq_testBit] at ht
  have hlt := pos_lt_of_testBit hw h (Nat.mod_lt p hw) ht
  rw [Nat.mul_comm] at hlt
  rwa [Nat.div_add_mod] at hlt

theorem div_lt_blocksRequired {w n p : Nat} (hw : 0 < w) (h : p < n) :
    p / w < blocksRequired w n := by
  unfold blocksRequired
  have hn := Nat.div_add_mod n w
  by_cases he : n % w > 0
  · rw [if_pos he, Nat.div_lt_iff_lt_mul hw]
    have hmw : n % w < w := Nat.mod_lt _ hw
    calc p < n := h
      _ = w * (n / w) + n % w := hn.symm
      _ < w * (n / w) + w := by omega
      _ = (n / w + 1) * w := by ring
  · rw [if_neg he, Nat.div_lt_iff_lt_mul hw]
    have he0 : n % w = 0 := by omega
    calc p < n := h
      _ = w * (n / w) + n % w := hn.symm
      _ = n / w * w := by rw [he0]; ring

theorem mul_add_div_self {w i j : Nat} (hw : 0 < w) (hj : j < w) : (i * w + j) / w = i := by
  rw [Nat.mul_comm, Nat.mul_add_div hw, Nat.div_eq_of_lt hj]
  omega

theorem mul_add_mod_self {w i j : Nat} (hj : j < w) : (i * w + j) % w = j := by
  rw [Nat.mul_comm, Nat.mul_add_mod, Nat.mod_eq_of_lt hj]

/-- A nonzero block (bounded by `2 ^ w`) has a set bit below `w`. -/
theorem exists_testBit_of_ne_zero {w b : Nat} (hb : b < 2 ^ w) (h : b ≠ 0) :
    ∃ j, j < w ∧ b.testBit j = true := by
  obtain ⟨j, hj⟩ := Nat.ne_zero_implies_bit_true h
  refine ⟨j, ?_, hj⟩
  by_contra hc
  have := Nat.testBit_lt_two_pow
    (Nat.lt_of_lt_of_le hb (Nat.pow_le_pow_right (by omega) (Nat.le_of_not_lt hc)))
  rw [this] at hj
  exact Bool.false_ne_true hj

/-! ### Sanitize characterization -/

theorem sanitize_bitsNum (w : Nat) (v : DynBitset) : (sanitize w v).bitsNum = v.bitsNum := by
  unfold sanitize
  by_cases h : v.bitsNum % w > 0 <;> simp [h]

theorem sanitize_length (w : Nat) (v : DynBitset) :
    (sanitize w v).blocks.length = v.blocks.length := by
  unfold sanitize
  by_cases h : v.bitsNum % w > 0 <;> simp [h, modifyLast, length_modifyIdx]

/-- Bits of the mask `~(one_block << e)` used by `sanitize`. -/
theorem testBit_sanitize_mask {w e : Nat} (he : e < w) (j : Nat) :
    (onesBlock w ^^^ ((onesBlock w <<< e) % 2 ^ w)).testBit j = decide (j < e) := by
  rw [Nat.testBit_xor, testBit_ones_shift, testBit_onesBlock]
  by_cases h1 : j < e
  · have hjw : j < w := Nat.lt_of_lt_of_le h1 (Nat.le_of_lt he)
    have hne : ¬e ≤ j := Nat.not_le.mpr h1
    simp [h1, hjw, hne]
  · by_cases h2 : j < w
    · have hle : e ≤ j := Nat.le_of_not_lt h1
      simp [h1, h2, hle]
    · simp [h1, h2]

theorem getD_sanitize (w : Nat) (v : DynBitset) (i : Nat) :
    (sanitize w v).blocks.getD i 0 =
      if 0 < v.bitsNum % w ∧ i = v.blocks.length - 1 then
        v.blocks.getD i 0 &&& (onesBlock w ^^^ ((onesBlock w <<< (v.bitsNum % w)) % 2 ^ w))
      else v.blocks.getD i 0 := by
  unfold sanitize modifyLast
  by_cases hs : v.bitsNum % w > 0
  · simp only [hs, if_pos, gt_iff_lt, if_true]
    by_cases hi : i = v.blocks.length - 1
    · subst hi
      rcases Nat.eq_zero_or_pos v.blocks.length with h0 | h0
      · rw [List.length_eq_zero] at h0
        simp [h0, modifyIdx, hs]
      · rw [getD_modifyIdx_self _ (by omega)]
        simp [hs]
    · rw [getD_modifyIdx_ne _ (fun hc => hi hc.symm)]
      simp [hs, hi]
  · have h0 : ¬(0 < v.bitsNum % w ∧ i = v.blocks.length - 1) := fun hc => hs hc.1
    simp [hs, h0]

theorem forall_mem_iff_getD (l : List Nat) (P : Nat → Prop) (h0 : P 0) :
    (∀ b ∈ l, P b) ↔ ∀ i, P (l.getD i 0) := by
  constructor
  · intro h i
    by_cases hi : i < l.length
    · exact h _ (getD_mem hi)
    · rw [getD_of_le _ (Nat.le_of_not_lt hi)]
      exact h0
  · intro h b hb
    obtain ⟨i, hi, rfl⟩ := List.mem_iff_getElem.mp hb
    have hh := h i
    rwa [List.getD_eq_getElem?_getD, List.getElem?_eq_getElem hi] at hh

theorem bound_iff_getD {w : Nat} (l : List Nat) (_hw : 0 < w) :
    (∀ b ∈ l, b < 2 ^ w) ↔ ∀ i, l.getD i 0 < 2 ^ w := by
  constructor
  · intro h i
    by_cases hi : i < l.length
    · exact h _ (getD_mem hi)
    · rw [getD_of_le _ (Nat.le_of_not_lt hi)]
      exact Nat.pos_pow_of_pos _ (by omega)
  · intro h b hb
    obtain ⟨i, hi, rfl⟩ := List.mem_iff_getElem.mp hb
    have := h i
    rwa [List.getD_eq_getElem?_getD, List.getElem?_eq_getElem hi] at this

/-- Sanitizing a state with the right number of `w`-bit blocks yields a
well-formed state. -/
theorem wf_sanitize {w : Nat} (hw : 0 < w) {blocks : List Nat} {n : Nat}
    (hlen : blocks.length = blocksRequired w n) (hb : ∀ b ∈ blocks, b < 2 ^ w) :
    Wf w (sanitize w ⟨blocks, n⟩) := by
  rw [wf_iff, sanitize_bitsNum, sanitize_length]
  refine ⟨hlen, ?_, ?_⟩
  · rw [bound_iff_getD _ hw]
    intro i
    rw [getD_sanitize]
    by_cases hc : 0 < n % w ∧ i = blocks.length - 1
    · rw [if_pos hc]
      exact Nat.lt_of_le_of_lt Nat.and_le_left ((bound_iff_getD _ hw).mp hb i)
    · rw [if_neg hc]
      exact (bound_iff_getD _ hw).mp hb i
  · intro he
    rw [getD_sanitize, if_pos ⟨he, rfl⟩]
    rw [lt_two_pow_iff_testBit]
    intro j hj
    rw [Nat.testBit_and, testBit_sanitize_mask (Nat.mod_lt _ hw)]
    simp [Nat.not_lt.mpr hj]

theorem and_eq_zero_iff (x y : Nat) :
    x &&& y = 0 ↔ ∀ j, ¬(x.testBit j = true ∧ y.testBit j = true) := by
  rw [eq_zero_iff_testBit]
  constructor
  · intro h j hc
    have := h j
    rw [Nat.testBit_and, hc.1, hc.2] at this
    simp at this
  · intro h j
    rw [Nat.testBit_and]
    rcases hx : x.testBit j with _ | _
    · simp
    · rcases hy : y.testBit j with _ | _
      · simp
      · exact absurd ⟨hx, hy⟩ (h j)

/-! ### Claim theorems -/

/-- C8: `intersects` is true iff some corresponding block pair, compared only
over the shorter vector's block range, has a nonzero AND; equivalently (for
well-formed operands) iff some position below both sizes is set in both
bitsets.  No equal-size precondition is involved. -/
theorem claim_C8 (w : Nat) (hw : 0 < w) (A B : DynBitset) (hA : Wf w A) (hB : Wf w B) :
    (intersects A B = true ↔
      ∃ i, i < min A.blocks.length B.blocks.length ∧
        A.blocks.getD i 0 &&& B.blocks.getD i 0 ≠ 0) ∧
    (intersects A B = true ↔
      ∃ p, p < min A.bitsNum B.bitsNum ∧ test w A p = true ∧ test w B p = true) := by
  have hblocks : intersects A B = true ↔
      ∃ i, i < min A.blocks.length B.blocks.length ∧
        A.blocks.getD i 0 &&& B.blocks.getD i 0 ≠ 0 := by
    unfold intersects
    rw [List.any_eq_true]
    constructor
    · rintro ⟨i, hi, hp⟩
      rw [List.mem_range] at hi
      exact ⟨i, hi, by simpa [bne_iff_ne] using hp⟩
    · rintro ⟨i, hi, hp⟩
      exact ⟨i, List.mem_range.mpr hi, by simpa [bne_iff_ne] using hp⟩
  refine ⟨hblocks, hblocks.trans ?_⟩
  constructor
  · rintro ⟨i, hi, hne⟩
    have hiA : i < A.blocks.length := by omega
    have hiB : i < B.blocks.length := by omega
    have hbA : A.blocks.getD i 0 < 2 ^ w := hA.2 _ (getD_mem hiA)
    have handlt : A.blocks.getD i 0 &&& B.blocks.getD i 0 < 2 ^ w :=
      Nat.and_lt_two_pow _ (hB.2 _ (getD_mem hiB))
    obtain ⟨j, hj, hbit⟩ := exists_testBit_of_ne_zero handlt hne
    rw [Nat.testBit_and, Bool.and_eq_true] at hbit
    refine ⟨i * w + j, ?_, ?_, ?_⟩
    · have h1 := pos_lt_of_testBit hw hA hj hbit.1
      have h2 := pos_lt_of_testBit hw hB hj hbit.2
      omega
    · rw [test_eq_testBit, mul_add_div_self hw hj, mul_add_mod_self hj]
      exact hbit.1
    · rw [test_eq_testBit, mul_add_div_self hw hj, mul_add_mod_self hj]
      exact hbit.2
  · rintro ⟨p, hp, htA, htB⟩
    rw [test_eq_testBit] at htA htB
    refine ⟨p / w, ?_, ?_⟩
    · have h1 : p / w < blocksRequired w A.bitsNum :=
        div_lt_blocksRequired hw (by omega)
      have h2 : p / w < blocksRequired w B.bitsNum :=
        div_lt_blocksRequired hw (by omega)
      rw [(wf_iff w A).mp hA |>.1, (wf_iff w B).mp hB |>.1]
      omega
    · intro hz
      have hcontra : (A.blocks.getD (p / w) 0 &&& B.blocks.getD (p / w) 0).testBit (p % w)
          = false := by
        rw [hz]
        exact Nat.zero_testBit _
      rw [Nat.testBit_and, htA, htB] at hcontra
      simp at hcontra

/-- Lookup in a `map` over a block list. -/
theorem getD_map (f : Nat → Nat) (l : List Nat) (i : Nat) :
    (l.map f).getD i 0 = if i < l.length then f (l.getD i 0) else 0 := by
  by_cases h : i < l.length
  · simp [List.getD_eq_getElem?_getD, List.getElem?_map, List.getElem?_eq_getElem h, h]
  · rw [getD_of_le, if_neg h]
    simpa using Nat.le_of_not_lt h

theorem length_zipBlocks (op : Nat → Nat → Nat) (a b : List Nat) :
    (zipBlocks op a b).length = a.length := by
  simp [zipBlocks]

theorem getD_zipBlocks (op : Nat → Nat → Nat) (a b : List Nat) (i : Nat) :
    (zipBlocks op a b).getD i 0 =
      if i < a.length then op (a.getD i 0) (b.getD i 0) else 0 :=
  getD_range_map ..

theorem all_range_iff (n : Nat) (p : Nat → Bool) :
    (List.range n).all p = true ↔ ∀ i, i < n → p i = true := by
  rw [List.all_eq_true]
  constructor
  · intro h i hi
    exact h i (List.mem_range.mpr hi)
  · intro h i hi
    exact h i (List.mem_range.mp hi)

theorem noneBit_iff (v : DynBitset) : noneBit v = true ↔ ∀ b ∈ v.blocks, b = 0 := by
  unfold noneBit anyBit
  rw [Bool.not_eq_true', List.any_eq_false]
  constructor
  · intro h b hb
    have := h b hb
    simpa [bne_iff_ne] using this
  · intro h b hb
    simp [bne_iff_ne, h b hb]

/-- Characterization of the `is_proper_subset_of` loop: it succeeds iff no
pair violates the subset condition and either the accumulator was already set
or some pair has a strictly extra bit on the right. -/
theorem isProperGo_iff (w : Nat) (ps : List (Nat × Nat)) (acc : Bool) :
    isProperGo w ps acc = true ↔
      ((∀ p ∈ ps, p.1 &&& (onesBlock w ^^^ p.2) = 0) ∧
        (acc = true ∨ ∃ p ∈ ps, (onesBlock w ^^^ p.1) &&& p.2 ≠ 0)) := by
  induction ps generalizing acc with
  | nil => simp [isProperGo]
  | cons hd tl ih =>
    obtain ⟨x, y⟩ := hd
    by_cases hbad : x &&& (onesBlock w ^^^ y) ≠ 0
    · rw [show isProperGo w ((x, y) :: tl) acc = false from by
        simp [isProperGo, hbad]]
      constructor
      · intro hc
        exact absurd hc (by simp)
      · rintro ⟨hall, -⟩
        exact absurd (hall (x, y) (List.mem_cons_self ..)) hbad
    · have hgood : x &&& (onesBlock w ^^^ y) = 0 := not_not.mp hbad
      rw [show isProperGo w ((x, y) :: tl) acc
            = isProperGo w tl (acc || decide ((onesBlock w ^^^ x) &&& y ≠ 0)) from by
          simp [isProperGo, hbad]]
      rw [ih]
      constructor
      · rintro ⟨hall, hor⟩
        refine ⟨?_, ?_⟩
        · intro p hp
          rcases List.mem_cons.mp hp with rfl | hp
          · exact hgood
          · exact hall p hp
        · rcases hor with hacc | ⟨p, hp, hs⟩
          · rcases Bool.or_eq_true_iff.mp hacc with h | h
            · exact Or.inl h
            · exact Or.inr ⟨(x, y), List.mem_cons_self .., of_decide_eq_true h⟩
          · exact Or.inr ⟨p, List.mem_cons_of_mem _ hp, hs⟩
      · rintro ⟨hall, hor⟩
        refine ⟨fun p hp => hall p (List.mem_cons_of_mem _ hp), ?_⟩
        rcases hor with hacc | ⟨p, hp, hs⟩
        · exact Or.inl (by simp [hacc])
        · rcases List.mem_cons.mp hp with rfl | hp
          · exact Or.inl (by simp [hs])
          · exact Or.inr ⟨p, hp, hs⟩

/-- Lists of equal length differ exactly at some common index. -/
theorem list_ne_iff_exists_getD {l1 l2 : List Nat} (hlen : l1.length = l2.length) :
    l1 ≠ l2 ↔ ∃ i, i < l1.length ∧ l1.getD i 0 ≠ l2.getD i 0 := by
  constructor
  · intro hne
    by_contra hc
    push_neg at hc
    apply hne
    apply List.ext_getElem hlen
    intro i h1 h2
    have := hc i h1
    rw [List.getD_eq_getElem?_getD, List.getD_eq_getElem?_getD,
      List.getElem?_eq_getElem h1, List.getElem?_eq_getElem h2] at this
    simpa using this
  · rintro ⟨i, hi, hne⟩ rfl
    exact hne rfl

theorem forall_mem_zip_iff {a b : List Nat} (hlen : b.length = a.length)
    (P : Nat × Nat → Prop) :
    (∀ p ∈ a.zip b, P p) ↔ ∀ i, i < a.length → P (a.getD i 0, b.getD i 0) := by
  have hz : ∀ i, i < a.length → (a.zip b)[i]? = some (a.getD i 0, b.getD i 0) := by
    intro i hi
    have hib : i < b.length := by omega
    rw [List.zip, List.getElem?_zipWith, List.getElem?_eq_getElem hi,
      List.getElem?_eq_getElem hib]
    simp [List.getD_eq_getElem?_getD, List.getElem?_eq_getElem, hi, hib]
  constructor
  · intro hp i hi
    exact hp _ (List.mem_iff_getElem?.mpr ⟨i, hz i hi⟩)
  · intro hp p hpmem
    obtain ⟨i, hi⟩ := List.mem_iff_getElem?.mp hpmem
    have hlt : i < (a.zip b).length := by
      by_contra hc
      rw [List.getElem?_eq_none (Nat.le_of_not_lt hc)] at hi
      exact Option.noConfusion hi
    have hia : i < a.length := by
      rw [List.length_zip] at hlt
      omega
    rw [hz i hia] at hi
    obtain rfl := Option.some_injective _ hi.symm
    exact hp i hia

/-- Hiding the extra-bit positions behind the sanitize mask does not change
whether a block ANDs to zero against a value supported below `2 ^ e`. -/
theorem and_sanitized_iff {w e a x : Nat} (he : e < w) (ha : a < 2 ^ e) :
    a &&& (x &&& (onesBlock w ^^^ ((onesBlock w <<< e) % 2 ^ w))) = 0 ↔ a &&& x = 0 := by
  rw [and_eq_zero_iff, and_eq_zero_iff]
  constructor
  · intro h j hc
    by_cases hj : j < e
    · refine h j ⟨hc.1, ?_⟩
      rw [Nat.testBit_and, hc.2, testBit_sanitize_mask he]
      simp [hj]
    · have hf : a.testBit j = false :=
        Nat.testBit_lt_two_pow
          (Nat.lt_of_lt_of_le ha (Nat.pow_le_pow_right (by omega) (Nat.le_of_not_lt hj)))
      rw [hf] at hc
      exact absurd hc.1 (by simp)
  · intro h j hc
    rw [Nat.testBit_and, Bool.and_eq_true] at hc
    exact h j ⟨hc.1, hc.2.1⟩

/-- C7: for equal-size well-formed bitsets, `is_subset_of` coincides with
`(A & ~B).none()`, and `is_proper_subset_of` coincides with
`A != B && A.is_subset_of(B)`. -/
theorem claim_C7 (w : Nat) (hw : 0 < w) (A B : DynBitset) (hA : Wf w A) (hB : Wf w B)
    (hsz : A.bitsNum = B.bitsNum) :
    (isSubsetOf w A B = true ↔ noneBit (andBit A (complement w B)) = true) ∧
    (isProperSubsetOf w A B = true ↔
      (beqDyn A B = false ∧ isSubsetOf w A B = true)) := by
  obtain ⟨hlenA, hbA, huA⟩ := (wf_iff w A).mp hA
  obtain ⟨hlenB, hbB, huB⟩ := (wf_iff w B).mp hB
  have hlen : B.blocks.length = A.blocks.length := by rw [hlenA, hlenB, hsz]
  have hsub : isSubsetOf w A B = true ↔
      ∀ i, i < A.blocks.length →
        A.blocks.getD i 0 &&& (onesBlock w ^^^ B.blocks.getD i 0) = 0 := by
    unfold isSubsetOf
    rw [all_range_iff]
    constructor
    · intro h i hi
      have := h i hi
      rwa [beq_iff_eq] at this
    · intro h i hi
      rw [beq_iff_eq]
      exact h i hi
  have hcomp_getD : ∀ i, i < A.blocks.length → (complement w B).blocks.getD i 0 =
      (if 0 < B.bitsNum % w ∧ i = A.blocks.length - 1 then
        (onesBlock w ^^^ B.blocks.getD i 0) &&&
          (onesBlock w ^^^ ((onesBlock w <<< (B.bitsNum % w)) % 2 ^ w))
      else (onesBlock w ^^^ B.blocks.getD i 0)) := by
    intro i hi
    have hib : i < B.blocks.length := by omega
    unfold complement flipAll
    rw [getD_sanitize]
    simp only [List.length_map, getD_map, if_pos hib, hlen]
    simp only [if_pos hi]
  have hnone : noneBit (andBit A (complement w B)) = true ↔
      ∀ i, i < A.blocks.length →
        A.blocks.getD i 0 &&& (complement w B).blocks.getD i 0 = 0 := by
    rw [noneBit_iff]
    unfold andBit andEq
    rw [forall_mem_iff_getD _ (fun b => b = 0) rfl]
    constructor
    · intro h i hi
      have := h i
      rwa [getD_zipBlocks, if_pos hi] at this
    · intro h i
      rw [getD_zipBlocks]
      by_cases hi : i < A.blocks.length
      · rw [if_pos hi]
        exact h i hi
      · rw [if_neg hi]
  have hpoint : ∀ i, i < A.blocks.length →
      (A.blocks.getD i 0 &&& (onesBlock w ^^^ B.blocks.getD i 0) = 0 ↔
        A.blocks.getD i 0 &&& (complement w B).blocks.getD i 0 = 0) := by
    intro i hi
    rw [hcomp_getD i hi]
    by_cases hcase : 0 < B.bitsNum % w ∧ i = A.blocks.length - 1
    · rw [if_pos hcase]
      have he' : 0 < A.bitsNum % w := by rw [hsz]; exact hcase.1
      have ha : A.blocks.getD i 0 < 2 ^ (B.bitsNum % w) := by
        rw [hcase.2]
        have := huA he'
        rwa [hsz] at this
      exact (and_sanitized_iff (Nat.mod_lt _ hw) ha).symm
    · rw [if_neg hcase]
  have hconj1 : isSubsetOf w A B = true ↔ noneBit (andBit A (complement w B)) = true := by
    rw [hsub, hnone]
    exact forall_congr' fun i => imp_congr_right fun hi => hpoint i hi
  refine ⟨hconj1, ?_⟩
  have hprop : isProperSubsetOf w A B = true ↔
      ((∀ i, i < A.blocks.length →
          A.blocks.getD i 0 &&& (onesBlock w ^^^ B.blocks.getD i 0) = 0) ∧
        ∃ i, i < A.blocks.length ∧
          (onesBlock w ^^^ A.blocks.getD i 0) &&& B.blocks.getD i 0 ≠ 0) := by
    unfold isProperSubsetOf
    rw [isProperGo_iff]
    rw [forall_mem_zip_iff hlen]
    constructor
    · rintro ⟨hall, hor⟩
      refine ⟨hall, ?_⟩
      rcases hor with hacc | ⟨p, hp, hs⟩
      · exact absurd hacc (by simp)
      · have hmem := (forall_mem_zip_iff hlen
          (fun q => (onesBlock w ^^^ q.1) &&& q.2 = 0)).mpr
        by_contra hc
        push_neg at hc
        have hz : ∀ q ∈ A.blocks.zip B.blocks, (onesBlock w ^^^ q.1) &&& q.2 = 0 :=
          hmem (fun i hi => hc i hi)
        exact hs (hz p hp)
    · rintro ⟨hall, i, hi, hs⟩
      refine ⟨hall, Or.inr ?_⟩
      have hib : i < B.blocks.length := by omega
      have hz : (A.blocks.zip B.blocks)[i]?
          = some (A.blocks.getD i 0, B.blocks.getD i 0) := by
        rw [List.zip, List.getElem?_zipWith, List.getElem?_eq_getElem hi,
          List.getElem?_eq_getElem hib]
        simp [List.getD_eq_getElem?_getD, List.getElem?_eq_getElem, hi, hib]
      exact ⟨_, List.mem_iff_getElem?.mpr ⟨i, hz⟩, hs⟩
  rw [hprop, hsub]
  have hne : beqDyn A B = false ↔
      ∃ i, i < A.blocks.length ∧ A.blocks.getD i 0 ≠ B.blocks.getD i 0 := by
    unfold beqDyn
    rw [← list_ne_iff_exists_getD hlen.symm]
    constructor
    · intro h hc
      rw [hsz, hc] at h
      simp at h
    · intro h
      rcases hb : (A.blocks == B.blocks) with _ | _
      · simp
      · exact absurd (by simpa using hb) h
  rw [hne]
  constructor
  · rintro ⟨hall, i, hi, hs⟩
    refine ⟨⟨i, hi, ?_⟩, hall⟩
    intro hc
    apply hs
    rw [and_eq_zero_iff]
    intro j hj
    rw [Nat.testBit_xor, testBit_onesBlock, hc] at hj
    have hbj : B.blocks.getD i 0 < 2 ^ w := hbB _ (getD_mem (by omega))
    by_cases hjw : j < w
    · have := hj.1
      rw [hj.2] at this
      simp [hjw] at this
    · have : (B.blocks.getD i 0).testBit j = false :=
        Nat.testBit_lt_two_pow
          (Nat.lt_of_lt_of_le hbj (Nat.pow_le_pow_right (by omega) (Nat.le_of_not_lt hjw)))
      rw [this] at hj
      exact absurd hj.2 (by simp)
  · rintro ⟨⟨i, hi, hne'⟩, hall⟩
    refine ⟨hall, i, hi, ?_⟩
    obtain ⟨j, hj⟩ := Nat.ne_implies_bit_diff hne'
    have haj : A.blocks.getD i 0 < 2 ^ w := hbA _ (getD_mem hi)
    have hbj : B.blocks.getD i 0 < 2 ^ w := hbB _ (getD_mem (by omega))
    have hjw : j < w := by
      by_contra hc
      have h1 : (A.blocks.getD i 0).testBit j = false :=
        Nat.testBit_lt_two_pow
          (Nat.lt_of_lt_of_le haj (Nat.pow_le_pow_right (by omega) (Nat.le_of_not_lt hc)))
      have h2 : (B.blocks.getD i 0).testBit j = false :=
        Nat.testBit_lt_two_pow
          (Nat.lt_of_lt_of_le hbj (Nat.pow_le_pow_right (by omega) (Nat.le_of_not_lt hc)))
      rw [h1, h2] at hj
      exact hj rfl
    have hgood := hall i hi
    rw [and_eq_zero_iff] at hgood
    have himp : (A.blocks.getD i 0).testBit j = true → (B.blocks.getD i 0).testBit j = true := by
      intro hta
      by_contra htb
      have htb' : (B.blocks.getD i 0).testBit j = false := by
        rcases h : (B.blocks.getD i 0).testBit j with _ | _
        · rfl
        · exact absurd h htb
      refine hgood j ⟨hta, ?_⟩
      rw [Nat.testBit_xor, testBit_onesBlock, htb']
      simp [hjw]
    intro hzero
    rw [and_eq_zero_iff] at hzero
    rcases hta : (A.blocks.getD i 0).testBit j with _ | _
    · rcases htb : (B.blocks.getD i 0).testBit j with _ | _
      · rw [hta, htb] at hj
        exact hj rfl
      · refine hzero j ⟨?_, htb⟩
        rw [Nat.testBit_xor, testBit_onesBlock, hta]
        simp [hjw]
    · have := himp hta
      rw [hta, this] at hj
      exact hj rfl

/-- Witness for C7 at `w = 4`, `A = 0101₂` (size 4), `B = 1101₂` (size 4). -/
theorem claim_C7_witness :
    0 < 4 ∧ Wf 4 ⟨[5], 4⟩ ∧ Wf 4 ⟨[13], 4⟩ ∧
      DynBitset.bitsNum ⟨[5], 4⟩ = DynBitset.bitsNum ⟨[13], 4⟩ ∧
      ((isSubsetOf 4 ⟨[5], 4⟩ ⟨[13], 4⟩ = true ↔
        noneBit (andBit ⟨[5], 4⟩ (complement 4 ⟨[13], 4⟩)) = true) ∧
      (isProperSubsetOf 4 ⟨[5], 4⟩ ⟨[13], 4⟩ = true ↔
        (beqDyn ⟨[5], 4⟩ ⟨[13], 4⟩ = false ∧ isSubsetOf 4 ⟨[5], 4⟩ ⟨[13], 4⟩ = true))) :=
  ⟨by decide, by decide, by decide, by decide,
    claim_C7 4 (by decide) ⟨[5], 4⟩ ⟨[13], 4⟩ (by decide) (by decide) (by decide)⟩

/-! ### Counting lemmas -/

theorem foldl_add_eq_sum (g : Nat → Nat) (k : Nat) :
    (List.range k).foldl (fun c i => c + g i) 0 = ∑ i ∈ Finset.range k, g i := by
  induction k with
  | zero => simp
  | succ k ih =>
    rw [List.range_succ, List.foldl_append, ih, Finset.sum_range_succ]
    simp

theorem filter_length_eq_sum (n : Nat) (p : Nat → Bool) :
    ((List.range n).filter p).length = ∑ i ∈ Finset.range n, (if p i then 1 else 0) := by
  induction n with
  | zero => simp
  | succ n ih =>
    rw [List.range_succ, List.filter_append, List.length_append, ih, Finset.sum_range_succ]
    by_cases h : p n <;> simp [h]

theorem blockCountFull_eq_sum (w b : Nat) :
    blockCountFull w b = ∑ j ∈ Finset.range w, (if b.testBit j then 1 else 0) := by
  unfold blockCountFull
  by_cases h : b = 0
  · subst h
    simp
  · rw [if_neg h]
    have hfn : (fun (c : Nat) i => c + (if b &&& (1 <<< i) != 0 then 1 else 0))
        = fun c i => c + (if b.testBit i then 1 else 0) := by
      funext c i
      rw [bne_zero_eq_testBit]
    rw [hfn, foldl_add_eq_sum]

theorem blockCountPart_eq_sum (w b e : Nat) :
    blockCountPart w b e = ∑ j ∈ Finset.range e, (if b.testBit j then 1 else 0) := by
  unfold blockCountPart
  by_cases h : b = 0
  · subst h
    simp
  · rw [if_neg h]
    have hfn : (fun (c : Nat) i => c + (if b &&& (1 <<< i) != 0 then 1 else 0))
        = fun c i => c + (if b.testBit i then 1 else 0) := by
      funext c i
      rw [bne_zero_eq_testBit]
    rw [hfn, foldl_add_eq_sum]

theorem blocksRequired_eq_zero {w S : Nat} (hw : 0 < w) (h : blocksRequired w S = 0) :
    S = 0 := by
  unfold blocksRequired at h
  obtain ⟨h1, h2⟩ := Nat.add_eq_zero.mp h
  have hmod : S % w = 0 := by
    by_contra hc
    rw [if_pos (Nat.pos_of_ne_zero hc)] at h2
    exact one_ne_zero h2
  have hdm := Nat.div_add_mod S w
  rw [h1, hmod] at hdm
  simpa using hdm.symm

theorem blocksRequired_eq_one {w S : Nat} (hw : 0 < w) (h : blocksRequired w S = 1) :
    0 < S ∧ S ≤ w := by
  unfold blocksRequired at h
  have hdm := Nat.div_add_mod S w
  by_cases he : S % w > 0
  · rw [if_pos he] at h
    have h0 : S / w = 0 := by
      have hh : S / w + 1 = 0 + 1 := by
        rw [Nat.zero_add]
        exact h
      exact Nat.add_right_cancel hh
    rw [h0] at hdm
    simp only [Nat.mul_zero, Nat.zero_add] at hdm
    have hlt : S % w < w := Nat.mod_lt _ hw
    omega
  · rw [if_neg he] at h
    have h1 : S / w = 1 := by simpa using h
    have he0 : S % w = 0 := by omega
    rw [h1, he0] at hdm
    simp only [Nat.mul_one, Nat.add_zero] at hdm
    omega

/-- Unfolded `count()` with the full-blocks loop expressed as a sum. -/
theorem count_eq (w : Nat) (l : List Nat) (S : Nat) (hS : S ≠ 0) :
    count w ⟨l, S⟩ =
      (∑ i ∈ Finset.range (l.length - 1), blockCountFull w (l.getD i 0)) +
      (if l.getD (l.length - 1) 0 ≠ 0 then
        (if S % w = 0 then blockCountFull w (l.getD (l.length - 1) 0)
         else blockCountPart w (l.getD (l.length - 1) 0) (S % w))
       else 0) := by
  simp only [count]
  rw [if_neg hS, foldl_add_eq_sum]

theorem blocksRequired_add_w {w T : Nat} (hw : 0 < w) :
    blocksRequired w (T + w) = blocksRequired w T + 1 := by
  unfold blocksRequired
  rw [Nat.add_div_right _ hw, Nat.add_mod_right, Nat.add_right_comm]

theorem blocksRequired_sub {w S : Nat} (hw : 0 < w) (h : w ≤ S) :
    blocksRequired w S = blocksRequired w (S - w) + 1 := by
  have hh := blocksRequired_add_w (w := w) (T := S - w) hw
  rw [show S - w + w = S from by omega] at hh
  exact hh

theorem mod_sub_w {w S : Nat} (h : w ≤ S) : (S - w) % w = S % w := by
  conv_rhs => rw [show S = (S - w) + w by omega]
  rw [Nat.add_mod_right]

/-- Core of the `count()` correctness: for any block list whose length matches
the size, the portable count equals the per-position sum of tested bits. -/
theorem count_core (w : Nat) (hw : 0 < w) :
    ∀ (l : List Nat) (S : Nat), l.length = blocksRequired w S →
      count w ⟨l, S⟩ =
        ∑ p ∈ Finset.range S, (if (l.getD (p / w) 0).testBit (p % w) then 1 else 0) := by
  intro l
  induction l with
  | nil =>
    intro S hlen
    have hS : S = 0 := blocksRequired_eq_zero hw (by simpa using hlen.symm)
    subst hS
    simp [count]
  | cons b rest ih =>
    intro S hlen
    rcases rest with _ | ⟨c, rest'⟩
    · -- a single block: 0 < S ≤ w
      have h1 : blocksRequired w S = 1 := by simpa using hlen.symm
      obtain ⟨hS0, hSw⟩ := blocksRequired_eq_one hw h1
      have hsum : ∑ p ∈ Finset.range S,
          (if (List.getD [b] (p / w) 0).testBit (p % w) then 1 else 0)
          = ∑ p ∈ Finset.range S, (if b.testBit p then 1 else 0) := by
        apply Finset.sum_congr rfl
        intro p hp
        rw [Finset.mem_range] at hp
        rw [Nat.div_eq_of_lt (by omega), Nat.mod_eq_of_lt (by omega)]
        rfl
      rw [hsum, count_eq w [b] S (by omega)]
      simp only [List.length_cons, List.length_nil, Nat.zero_add, Nat.sub_self,
        Finset.range_zero, Finset.sum_empty, List.getD_cons_zero, Nat.zero_add]
      by_cases hb : b = 0
      · subst hb
        simp
      · rw [if_pos hb]
        by_cases he : S % w = 0
        · have hSw' : S = w := by
            have := Nat.div_add_mod S w
            rcases Nat.lt_or_ge S w with hlt | hge
            · rw [Nat.mod_eq_of_lt hlt] at he
              omega
            · omega
          rw [if_pos he, blockCountFull_eq_sum, hSw']
        · have hSltw : S < w := by
            rcases Nat.lt_or_ge S w with hlt | hge
            · exact hlt
            · exfalso
              have hEq : S = w := by omega
              rw [hEq, Nat.mod_self] at he
              exact he rfl
          have hSe : S % w = S := Nat.mod_eq_of_lt hSltw
          rw [if_neg he, blockCountPart_eq_sum, hSe]
    · -- at least two blocks: peel the first (full) block
      have hlen2 : rest'.length + 1 + 1 = blocksRequired w S := by
        simpa using hlen
      have hSw : w < S := by
        by_contra hc
        push_neg at hc
        rcases Nat.eq_zero_or_pos S with h0 | h0
        · subst h0
          have hz : blocksRequired w 0 = 0 := by simp [blocksRequired]
          omega
        · have h1 : blocksRequired w S = 1 := by
            unfold blocksRequired
            rcases Nat.lt_or_ge S w with hlt | hge
            · rw [Nat.div_eq_of_lt hlt, Nat.mod_eq_of_lt hlt, if_pos (by omega)]
            · have hsw : S = w := by omega
              subst hsw
              rw [Nat.div_self hw, Nat.mod_self]
              simp
          omega
      have hreq : (c :: rest').length = blocksRequired w (S - w) := by
        have := blocksRequired_sub hw (Nat.le_of_lt hSw)
        simp only [List.length_cons]
        omega
      have hTpos : S - w ≠ 0 := by omega
      -- left side: full count of `b` plus the count of the tail
      have hpeel : count w ⟨b :: c :: rest', S⟩
          = blockCountFull w b + count w ⟨c :: rest', S - w⟩ := by
        rw [count_eq w _ S (by omega), count_eq w _ (S - w) hTpos]
        simp only [List.length_cons]
        rw [show rest'.length + 1 + 1 - 1 = rest'.length + 1 from rfl,
          show rest'.length + 1 - 1 = rest'.length from rfl]
        rw [Finset.sum_range_succ' (fun i => blockCountFull w ((b :: c :: rest').getD i 0))]
        simp only [List.getD_cons_succ, List.getD_cons_zero]
        rw [mod_sub_w (Nat.le_of_lt hSw)]
        omega
      rw [hpeel, ih (S - w) hreq]
      -- right side: split the position range at `w`
      have hsplit : S = w + (S - w) := by omega
      rw [hsplit, Finset.sum_range_add]
      have hfirst : ∑ p ∈ Finset.range w,
          (if ((b :: c :: rest').getD (p / w) 0).testBit (p % w) then 1 else 0)
          = blockCountFull w b := by
        rw [blockCountFull_eq_sum]
        apply Finset.sum_congr rfl
        intro p hp
        rw [Finset.mem_range] at hp
        rw [Nat.div_eq_of_lt hp, Nat.mod_eq_of_lt hp]
        rfl
      have hsecond : ∀ q, ((b :: c :: rest').getD ((w + q) / w) 0).testBit ((w + q) % w)
          = ((c :: rest').getD (q / w) 0).testBit (q % w) := by
        intro q
        have hd : (w + q) / w = q / w + 1 := by
          rw [Nat.add_comm, Nat.add_div_right _ hw]
        have hm : (w + q) % w = q % w := Nat.add_mod_left ..
        rw [hd, hm, List.getD_cons_succ]
      rw [hfirst]
      have hsum2 : ∑ q ∈ Finset.range (S - w),
          (if ((b :: c :: rest').getD ((w + q) / w) 0).testBit ((w + q) % w) then 1 else 0)
          = ∑ q ∈ Finset.range (S - w),
          (if ((c :: rest').getD (q / w) 0).testBit (q % w) then 1 else 0) := by
        apply Finset.sum_congr rfl
        intro q _
        rw [hsecond q]
      rw [hsum2]
      have hback : w + (S - w) = S := by omega
      rw [hback]

/-- The accelerated popcount path of `block_count(block, nbits)` (popcount of
the block shifted so that only the low `nbits` bits survive) agrees with the
portable per-bit loop. -/
theorem blockCountAccel_eq_part {w b nbits : Nat} (hn : nbits ≤ w) :
    blockCountAccel w b nbits = blockCountPart w b nbits := by
  unfold blockCountAccel
  by_cases hb : b = 0
  · subst hb
    simp [blockCountPart]
  · rw [if_neg hb, blockCountFull_eq_sum, blockCountPart_eq_sum]
    have hrange : Finset.range w = Finset.range ((w - nbits) + nbits) := by
      congr 1
      omega
    rw [hrange, Finset.sum_range_add]
    have hzero : ∑ j ∈ Finset.range (w - nbits),
        (if ((b <<< (w - nbits)) % 2 ^ w).testBit j then 1 else 0) = 0 := by
      apply Finset.sum_eq_zero
      intro j hj
      rw [Finset.mem_range] at hj
      rw [Nat.testBit_mod_two_pow, Nat.testBit_shiftLeft]
      simp [Nat.not_le.mpr hj]
    have hshift : ∀ t ∈ Finset.range nbits,
        (if ((b <<< (w - nbits)) % 2 ^ w).testBit ((w - nbits) + t) then 1 else 0)
          = (if b.testBit t then 1 else 0) := by
      intro t ht
      rw [Finset.mem_range] at ht
      rw [Nat.testBit_mod_two_pow, Nat.testBit_shiftLeft]
      have h1 : (w - nbits) + t < w := by omega
      have h2 : w - nbits ≤ (w - nbits) + t := by omega
      have h3 : (w - nbits) + t - (w - nbits) = t := by omega
      simp [h1, h2, h3]
    rw [hzero, Nat.zero_add]
    exact Finset.sum_congr rfl hshift

/-! ### Search lemmas -/

theorem firstOnGo_spec (b : Nat) :
    ∀ (fuel i k : Nat), i ≤ k → k < i + fuel → b.testBit k = true →
      (∀ j, i ≤ j → j < k → b.testBit j = false) →
      firstOnGo b fuel i = k := by
  intro fuel
  induction fuel with
  | zero =>
    intro i k h1 h2 _ _
    omega
  | succ fuel ih =>
    intro i k h1 h2 hk hmin
    unfold firstOnGo
    rw [bne_zero_eq_testBit]
    by_cases hbi : b.testBit i = true
    · rw [if_pos hbi]
      rcases Nat.eq_or_lt_of_le h1 with rfl | hlt
      · rfl
      · exact absurd hbi (by simp [hmin i (Nat.le_refl i) hlt])
    · rw [if_neg hbi]
      have h1' : i + 1 ≤ k := by
        rcases Nat.eq_or_lt_of_le h1 with rfl | hlt
        · exact absurd hk hbi
        · omega
      exact ih (i + 1) k h1' (by omega) hk (fun j hj1 hj2 => hmin j (by omega) hj2)

theorem firstOn_spec {w b j : Nat} (hj : j < w) (hbit : b.testBit j = true)
    (hmin : ∀ t, t < j → b.testBit t = false) : firstOn w b = j := by
  unfold firstOn
  exact firstOnGo_spec b w 0 j (Nat.zero_le j) (by omega) hbit (fun t _ ht => hmin t ht)

theorem findFirstAux_all_zero (w : Nat) :
    ∀ (l : List Nat) (i0 : Nat), (∀ b ∈ l, b = 0) → findFirstAux w l i0 = npos := by
  intro l
  induction l with
  | nil =>
    intro i0 _
    rfl
  | cons b rest ih =>
    intro i0 hz
    unfold findFirstAux
    rw [if_neg (by simpa using hz b (List.mem_cons_self ..))]
    exact ih (i0 + 1) (fun x hx => hz x (List.mem_cons_of_mem _ hx))

/-- The block scan of `find_first`/`find_next` locates the least set pair
`(block, bit)` of the scanned list, offset by the starting block index. -/
theorem findFirstAux_min (w : Nat) (hw : 0 < w) :
    ∀ (l : List Nat) (i0 k j : Nat), (∀ b ∈ l, b < 2 ^ w) →
      k < l.length → j < w → (l.getD k 0).testBit j = true →
      (∀ k' j', j' < w → k' * w + j' < k * w + j → (l.getD k' 0).testBit j' = false) →
      findFirstAux w l i0 = (i0 + k) * w + j := by
  intro l
  induction l with
  | nil =>
    intro i0 k j _ hk _ _ _
    simp at hk
  | cons b rest ih =>
    intro i0 k j hb hk hj hbit hmin
    unfold findFirstAux
    by_cases hb0 : b ≠ 0
    · rw [if_pos hb0]
      have hk0 : k = 0 := by
        by_contra hne
        obtain ⟨j0, hj0w, hj0⟩ :=
          exists_testBit_of_ne_zero (hb b (List.mem_cons_self ..)) hb0
        have hkw : w ≤ k * w := Nat.le_mul_of_pos_left w (Nat.pos_of_ne_zero hne)
        have hlt : 0 * w + j0 < k * w + j := by
          rw [Nat.zero_mul]
          omega
        have hz := hmin 0 j0 hj0w hlt
        rw [List.getD_cons_zero] at hz
        rw [hz] at hj0
        exact Bool.false_ne_true hj0
      subst hk0
      rw [List.getD_cons_zero] at hbit
      have hfo : firstOn w b = j := by
        apply firstOn_spec hj hbit
        intro t ht
        have hz := hmin 0 t (by omega) (by simpa using ht)
        rwa [List.getD_cons_zero] at hz
      rw [hfo, Nat.add_zero]
    · rw [if_neg hb0]
      have hb0' : b = 0 := not_not.mp hb0
      rcases k with _ | k0
      · rw [List.getD_cons_zero] at hbit
        rw [hb0'] at hbit
        simp at hbit
      · have hres := ih (i0 + 1) k0 j (fun x hx => hb x (List.mem_cons_of_mem _ hx))
          (by simpa using Nat.lt_of_succ_lt_succ hk) hj
          (by rwa [List.getD_cons_succ] at hbit)
          (fun k' j' hj' hlt => by
            have hlt' : (k' + 1) * w + j' < (k0 + 1) * w + j := by
              rw [Nat.succ_mul, Nat.succ_mul]
              omega
            have hz := hmin (k' + 1) j' hj' hlt'
            rwa [List.getD_cons_succ] at hz)
        have harith : i0 + 1 + k0 = i0 + (k0 + 1) := by omega
        rw [harith] at hres
        exact hres

/-! ### Ordering lemmas -/

theorem msbCmp_none_iff (a b : List Nat) :
    ∀ top, (msbCmp a b top = none ↔ ∀ i, i ≤ top → a.getD i 0 = b.getD i 0) := by
  intro top
  induction top with
  | zero =>
    constructor
    · intro hn i hi
      have hi0 : i = 0 := by omega
      subst hi0
      by_contra hne
      unfold msbCmp at hn
      rw [if_pos hne] at hn
      exact Option.noConfusion hn
    · intro hall
      unfold msbCmp
      rw [if_neg (fun hc => hc (hall 0 (Nat.le_refl 0)))]
  | succ t ih =>
    constructor
    · intro hn i hi
      unfold msbCmp at hn
      by_cases h : a.getD (t + 1) 0 ≠ b.getD (t + 1) 0
      · rw [if_pos h] at hn
        exact Option.noConfusion hn
      · rw [if_neg h] at hn
        rcases Nat.eq_or_lt_of_le hi with rfl | hlt
        · exact not_not.mp h
        · exact (ih.mp hn) i (by omega)
    · intro hall
      unfold msbCmp
      rw [if_neg (fun hc => hc (hall (t + 1) (Nat.le_refl _)))]
      exact ih.mpr (fun i hi => hall i (by omega))

theorem decide_lt_swap {x y : Nat} (h : x ≠ y) : decide (y < x) = !decide (x < y) := by
  by_cases hlt : x < y
  · have h2 : ¬(y < x) := by omega
    simp [hlt, h2]
  · have h2 : y < x := by omega
    simp [hlt, h2]

theorem msbCmp_swap (a b : List Nat) :
    ∀ top, msbCmp b a top = (msbCmp a b top).map (fun c => !c) := by
  intro top
  induction top with
  | zero =>
    unfold msbCmp
    by_cases h : a.getD 0 0 ≠ b.getD 0 0
    · rw [if_pos h, if_pos (fun hc => h hc.symm)]
      rw [Option.map_some']
      rw [decide_lt_swap h]
    · rw [if_neg h, if_neg (fun hc => h (fun he => hc he.symm))]
      rfl
  | succ t ih =>
    unfold msbCmp
    by_cases h : a.getD (t + 1) 0 ≠ b.getD (t + 1) 0
    · rw [if_pos h, if_pos (fun hc => h hc.symm)]
      rw [Option.map_some']
      rw [decide_lt_swap h]
    · rw [if_neg h, if_neg (fun hc => h (fun he => hc he.symm))]
      exact ih

theorem anyNonzeroDownTo_iff (l : List Nat) (lo : Nat) :
    ∀ hi, (anyNonzeroDownTo l lo hi = true ↔
      ∃ i, lo ≤ i ∧ i ≤ hi ∧ l.getD i 0 ≠ 0) := by
  intro hi
  induction hi with
  | zero =>
    unfold anyNonzeroDownTo
    by_cases h : lo = 0
    · subst h
      rw [if_pos rfl]
      constructor
      · intro ht
        exact ⟨0, Nat.le_refl 0, Nat.le_refl 0, by simpa [bne_iff_ne] using ht⟩
      · rintro ⟨i, _, hi0, hne⟩
        have hii : i = 0 := by omega
        subst hii
        simpa [bne_iff_ne] using hne
    · rw [if_neg h]
      constructor
      · intro hc
        exact absurd hc (by simp)
      · rintro ⟨i, hlo, hi0, _⟩
        omega
  | succ t ih =>
    unfold anyNonzeroDownTo
    by_cases h : t + 1 < lo
    · rw [if_pos h]
      constructor
      · intro hc
        exact absurd hc (by simp)
      · rintro ⟨i, hlo, hle, _⟩
        omega
    · rw [if_neg h, Bool.or_eq_true]
      constructor
      · rintro (h1 | h2)
        · exact ⟨t + 1, by omega, Nat.le_refl _, by simpa [bne_iff_ne] using h1⟩
        · obtain ⟨i, h1, h2', h3⟩ := ih.mp h2
          exact ⟨i, h1, by omega, h3⟩
      · rintro ⟨i, hlo, hle, hne⟩
        by_cases hit : i = t + 1
        · subst hit
          exact Or.inl (by simpa [bne_iff_ne] using hne)
        · exact Or.inr (ih.mpr ⟨i, hlo, by omega, hne⟩)

theorem blocksRequired_mono {w n m : Nat} (hw : 0 < w) (h : n ≤ m) :
    blocksRequired w n ≤ blocksRequired w m := by
  unfold blocksRequired
  have hdiv : n / w ≤ m / w := Nat.div_le_div_right h
  by_cases he : n % w > 0
  · rw [if_pos he]
    by_cases he2 : m % w > 0
    · rw [if_pos he2]
      omega
    · rw [if_neg he2]
      rcases Nat.lt_or_ge (n / w) (m / w) with hlt | hge
      · omega
      · exfalso
        have heq : n / w = m / w := by omega
        have h1 := Nat.div_add_mod n w
        have h2 := Nat.div_add_mod m w
        rw [heq] at h1
        omega
  · rw [if_neg he]
    by_cases he2 : m % w > 0 <;> [rw [if_pos he2]; rw [if_neg he2]] <;> omega

theorem natVal_eq_zero {w : Nat} :
    ∀ (l : List Nat), natVal w l = 0 → ∀ i, l.getD i 0 = 0 := by
  intro l
  induction l with
  | nil =>
    intro _ i
    simp
  | cons x xs ih =>
    intro hv i
    unfold natVal at hv
    obtain ⟨hx, hs⟩ := Nat.add_eq_zero.mp hv
    have hxs : natVal w xs = 0 := by
      rcases Nat.mul_eq_zero.mp hs with hc | hc
      · exact absurd hc (Nat.pos_iff_ne_zero.mp (Nat.pos_pow_of_pos _ (by omega)))
      · exact hc
    cases i with
    | zero => simpa using hx
    | succ n =>
      rw [List.getD_cons_succ]
      exact ih hxs n

/-- Two block vectors of `w`-bit digits with equal represented magnitude read
identically at every index (shorter lists reading `0` past their end). -/
theorem natVal_inj_getD {w : Nat} (hw : 0 < w) :
    ∀ (a b : List Nat), (∀ x ∈ a, x < 2 ^ w) → (∀ x ∈ b, x < 2 ^ w) →
      natVal w a = natVal w b → ∀ i, a.getD i 0 = b.getD i 0 := by
  intro a
  induction a with
  | nil =>
    intro b _ _ hv i
    rw [List.getD_nil]
    exact (natVal_eq_zero b (by rw [← hv]; rfl) i).symm
  | cons x xs ih =>
    intro b hba hbb hv i
    rcases b with _ | ⟨y, ys⟩
    · rw [List.getD_nil]
      exact natVal_eq_zero (x :: xs) (by rw [hv]; rfl) i
    · have hxlt : x < 2 ^ w := hba x (List.mem_cons_self ..)
      have hylt : y < 2 ^ w := hbb y (List.mem_cons_self ..)
      unfold natVal at hv
      have hmod := congrArg (· % 2 ^ w) hv
      simp only [Nat.add_mul_mod_self_left] at hmod
      rw [Nat.mod_eq_of_lt hxlt, Nat.mod_eq_of_lt hylt] at hmod
      have htail : natVal w xs = natVal w ys := by
        rw [hmod] at hv
        have hcancel := Nat.add_left_cancel hv
        exact Nat.eq_of_mul_eq_mul_left (Nat.pos_pow_of_pos _ (by omega)) hcancel
      cases i with
      | zero => simpa using hmod
      | succ n =>
        rw [List.getD_cons_succ, List.getD_cons_succ]
        exact ih ys (fun z hz => hba z (List.mem_cons_of_mem _ hz))
          (fun z hz => hbb z (List.mem_cons_of_mem _ hz)) htail n

/-- C2: trichotomy of the ordering — for well-formed bitsets of any sizes
exactly one of `A < B`, `B < A`, `A == B` holds; when the represented
magnitudes are equal the shorter bitset compares less; and concretely at
`w = 64`, `dynamic_bitset("011") < dynamic_bitset("0011")` is true while
`dynamic_bitset("011") == dynamic_bitset("0011")` is false. -/
theorem claim_C2 (w : Nat) (hw : 0 < w) (A B : DynBitset) (hA : Wf w A) (hB : Wf w B) :
    ((ltDyn A B = true ∨ ltDyn B A = true ∨ beqDyn A B = true) ∧
      ¬(ltDyn A B = true ∧ ltDyn B A = true) ∧
      ¬(ltDyn A B = true ∧ beqDyn A B = true) ∧
      ¬(ltDyn B A = true ∧ beqDyn A B = true)) ∧
    (natVal w A.blocks = natVal w B.blocks → A.bitsNum < B.bitsNum → ltDyn A B = true) ∧
    (ltDyn (fromString 64 ['0', '1', '1'] '0' '1')
        (fromString 64 ['0', '0', '1', '1'] '0' '1') = true ∧
      beqDyn (fromString 64 ['0', '1', '1'] '0' '1')
        (fromString 64 ['0', '0', '1', '1'] '0' '1') = false) := by
  obtain ⟨hlenA, hbA, _⟩ := (wf_iff w A).mp hA
  obtain ⟨hlenB, hbB, _⟩ := (wf_iff w B).mp hB
  refine ⟨?_, ?_, by decide⟩
  · -- trichotomy
    by_cases hsz : A.bitsNum = B.bitsNum
    · have hlen : A.blocks.length = B.blocks.length := by rw [hlenA, hlenB, hsz]
      by_cases h0 : A.bitsNum = 0
      · have hA0 : A.blocks.length = 0 := by
          rw [hlenA, h0]
          simp [blocksRequired]
        have hAnil : A.blocks = [] := List.length_eq_zero.mp hA0
        have hBnil : B.blocks = [] := List.length_eq_zero.mp (by omega)
        have hbeq : beqDyn A B = true := by
          unfold beqDyn
          rw [Bool.and_eq_true, beq_iff_eq, beq_iff_eq]
          exact ⟨hsz, by rw [hAnil, hBnil]⟩
        have hltAB : ltDyn A B = false := by
          unfold ltDyn
          rw [if_pos hsz, if_pos h0]
        have hltBA : ltDyn B A = false := by
          unfold ltDyn
          rw [if_pos hsz.symm, if_pos (by omega : B.bitsNum = 0)]
        refine ⟨Or.inr (Or.inr hbeq), ?_, ?_, ?_⟩
        · rintro ⟨h1, -⟩
          rw [hltAB] at h1
          exact Bool.false_ne_true h1
        · rintro ⟨h1, -⟩
          rw [hltAB] at h1
          exact Bool.false_ne_true h1
        · rintro ⟨h1, -⟩
          rw [hltBA] at h1
          exact Bool.false_ne_true h1
      · have hltAB : ltDyn A B
            = (msbCmp A.blocks B.blocks (A.blocks.length - 1)).getD false := by
          unfold ltDyn
          rw [if_pos hsz, if_neg h0]
        have hltBA : ltDyn B A
            = (msbCmp B.blocks A.blocks (B.blocks.length - 1)).getD false := by
          unfold ltDyn
          rw [if_pos hsz.symm, if_neg (by omega : ¬B.bitsNum = 0)]
        by_cases heq : A.blocks = B.blocks
        · have hbeq : beqDyn A B = true := by
            unfold beqDyn
            rw [Bool.and_eq_true, beq_iff_eq, beq_iff_eq]
            exact ⟨hsz, heq⟩
          rw [(msbCmp_none_iff ..).mpr (fun i _ => by rw [heq]), Option.getD_none] at hltAB
          rw [(msbCmp_none_iff ..).mpr (fun i _ => by rw [heq]), Option.getD_none] at hltBA
          refine ⟨Or.inr (Or.inr hbeq), ?_, ?_, ?_⟩
          · rintro ⟨h1, -⟩
            rw [hltAB] at h1
            exact Bool.false_ne_true h1
          · rintro ⟨h1, -⟩
            rw [hltAB] at h1
            exact Bool.false_ne_true h1
          · rintro ⟨h1, -⟩
            rw [hltBA] at h1
            exact Bool.false_ne_true h1
        · have hbeq : beqDyn A B = false := by
            unfold beqDyn
            rw [beq_eq_false_iff_ne.mpr heq, Bool.and_false]
          obtain ⟨c, hc⟩ : ∃ c, msbCmp A.blocks B.blocks (A.blocks.length - 1) = some c := by
            rcases hmc : msbCmp A.blocks B.blocks (A.blocks.length - 1) with _ | c
            · exfalso
              apply heq
              have hall := (msbCmp_none_iff ..).mp hmc
              apply List.ext_getElem hlen
              intro i h1 h2
              have hgi := hall i (by omega)
              rw [List.getD_eq_getElem?_getD, List.getD_eq_getElem?_getD,
                List.getElem?_eq_getElem h1, List.getElem?_eq_getElem h2] at hgi
              simpa using hgi
            · exact ⟨c, rfl⟩
          have hcBA : msbCmp B.blocks A.blocks (B.blocks.length - 1) = some (!c) := by
            rw [show B.blocks.length = A.blocks.length from hlen.symm,
              msbCmp_swap A.blocks B.blocks, hc]
            rfl
          rw [hc, Option.getD_some] at hltAB
          rw [hcBA, Option.getD_some] at hltBA
          refine ⟨?_, ?_, ?_, ?_⟩
          · rcases hcv : c with _ | _
            · right
              left
              rw [hltBA, hcv]
              rfl
            · left
              rw [hltAB, hcv]
          · rintro ⟨h1, h2⟩
            rw [hltAB] at h1
            rw [hltBA, h1] at h2
            simp at h2
          · rintro ⟨-, h2⟩
            rw [hbeq] at h2
            exact Bool.false_ne_true h2
          · rintro ⟨-, h2⟩
            rw [hbeq] at h2
            exact Bool.false_ne_true h2
    · have hbeq : beqDyn A B = false := by
        unfold beqDyn
        rw [beq_eq_false_iff_ne.mpr hsz, Bool.false_and]
      have hopp : ltDyn B A = !ltDyn A B := by
        by_cases hA0 : A.bitsNum = 0
        · have hB0 : ¬B.bitsNum = 0 := by omega
          have h1 : ltDyn A B = true := by
            unfold ltDyn
            rw [if_neg hsz, if_pos hA0]
          have h2 : ltDyn B A = false := by
            unfold ltDyn
            rw [if_neg (fun hc => hsz hc.symm), if_neg hB0, if_pos hA0]
          rw [h1, h2]
          rfl
        · by_cases hB0 : B.bitsNum = 0
          · have h1 : ltDyn A B = false := by
              unfold ltDyn
              rw [if_neg hsz, if_neg hA0, if_pos hB0]
            have h2 : ltDyn B A = true := by
              unfold ltDyn
              rw [if_neg (fun hc => hsz hc.symm), if_pos hB0]
            rw [h1, h2]
            rfl
          · have hltAB : ltDyn A B = (if anyNonzeroDownTo
                  (if A.bitsNum < B.bitsNum then B.blocks else A.blocks)
                  (min A.blocks.length B.blocks.length)
                  (max A.blocks.length B.blocks.length - 1) = true then
                decide (A.bitsNum < B.bitsNum)
              else (msbCmp A.blocks B.blocks
                  (min A.blocks.length B.blocks.length - 1)).getD
                  (decide (A.bitsNum < B.bitsNum))) := by
              unfold ltDyn
              rw [if_neg hsz, if_neg hA0, if_neg hB0]
            have hltBA : ltDyn B A = (if anyNonzeroDownTo
                  (if B.bitsNum < A.bitsNum then A.blocks else B.blocks)
                  (min B.blocks.length A.blocks.length)
                  (max B.blocks.length A.blocks.length - 1) = true then
                decide (B.bitsNum < A.bitsNum)
              else (msbCmp B.blocks A.blocks
                  (min B.blocks.length A.blocks.length - 1)).getD
                  (decide (B.bitsNum < A.bitsNum))) := by
              unfold ltDyn
              rw [if_neg (fun hc => hsz hc.symm), if_neg hB0, if_neg hA0]
            have hlongest : (if B.bitsNum < A.bitsNum then A.blocks else B.blocks)
                = (if A.bitsNum < B.bitsNum then B.blocks else A.blocks) := by
              by_cases hlt : A.bitsNum < B.bitsNum
              · rw [if_pos hlt, if_neg (by omega)]
              · rw [if_pos (by omega), if_neg hlt]
            rw [hltAB, hltBA, hlongest, Nat.min_comm B.blocks.length A.blocks.length,
              Nat.max_comm B.blocks.length A.blocks.length]
            by_cases hany : anyNonzeroDownTo
                (if A.bitsNum < B.bitsNum then B.blocks else A.blocks)
                (min A.blocks.length B.blocks.length)
                (max A.blocks.length B.blocks.length - 1) = true
            · rw [if_pos hany, if_pos hany]
              exact decide_lt_swap hsz
            · rw [if_neg hany, if_neg hany, msbCmp_swap]
              rcases hmc : msbCmp A.blocks B.blocks
                  (min A.blocks.length B.blocks.length - 1) with _ | c
              · rw [Option.map_none', Option.getD_none, Option.getD_none]
                exact decide_lt_swap hsz
              · rw [Option.map_some', Option.getD_some, Option.getD_some]
      refine ⟨?_, ?_, ?_, ?_⟩
      · rcases hv : ltDyn A B with _ | _
        · right
          left
          rw [hopp, hv]
          rfl
        · left
          rfl
      · rintro ⟨h1, h2⟩
        rw [hopp, h1] at h2
        simp at h2
      · rintro ⟨-, h2⟩
        rw [hbeq] at h2
        exact Bool.false_ne_true h2
      · rintro ⟨-, h2⟩
        rw [hbeq] at h2
        exact Bool.false_ne_true h2
  · -- equal magnitudes: the shorter sorts first
    intro hval hsz
    by_cases hA0 : A.bitsNum = 0
    · unfold ltDyn
      rw [if_neg (by omega), if_pos hA0]
    · have hB0 : ¬B.bitsNum = 0 := by omega
      have hne : ¬A.bitsNum = B.bitsNum := by omega
      unfold ltDyn
      rw [if_neg hne, if_neg hA0, if_neg hB0]
      have hpad : ∀ i, A.blocks.getD i 0 = B.blocks.getD i 0 :=
        natVal_inj_getD hw A.blocks B.blocks hbA hbB hval
      have hlenle : A.blocks.length ≤ B.blocks.length := by
        rw [hlenA, hlenB]
        exact blocksRequired_mono hw (by omega)
      have hminl : min A.blocks.length B.blocks.length = A.blocks.length := by omega
      have hany : anyNonzeroDownTo (if A.bitsNum < B.bitsNum then B.blocks else A.blocks)
          (min A.blocks.length B.blocks.length)
          (max A.blocks.length B.blocks.length - 1) = false := by
        rw [if_pos hsz]
        rcases hv : anyNonzeroDownTo B.blocks (min A.blocks.length B.blocks.length)
            (max A.blocks.length B.blocks.length - 1) with _ | _
        · rfl
        · exfalso
          obtain ⟨i, h1, _, h3⟩ := (anyNonzeroDownTo_iff ..).mp hv
          apply h3
          rw [← hpad i]
          apply getD_of_le
          omega
      rw [if_neg (by simp [hany])]
      rw [(msbCmp_none_iff ..).mpr (fun i _ => hpad i), Option.getD_none]
      exact decide_eq_true hsz

/-- Witness for C2 at `w = 4`, `A` with blocks `[3]` size 2, `B` with blocks
`[9]` size 4. -/
theorem claim_C2_witness :
    0 < 4 ∧ Wf 4 ⟨[3], 2⟩ ∧ Wf 4 ⟨[9], 4⟩ ∧
      (((ltDyn ⟨[3], 2⟩ ⟨[9], 4⟩ = true ∨ ltDyn ⟨[9], 4⟩ ⟨[3], 2⟩ = true ∨
          beqDyn ⟨[3], 2⟩ ⟨[9], 4⟩ = true) ∧
        ¬(ltDyn ⟨[3], 2⟩ ⟨[9], 4⟩ = true ∧ ltDyn ⟨[9], 4⟩ ⟨[3], 2⟩ = true) ∧
        ¬(ltDyn ⟨[3], 2⟩ ⟨[9], 4⟩ = true ∧ beqDyn ⟨[3], 2⟩ ⟨[9], 4⟩ = true) ∧
        ¬(ltDyn ⟨[9], 4⟩ ⟨[3], 2⟩ = true ∧ beqDyn ⟨[3], 2⟩ ⟨[9], 4⟩ = true)) ∧
      (natVal 4 (DynBitset.blocks ⟨[3], 2⟩) = natVal 4 (DynBitset.blocks ⟨[9], 4⟩) →
        DynBitset.bitsNum ⟨[3], 2⟩ < DynBitset.bitsNum ⟨[9], 4⟩ →
        ltDyn ⟨[3], 2⟩ ⟨[9], 4⟩ = true) ∧
      (ltDyn (fromString 64 ['0', '1', '1'] '0' '1')
          (fromString 64 ['0', '0', '1', '1'] '0' '1') = true ∧
        beqDyn (fromString 64 ['0', '1', '1'] '0' '1')
          (fromString 64 ['0', '0', '1', '1'] '0' '1') = false)) :=
  ⟨by decide, by decide, by decide,
    claim_C2 4 (by decide) ⟨[3], 2⟩ ⟨[9], 4⟩ (by decide) (by decide)⟩

/-- Reading a position below the size through `sanitize` sees the raw block:
the sanitize mask only clears positions at or above the size. -/
theorem test_sanitize_of_lt {w : Nat} (hw : 0 < w) {blocks : List Nat} {n : Nat}
    (hlen : blocks.length = blocksRequired w n) {i : Nat} (hi : i < n) :
    test w (sanitize w ⟨blocks, n⟩) i = (blocks.getD (i / w) 0).testBit (i % w) := by
  rw [test_eq_testBit]
  show ((sanitize w ⟨blocks, n⟩).blocks.getD (i / w) 0).testBit (i % w) = _
  rw [getD_sanitize]
  by_cases hcase : 0 < n % w ∧ i / w = blocks.length - 1
  · rw [if_pos hcase]
    obtain ⟨he, hk⟩ := hcase
    have hlenn : blocks.length = n / w + 1 := by
      rw [hlen]
      unfold blocksRequired
      rw [if_pos he]
    have hkn : i / w = n / w := by
      rw [hlenn] at hk
      simpa using hk
    have hdmn : w * (n / w) + n % w = n := Nat.div_add_mod ..
    have hdmi : w * (i / w) + i % w = i := Nat.div_add_mod ..
    rw [hkn] at hdmi
    have hje : i % w < n % w := by omega
    rw [Nat.testBit_and, testBit_sanitize_mask (Nat.mod_lt _ hw), decide_eq_true hje,
      Bool.and_true]
  · rw [if_neg hcase]

theorem blocksRequired_pos {w n : Nat} (hw : 0 < w) (hn : n ≠ 0) :
    0 < blocksRequired w n := by
  have := div_lt_blocksRequired hw (Nat.pos_of_ne_zero hn)
  rw [Nat.zero_div] at this
  exact this

theorem onesBlock_lt (w : Nat) : onesBlock w < 2 ^ w := by
  unfold onesBlock
  have : 0 < 2 ^ w := Nat.pos_pow_of_pos _ (by omega)
  omega

/-- C10: the `(nbits, init_val)` constructor produces a bitset of size
`nbits` satisfying the structural invariants, whose bit `i` (for `i < nbits`)
equals bit `i` of `init_val` when `i` is below the bit width of
`unsigned long long` and is `0` otherwise; bits of `init_val` at positions
at or above `nbits` are silently discarded by sanitization. -/
theorem claim_C10 (w ull : Nat) (hw : 0 < w) (hdvd : w ∣ ull)
    (nbits initVal : Nat) (hinit : initVal < 2 ^ ull) :
    (mkFromVal w ull nbits initVal).bitsNum = nbits ∧
    Wf w (mkFromVal w ull nbits initVal) ∧
    (∀ i, i < nbits → test w (mkFromVal w ull nbits initVal) i
      = (decide (i < ull) && initVal.testBit i)) := by
  have hpow : (0 : Nat) < 2 ^ w := Nat.pos_pow_of_pos _ (by omega)
  by_cases hz : nbits = 0 ∨ initVal = 0
  · refine ⟨?_, ?_, ?_⟩
    · simp only [mkFromVal]
      rw [if_pos hz]
    · simp only [mkFromVal]
      rw [if_pos hz, wf_iff]
      refine ⟨by simp, ?_, ?_⟩
      · intro b hbm
        rw [List.eq_of_mem_replicate hbm]
        exact hpow
      · intro _he
        simp only [List.length_replicate]
        rw [getD_replicate]
        split
        · exact Nat.pos_pow_of_pos _ (by omega)
        · exact Nat.pos_pow_of_pos _ (by omega)
    · intro i hi
      have hv0 : initVal = 0 := by
        rcases hz with h0 | h0
        · omega
        · exact h0
      simp only [mkFromVal]
      rw [if_pos hz, test_eq_testBit]
      show (List.getD (List.replicate (blocksRequired w nbits) 0) (blockIdx w i) 0).testBit
          (bitIdx w i) = _
      rw [getD_replicate, hv0]
      split <;> simp
  · push_neg at hz
    obtain ⟨hn0, hv0⟩ := hz
    have hnbpos : 0 < blocksRequired w nbits := blocksRequired_pos hw hn0
    -- length and bounds of the pre-sanitize block vector
    have hlenB : (if ull / w = 1 then
          (List.replicate (blocksRequired w nbits) 0).set 0 (initVal % 2 ^ w)
        else
          (List.range (blocksRequired w nbits)).map (fun i =>
            if i < min (blocksRequired w nbits) (ull / w) then
              (initVal >>> (i * w)) &&& onesBlock w
            else 0)).length = blocksRequired w nbits := by
      split <;> simp
    have hbndB : ∀ b ∈ (if ull / w = 1 then
          (List.replicate (blocksRequired w nbits) 0).set 0 (initVal % 2 ^ w)
        else
          (List.range (blocksRequired w nbits)).map (fun i =>
            if i < min (blocksRequired w nbits) (ull / w) then
              (initVal >>> (i * w)) &&& onesBlock w
            else 0)), b < 2 ^ w := by
      split
      · intro b hbm
        rcases List.mem_or_eq_of_mem_set hbm with hmem | rfl
        · rw [List.eq_of_mem_replicate hmem]
          exact hpow
        · exact Nat.mod_lt _ hpow
      · intro b hbm
        obtain ⟨i, _hi, rfl⟩ := List.mem_map.mp hbm
        split
        · exact Nat.lt_of_le_of_lt Nat.and_le_right (onesBlock_lt w)
        · exact hpow
    have hEq : mkFromVal w ull nbits initVal =
        sanitize w ⟨(if ull / w = 1 then
            (List.replicate (blocksRequired w nbits) 0).set 0 (initVal % 2 ^ w)
          else
            (List.range (blocksRequired w nbits)).map (fun i =>
              if i < min (blocksRequired w nbits) (ull / w) then
                (initVal >>> (i * w)) &&& onesBlock w
              else 0)), nbits⟩ := by
      simp only [mkFromVal]
      rw [if_neg (by push_neg; exact ⟨hn0, hv0⟩)]
    rw [hEq]
    refine ⟨sanitize_bitsNum .., wf_sanitize hw hlenB hbndB, ?_⟩
    intro i hi
    rw [test_sanitize_of_lt hw hlenB hi]
    have hkl : i / w < blocksRequired w nbits := div_lt_blocksRequired hw hi
    have hjw : i % w < w := Nat.mod_lt _ hw
    have hrecon : i / w * w + i % w = i := Nat.div_add_mod' ..
    have hhigh : ∀ t, ull ≤ t → initVal.testBit t = false := by
      intro t ht
      exact Nat.testBit_lt_two_pow
        (Nat.lt_of_lt_of_le hinit (Nat.pow_le_pow_right (by omega) ht))
    by_cases hr : ull / w = 1
    · rw [if_pos hr]
      have hullw : ull = w := by
        obtain ⟨c, rfl⟩ := hdvd
        rw [Nat.mul_div_cancel_left c hw] at hr
        rw [hr, Nat.mul_one]
      by_cases hk0 : i / w = 0
      · have hiw : i < w := by
          by_contra hc
          have hge : 1 ≤ i / w := (Nat.one_le_div_iff hw).mpr (Nat.le_of_not_lt hc)
          omega
        rw [hk0, getD_set_self (by simpa using hnbpos)]
        rw [Nat.testBit_mod_two_pow]
        have him : i % w = i := Nat.mod_eq_of_lt hiw
        rw [him, decide_eq_true hiw, Bool.true_and,
          decide_eq_true (show i < ull from hullw ▸ hiw), Bool.true_and]
      · rw [getD_set_ne (fun hc => hk0 hc.symm), getD_replicate]
        have hiw : w ≤ i := by
          by_contra hc
          exact hk0 (Nat.div_eq_of_lt (Nat.lt_of_not_le hc))
        have hfalse : initVal.testBit i = false := hhigh i (by omega)
        rw [hfalse, Bool.and_false]
        split <;> simp
    · rw [if_neg hr]
      rw [getD_range_map, if_pos hkl]
      have hullm : w * (ull / w) = ull := Nat.mul_div_cancel' hdvd
      by_cases hkt : i / w < min (blocksRequired w nbits) (ull / w)
      · rw [if_pos hkt]
        rw [Nat.testBit_and, Nat.testBit_shiftRight, testBit_onesBlock,
          decide_eq_true hjw, Bool.and_true]
        rw [show i / w * w + i % w = i from hrecon]
        by_cases hiu : i < ull
        · rw [decide_eq_true hiu, Bool.true_and]
        · rw [hhigh i (by omega), Bool.and_false]
      · rw [if_neg hkt]
        have hkge : ull / w ≤ i / w := by
          rcases Nat.lt_or_ge (i / w) (ull / w) with hlt | hge
          · exact absurd (Nat.lt_min.mpr ⟨hkl, hlt⟩) hkt
          · exact hge
        have hiu : ull ≤ i := by
          have h1 : w * (ull / w) ≤ w * (i / w) := Nat.mul_le_mul_left w hkge
          have h2 : w * (i / w) + i % w = i := Nat.div_add_mod ..
          omega
        rw [hhigh i hiu, Bool.and_false]
        simp

/-- Witness for C10 at `w = 4`, `ull = 8`, `nbits = 6`, `init_val = 171`. -/
theorem claim_C10_witness :
    0 < 4 ∧ (4 : Nat) ∣ 8 ∧ 171 < 2 ^ 8 ∧
      ((mkFromVal 4 8 6 171).bitsNum = 6 ∧
        Wf 4 (mkFromVal 4 8 6 171) ∧
        (∀ i, i < 6 → test 4 (mkFromVal 4 8 6 171) i
          = (decide (i < 8) && Nat.testBit 171 i))) :=
  ⟨by decide, by decide, by decide, claim_C10 4 8 (by decide) (by decide) 6 171 (by decide)⟩

/-! ### Shift lemmas -/

theorem testBit_resetAll (v : DynBitset) (p : Nat) : test w (resetAll v) p = false := by
  rw [test_eq_testBit]
  show ((resetAll v).blocks.getD _ 0).testBit _ = false
  unfold resetAll
  rw [getD_replicate]
  split <;> simp

theorem length_applyLeftShift (w : Nat) (blocks : List Nat) (k : Nat) :
    (applyLeftShift w blocks k).length = blocks.length := by
  simp only [applyLeftShift]
  split <;> simp

theorem length_applyRightShift (w : Nat) (blocks : List Nat) (k : Nat) :
    (applyRightShift w blocks k).length = blocks.length := by
  simp only [applyRightShift]
  split <;> simp

/-- Bit-level reading of `operator<<=`: position `p` of the shifted bitset
holds the former bit `p - k` (or `0` when `p < k`). -/
theorem test_shl {w : Nat} (hw : 0 < w) {v : DynBitset} (h : Wf w v) (k p : Nat)
    (hp : p < v.bitsNum) :
    test w (shlEq w v k) p = if k ≤ p then test w v (p - k) else false := by
  obtain ⟨hlen, hb, _hu⟩ := (wf_iff w v).mp h
  have hgetb : ∀ i, v.blocks.getD i 0 < 2 ^ w := (bound_iff_getD _ hw).mp hb
  have hP : p / w * w + p % w = p := Nat.div_add_mod' ..
  have hK : k / w * w + k % w = k := Nat.div_add_mod' ..
  have hpm : p % w < w := Nat.mod_lt _ hw
  have hkm : k % w < w := Nat.mod_lt _ hw
  by_cases hk0 : k = 0
  · subst hk0
    unfold shlEq
    rw [if_pos rfl, if_pos (Nat.zero_le p), Nat.sub_zero]
  · by_cases hks : k ≥ v.bitsNum
    · unfold shlEq
      rw [if_neg hk0, if_pos hks, testBit_resetAll, if_neg (by omega)]
    · unfold shlEq
      rw [if_neg hk0, if_neg (by omega)]
      have hlen2 : (applyLeftShift w v.blocks k).length = blocksRequired w v.bitsNum := by
        rw [length_applyLeftShift, hlen]
      rw [test_sanitize_of_lt hw hlen2 hp]
      have hKlen : p / w < (applyLeftShift w v.blocks k).length := by
        rw [length_applyLeftShift, hlen]
        exact div_lt_blocksRequired hw hp
      rw [length_applyLeftShift] at hKlen
      simp only [applyLeftShift]
      by_cases hoff : k % w = 0
      · rw [if_pos hoff, getD_range_map, if_pos hKlen]
        by_cases hble : k / w ≤ p / w
        · rw [if_pos hble]
          have hBle : k / w * w ≤ p / w * w := Nat.mul_le_mul_right w hble
          have hklep : k ≤ p := by omega
          rw [if_pos hklep, test_eq_testBit]
          have hrepr : p - k = (p / w - k / w) * w + p % w := by
            rw [Nat.sub_mul]
            omega
          rw [hrepr, mul_add_div_self hw hpm, mul_add_mod_self hpm]
        · rw [if_neg hble]
          have hAB : p / w * w + w ≤ k / w * w := by
            have hm := Nat.mul_le_mul_right w (by omega : p / w + 1 ≤ k / w)
            rw [Nat.add_mul, Nat.one_mul] at hm
            exact hm
          rw [if_neg (by omega), Nat.zero_testBit]
      · rw [if_neg hoff, getD_range_map, if_pos hKlen]
        by_cases hKbs : p / w < k / w
        · rw [if_pos hKbs]
          have hAB : p / w * w + w ≤ k / w * w := by
            have hm := Nat.mul_le_mul_right w (by omega : p / w + 1 ≤ k / w)
            rw [Nat.add_mul, Nat.one_mul] at hm
            exact hm
          rw [if_neg (by omega), Nat.zero_testBit]
        · rw [if_neg hKbs]
          by_cases hKeq : p / w = k / w
          · rw [if_pos hKeq]
            have hKk : p / w * w + k % w = k := by
              rw [hKeq]
              exact hK
            rw [Nat.testBit_mod_two_pow, Nat.testBit_shiftLeft]
            by_cases hjoff : k % w ≤ p % w
            · have hklep : k ≤ p := by omega
              rw [if_pos hklep, test_eq_testBit]
              have hpk : p - k = p % w - k % w := by omega
              have hlt1 : p % w - k % w < w := by omega
              rw [hpk, Nat.div_eq_of_lt hlt1, Nat.mod_eq_of_lt hlt1]
              simp [hpm, hjoff]
            · have hplek : p < k := by omega
              rw [if_neg (by omega)]
              have hge : ¬(p % w ≥ k % w) := by omega
              simp [hge]
          · have hKgt : k / w < p / w := by omega
            rw [if_neg hKeq]
            have hAB : k / w * w + w ≤ p / w * w := by
              have hm := Nat.mul_le_mul_right w (by omega : k / w + 1 ≤ p / w)
              rw [Nat.add_mul, Nat.one_mul] at hm
              exact hm
            have hklep : k ≤ p := by omega
            rw [if_pos hklep, test_eq_testBit, Nat.testBit_lor, Nat.testBit_mod_two_pow,
              Nat.testBit_shiftLeft, Nat.testBit_shiftRight]
            by_cases hjo : k % w ≤ p % w
            · have hrepr : p - k = (p / w - k / w) * w + (p % w - k % w) := by
                rw [Nat.sub_mul]
                omega
              have hjlt : p % w - k % w < w := by omega
              rw [hrepr, mul_add_div_self hw hjlt, mul_add_mod_self hjlt]
              have hsecond : (v.blocks.getD (p / w - k / w - 1) 0).testBit
                  (w - k % w + p % w) = false :=
                Nat.testBit_lt_two_pow (Nat.lt_of_lt_of_le (hgetb _)
                  (Nat.pow_le_pow_right (by omega) (by omega)))
              rw [hsecond]
              simp [hpm, hjo]
            · have hrepr : p - k = (p / w - k / w - 1) * w + (w - k % w + p % w) := by
                rw [Nat.sub_mul, Nat.sub_mul, Nat.one_mul]
                omega
              have hjlt : w - k % w + p % w < w := by omega
              rw [hrepr, mul_add_div_self hw hjlt, mul_add_mod_self hjlt]
              have hfirst : ¬(p % w ≥ k % w) := by omega
              simp [hfirst]

theorem size_le_blocksRequired_mul {w n : Nat} (hw : 0 < w) :
    n ≤ blocksRequired w n * w := by
  unfold blocksRequired
  have hdm := Nat.div_add_mod n w
  have hmw : n % w < w := Nat.mod_lt _ hw
  by_cases he : n % w > 0
  · rw [if_pos he, Nat.add_mul, Nat.one_mul, Nat.mul_comm]
    omega
  · rw [if_neg he, Nat.add_zero, Nat.mul_comm]
    omega

/-- Under well-formedness, positions at or above the size always test false. -/
theorem test_high_false {w : Nat} (hw : 0 < w) {v : DynBitset} (h : Wf w v)
    {q : Nat} (hq : v.bitsNum ≤ q) : test w v q = false := by
  rcases ht : test w v q with _ | _
  · rfl
  · have := lt_size_of_test hw h ht
    omega

/-- Bit-level reading of `operator>>=`: position `p` of the shifted bitset
holds the former bit `p + k`. -/
theorem test_shr {w : Nat} (hw : 0 < w) {v : DynBitset} (h : Wf w v) (k p : Nat)
    (hp : p < v.bitsNum) :
    test w (shrEq w v k) p = test w v (p + k) := by
  obtain ⟨hlen, hb, _hu⟩ := (wf_iff w v).mp h
  have hgetb : ∀ i, v.blocks.getD i 0 < 2 ^ w := (bound_iff_getD _ hw).mp hb
  have hP : p / w * w + p % w = p := Nat.div_add_mod' ..
  have hK : k / w * w + k % w = k := Nat.div_add_mod' ..
  have hpm : p % w < w := Nat.mod_lt _ hw
  have hkm : k % w < w := Nat.mod_lt _ hw
  have hsz : v.bitsNum ≤ v.blocks.length * w := by
    rw [hlen]
    exact size_le_blocksRequired_mul hw
  by_cases hk0 : k = 0
  · subst hk0
    unfold shrEq
    rw [if_pos rfl, Nat.add_zero]
  · by_cases hks : k ≥ v.bitsNum
    · unfold shrEq
      rw [if_neg hk0, if_pos hks, testBit_resetAll,
        test_high_false hw h (by omega)]
    · unfold shrEq
      rw [if_neg hk0, if_neg (by omega)]
      rw [test_eq_testBit]
      show ((applyRightShift w v.blocks k).getD (p / w) 0).testBit (p % w) = _
      have hKlen : p / w < v.blocks.length := by
        rw [hlen]
        exact div_lt_blocksRequired hw hp
      simp only [applyRightShift]
      by_cases hoff : k % w = 0
      · rw [if_pos hoff, getD_range_map, if_pos hKlen]
        by_cases hle : p / w ≤ v.blocks.length - k / w - 1
        · rw [if_pos hle]
          have hrepr : p + k = (p / w + k / w) * w + p % w := by
            rw [Nat.add_mul]
            omega
          rw [test_eq_testBit, hrepr, mul_add_div_self hw hpm, mul_add_mod_self hpm]
        · rw [if_neg hle, Nat.zero_testBit]
          have hnb : v.blocks.length ≤ p / w + k / w := by omega
          have hmul : v.blocks.length * w ≤ (p / w + k / w) * w :=
            Nat.mul_le_mul_right w hnb
          rw [Nat.add_mul] at hmul
          exact (test_high_false hw h (by omega)).symm
      · rw [if_neg hoff, getD_range_map, if_pos hKlen]
        by_cases hlt : p / w < v.blocks.length - k / w - 1
        · rw [if_pos hlt]
          rw [Nat.testBit_lor, Nat.testBit_shiftRight, Nat.testBit_mod_two_pow,
            Nat.testBit_shiftLeft]
          by_cases hjow : p % w + k % w < w
          · have hrepr : p + k = (p / w + k / w) * w + (p % w + k % w) := by
              rw [Nat.add_mul]
              omega
            rw [test_eq_testBit, hrepr, mul_add_div_self hw hjow, mul_add_mod_self hjow]
            have hsecond : ¬(w - k % w ≤ p % w) := by omega
            simp [hsecond, Nat.add_comm (k % w) (p % w)]
          · have hrepr : p + k = (p / w + k / w + 1) * w + (p % w + k % w - w) := by
              rw [Nat.add_mul, Nat.add_mul, Nat.one_mul]
              omega
            have hjlt : p % w + k % w - w < w := by omega
            rw [test_eq_testBit, hrepr, mul_add_div_self hw hjlt, mul_add_mod_self hjlt]
            have hfirst : (v.blocks.getD (p / w + k / w) 0).testBit (k % w + p % w)
                = false :=
              Nat.testBit_lt_two_pow (Nat.lt_of_lt_of_le (hgetb _)
                (Nat.pow_le_pow_right (by omega) (by omega)))
            rw [hfirst]
            have hx : w - k % w ≤ p % w := by omega
            have hidx : p % w - (w - k % w) = p % w + k % w - w := by omega
            simp [hpm, hx, hidx]
        · rw [if_neg hlt]
          by_cases heq : p / w = v.blocks.length - k / w - 1
          · rw [if_pos heq]
            rw [Nat.testBit_shiftRight]
            have hbslt : k / w < v.blocks.length := by
              by_contra hc
              push_neg at hc
              have hmul : v.blocks.length * w ≤ k / w * w := Nat.mul_le_mul_right w hc
              omega
            have hsum : p / w + k / w = v.blocks.length - 1 := by omega
            by_cases hjow : p % w + k % w < w
            · have hrepr : p + k = (v.blocks.length - 1) * w + (p % w + k % w) := by
                rw [← hsum, Nat.add_mul]
                omega
              rw [test_eq_testBit, hrepr, mul_add_div_self hw hjow, mul_add_mod_self hjow]
              rw [Nat.add_comm (k % w) (p % w)]
            · have hge : v.blocks.length * w ≤ p + k := by
                have hxp : (v.blocks.length - 1) * w + w ≤ p / w * w + k / w * w + w := by
                  have hmm := Nat.mul_le_mul_right w (by omega :
                    v.blocks.length - 1 ≤ p / w + k / w)
                  rw [Nat.add_mul] at hmm
                  omega
                have hnn : (v.blocks.length - 1) * w + w = v.blocks.length * w := by
                  have : 1 ≤ v.blocks.length := by omega
                  rw [Nat.sub_mul, Nat.one_mul]
                  have hwle : w ≤ v.blocks.length * w := by
                    have := Nat.mul_le_mul_right w this
                    rw [Nat.one_mul] at this
                    exact this
                  omega
                omega
              rw [test_high_false hw h (by omega)]
              exact Nat.testBit_lt_two_pow (Nat.lt_of_lt_of_le (hgetb _)
                (Nat.pow_le_pow_right (by omega) (by omega)))
          · rw [if_neg heq, Nat.zero_testBit]
            have hgt : v.blocks.length - k / w - 1 < p / w := by omega
            have hnb : v.blocks.length ≤ p / w + k / w := by
              by_cases hbslt : k / w < v.blocks.length
              · omega
              · omega
            have hmul : v.blocks.length * w ≤ (p / w + k / w) * w :=
              Nat.mul_le_mul_right w hnb
            rw [Nat.add_mul] at hmul
            exact (test_high_false hw h (by omega)).symm

theorem shiftRight_lt_two_pow {w x k : Nat} (hx : x < 2 ^ w) : x >>> k < 2 ^ w := by
  rw [Nat.shiftRight_eq_div_pow]
  exact Nat.lt_of_le_of_lt (Nat.div_le_self ..) hx

theorem wf_resetAll {w : Nat} (hw : 0 < w) {v : DynBitset} (h : Wf w v) :
    Wf w (resetAll v) := by
  rw [wf_iff] at h ⊢
  obtain ⟨hlen, _hb, _hu⟩ := h
  unfold resetAll
  refine ⟨by simpa using hlen, ?_, ?_⟩
  · intro b hbm
    rw [List.eq_of_mem_replicate hbm]
    exact Nat.pos_pow_of_pos _ (by omega)
  · intro _he
    simp only [List.length_replicate]
    rw [getD_replicate]
    split
    · exact Nat.pos_pow_of_pos _ (by omega)
    · exact Nat.pos_pow_of_pos _ (by omega)

theorem shlEq_bitsNum (w : Nat) (v : DynBitset) (k : Nat) :
    (shlEq w v k).bitsNum = v.bitsNum := by
  unfold shlEq
  split
  · rfl
  · split
    · rfl
    · rw [sanitize_bitsNum]

theorem shrEq_bitsNum (w : Nat) (v : DynBitset) (k : Nat) :
    (shrEq w v k).bitsNum = v.bitsNum := by
  unfold shrEq
  split
  · rfl
  · split
    · rfl
    · rfl

theorem wf_shlEq {w : Nat} (hw : 0 < w) {v : DynBitset} (h : Wf w v) (k : Nat) :
    Wf w (shlEq w v k) := by
  have hpow : (0 : Nat) < 2 ^ w := Nat.pos_pow_of_pos _ (by omega)
  have hgetb : ∀ i, v.blocks.getD i 0 < 2 ^ w :=
    (bound_iff_getD _ hw).mp ((wf_iff w v).mp h).2.1
  unfold shlEq
  split
  · exact h
  · split
    · exact wf_resetAll hw h
    · apply wf_sanitize hw
      · rw [length_applyLeftShift]
        exact ((wf_iff w v).mp h).1
      · rw [bound_iff_getD _ hw]
        intro i
        simp only [applyLeftShift]
        split
        · rw [getD_range_map]
          split
          · split
            · exact hgetb _
            · exact hpow
          · exact hpow
        · rw [getD_range_map]
          split
          · split
            · exact hpow
            · split
              · exact Nat.mod_lt _ hpow
              · exact Nat.or_lt_two_pow (Nat.mod_lt _ hpow) (shiftRight_lt_two_pow (hgetb _))
          · exact hpow

theorem wf_shrEq {w : Nat} (hw : 0 < w) {v : DynBitset} (h : Wf w v) (k : Nat) :
    Wf w (shrEq w v k) := by
  have hpow : (0 : Nat) < 2 ^ w := Nat.pos_pow_of_pos _ (by omega)
  obtain ⟨hlen, hb, hu⟩ := (wf_iff w v).mp h
  have hgetb : ∀ i, v.blocks.getD i 0 < 2 ^ w := (bound_iff_getD _ hw).mp hb
  unfold shrEq
  split
  · exact h
  · split
    · exact wf_resetAll hw h
    · rename_i hk0 hks
      push_neg at hks
      rw [wf_iff]
      refine ⟨by rw [length_applyRightShift]; exact hlen, ?_, ?_⟩
      · rw [bound_iff_getD _ hw]
        intro i
        simp only [applyRightShift]
        split
        · rw [getD_range_map]
          split
          · split
            · exact hgetb _
            · exact hpow
          · exact hpow
        · rw [getD_range_map]
          split
          · split
            · exact Nat.or_lt_two_pow (shiftRight_lt_two_pow (hgetb _)) (Nat.mod_lt _ hpow)
            · split
              · exact shiftRight_lt_two_pow (hgetb _)
              · exact hpow
          · exact hpow
      · intro he
        have he' : 0 < v.bitsNum % w := he
        rw [length_applyRightShift]
        have hn1 : 0 < v.blocks.length := by
          rw [hlen]
          exact blocksRequired_pos hw (by omega)
        have hlast := hu he'
        have hKlen : v.blocks.length - 1 < v.blocks.length := by omega
        simp only [applyRightShift]
        have hK : k / w * w + k % w = k := Nat.div_add_mod' ..
        have hbne : k ≠ 0 := hk0
        have hsz2 : v.bitsNum ≤ v.blocks.length * w := by
          rw [hlen]
          exact size_le_blocksRequired_mul hw
        generalize hq : k / w = q at hK ⊢
        generalize hr : k % w = r at hK ⊢
        have hqn : q < v.blocks.length := by
          by_contra hc
          push_neg at hc
          have hmul : v.blocks.length * w ≤ q * w := Nat.mul_le_mul_right w hc
          omega
        split
        · rename_i hoff
          rw [getD_range_map, if_pos hKlen]
          have hq1 : 1 ≤ q := by
            rcases Nat.eq_zero_or_pos q with h0 | h0
            · exfalso
              apply hbne
              rw [h0, Nat.zero_mul] at hK
              omega
            · exact h0
          rw [if_neg (by omega)]
          exact Nat.pos_pow_of_pos _ (by omega)
        · rename_i hoff
          rw [getD_range_map, if_pos hKlen]
          rw [if_neg (by omega)]
          by_cases hbs : q = 0
          · rw [if_pos (by omega)]
            calc v.blocks.getD (v.blocks.length - 1) 0 >>> r
                ≤ v.blocks.getD (v.blocks.length - 1) 0 := by
                  rw [Nat.shiftRight_eq_div_pow]
                  exact Nat.div_le_self ..
              _ < 2 ^ (v.bitsNum % w) := hlast
          · rw [if_neg (by omega)]
            exact Nat.pos_pow_of_pos _ (by omega)

/-- C3: shifting by `0` is the identity; shifting by `k >= size()` clears
all bits while keeping the size; and `(v << k) >> k` equals `v` with its top
`min(k, size)` bits reset to zero, the size unchanged throughout. -/
theorem claim_C3 (w : Nat) (hw : 0 < w) (v : DynBitset) (h : Wf w v) (k : Nat) :
    (shlEq w v 0 = v ∧ shrEq w v 0 = v) ∧
    ((shlEq w v k).bitsNum = v.bitsNum ∧ (shrEq w v k).bitsNum = v.bitsNum) ∧
    (v.bitsNum ≤ k →
      (shlEq w v k = resetAll v ∧ ∀ p, test w (shlEq w v k) p = false)) ∧
    ((shrEq w (shlEq w v k) k).bitsNum = v.bitsNum ∧
      ∀ p, p < v.bitsNum →
        test w (shrEq w (shlEq w v k) k) p
          = (decide (p + k < v.bitsNum) && test w v p)) := by
  have hWl : Wf w (shlEq w v k) := wf_shlEq hw h k
  have hls : (shlEq w v k).bitsNum = v.bitsNum := shlEq_bitsNum ..
  refine ⟨⟨?_, ?_⟩, ⟨shlEq_bitsNum .., shrEq_bitsNum ..⟩, ?_, ?_, ?_⟩
  · unfold shlEq
    rw [if_pos rfl]
  · unfold shrEq
    rw [if_pos rfl]
  · intro hks
    constructor
    · by_cases hk0 : k = 0
      · subst hk0
        have h0 : v.bitsNum = 0 := by omega
        have hnil : v.blocks = [] := by
          apply List.length_eq_zero.mp
          rw [((wf_iff w v).mp h).1, h0]
          simp [blocksRequired]
        unfold shlEq resetAll
        rw [if_pos rfl]
        have hrep : List.replicate v.blocks.length 0 = v.blocks := by
          rw [hnil]
          rfl
        calc v = ⟨v.blocks, v.bitsNum⟩ := rfl
          _ = ⟨List.replicate v.blocks.length 0, v.bitsNum⟩ := by rw [hrep]
      · unfold shlEq
        rw [if_neg hk0, if_pos (by omega)]
    · intro p
      by_cases hp : p < v.bitsNum
      · rw [test_shl hw h k p hp, if_neg (by omega)]
      · exact test_high_false hw hWl (by omega)
  · rw [shrEq_bitsNum, hls]
  · intro p hp
    rw [test_shr hw hWl k p (by omega)]
    by_cases hpk : p + k < v.bitsNum
    · rw [test_shl hw h k (p + k) (by omega), if_pos (by omega), Nat.add_sub_cancel]
      simp [hpk]
    · rw [test_high_false hw hWl (by omega)]
      simp [hpk]

/-- Witness for C3 at `w = 4`, `v = 1011101₂` (blocks `[13, 5]`, size 7),
`k = 3`. -/
theorem claim_C3_witness :
    0 < 4 ∧ Wf 4 ⟨[13, 5], 7⟩ ∧
      ((shlEq 4 ⟨[13, 5], 7⟩ 0 = ⟨[13, 5], 7⟩ ∧ shrEq 4 ⟨[13, 5], 7⟩ 0 = ⟨[13, 5], 7⟩) ∧
      ((shlEq 4 ⟨[13, 5], 7⟩ 3).bitsNum = DynBitset.bitsNum ⟨[13, 5], 7⟩ ∧
        (shrEq 4 ⟨[13, 5], 7⟩ 3).bitsNum = DynBitset.bitsNum ⟨[13, 5], 7⟩) ∧
      (DynBitset.bitsNum ⟨[13, 5], 7⟩ ≤ 3 →
        (shlEq 4 ⟨[13, 5], 7⟩ 3 = resetAll ⟨[13, 5], 7⟩ ∧
          ∀ p, test 4 (shlEq 4 ⟨[13, 5], 7⟩ 3) p = false)) ∧
      ((shrEq 4 (shlEq 4 ⟨[13, 5], 7⟩ 3) 3).bitsNum = DynBitset.bitsNum ⟨[13, 5], 7⟩ ∧
        ∀ p, p < DynBitset.bitsNum ⟨[13, 5], 7⟩ →
          test 4 (shrEq 4 (shlEq 4 ⟨[13, 5], 7⟩ 3) 3) p
            = (decide (p + 3 < DynBitset.bitsNum ⟨[13, 5], 7⟩) && test 4 ⟨[13, 5], 7⟩ p))) :=
  ⟨by decide, by decide, claim_C3 4 (by decide) ⟨[13, 5], 7⟩ (by decide) 3⟩

/-- Unfolding of `find_next` past its early-return test. -/
theorem findNext_eq (w : Nat) (v : DynBitset) (prev : Nat)
    (hcond : ¬(v.bitsNum = 0 ∨ prev ≥ v.bitsNum - 1)) :
    findNext w v prev =
      if v.blocks.getD ((prev + 1) / w) 0 >>> ((prev + 1) % w) ≠ 0 then
        (prev + 1) + firstOn w (v.blocks.getD ((prev + 1) / w) 0 >>> ((prev + 1) % w))
      else findFirstAux w (v.blocks.drop ((prev + 1) / w + 1)) ((prev + 1) / w + 1) := by
  unfold findNext
  rw [if_neg hcond]
  rfl

/-- C6: `find_first` returns the least set position, or the sentinel `npos`
when no bit is set; `find_next(prev)` returns the least set position strictly
above `prev`, or `npos` when none exists; and `find_next` returns `npos`
whenever the bitset is empty or `prev >= size() - 1`. -/
theorem claim_C6 (w : Nat) (hw : 0 < w) (v : DynBitset) (h : Wf w v) :
    ((∀ p, test w v p = false) → findFirst w v = npos) ∧
    (∀ p, test w v p = true → (∀ q, q < p → test w v q = false) → findFirst w v = p) ∧
    (∀ prev p, prev < p → test w v p = true →
      (∀ q, prev < q → q < p → test w v q = false) → findNext w v prev = p) ∧
    (∀ prev, (∀ p, prev < p → test w v p = false) → findNext w v prev = npos) ∧
    (∀ prev, v.bitsNum = 0 ∨ v.bitsNum - 1 ≤ prev → findNext w v prev = npos) := by
  obtain ⟨hlen, hb, _hu⟩ := (wf_iff w v).mp h
  refine ⟨?_, ?_, ?_, ?_, ?_⟩
  · -- no set bit: all blocks are zero, the scan returns npos
    intro hz
    unfold findFirst
    apply findFirstAux_all_zero
    rw [forall_mem_iff_getD _ (fun b => b = 0) rfl]
    intro i
    by_contra hbne
    have hibound : i < v.blocks.length := by
      by_contra hc
      rw [getD_of_le _ (Nat.le_of_not_lt hc)] at hbne
      exact hbne rfl
    obtain ⟨j, hjw, hjbit⟩ := exists_testBit_of_ne_zero (hb _ (getD_mem hibound)) hbne
    have ht : test w v (i * w + j) = true := by
      rw [test_eq_testBit, mul_add_div_self hw hjw, mul_add_mod_self hjw]
      exact hjbit
    rw [hz] at ht
    exact Bool.false_ne_true ht
  · -- least set bit
    intro p htp hmin
    unfold findFirst
    have hpsize := lt_size_of_test hw h htp
    have hkl : p / w < v.blocks.length := by
      rw [hlen]
      exact div_lt_blocksRequired hw hpsize
    have hpc : p / w * w + p % w = p := Nat.div_add_mod' ..
    have hres := findFirstAux_min w hw v.blocks 0 (p / w) (p % w) hb hkl (Nat.mod_lt _ hw)
      (by rw [test_eq_testBit] at htp; exact htp)
      (fun k' j' hj' hlt => by
        have hq : k' * w + j' < p := by omega
        have hz := hmin _ hq
        rwa [test_eq_testBit, mul_add_div_self hw hj', mul_add_mod_self hj'] at hz)
    rw [hres, Nat.zero_add, hpc]
  · -- find_next hits the least set bit above prev
    intro prev p hltp htp hmin
    have hpsize := lt_size_of_test hw h htp
    have hcond : ¬(v.bitsNum = 0 ∨ prev ≥ v.bitsNum - 1) := by
      push_neg
      omega
    rw [findNext_eq w v prev hcond]
    have hfc : (prev + 1) / w * w + (prev + 1) % w = prev + 1 := Nat.div_add_mod' ..
    have hpc : p / w * w + p % w = p := Nat.div_add_mod' ..
    have hfbi_lt : (prev + 1) % w < w := Nat.mod_lt _ hw
    have hpm_lt : p % w < w := Nat.mod_lt _ hw
    have hfble : (prev + 1) / w ≤ p / w := Nat.div_le_div_right hltp
    by_cases hsame : p / w = (prev + 1) / w
    · -- the answer is inside the first scanned block
      rw [hsame] at hpc
      have hmodle : (prev + 1) % w ≤ p % w := by omega
      have hbits : (v.blocks.getD ((prev + 1) / w) 0 >>> ((prev + 1) % w)).testBit
          (p % w - (prev + 1) % w) = true := by
        rw [Nat.testBit_shiftRight]
        rw [show (prev + 1) % w + (p % w - (prev + 1) % w) = p % w from by omega]
        rw [test_eq_testBit, hsame] at htp
        exact htp
      have hne : v.blocks.getD ((prev + 1) / w) 0 >>> ((prev + 1) % w) ≠ 0 :=
        ne_zero_of_testBit hbits
      rw [if_pos hne]
      have hmint : ∀ t, t < p % w - (prev + 1) % w →
          (v.blocks.getD ((prev + 1) / w) 0 >>> ((prev + 1) % w)).testBit t = false := by
        intro t ht
        rw [Nat.testBit_shiftRight]
        have h1 : (prev + 1) % w + t < w := by omega
        have hq : test w v (prev + 1 + t) = false := hmin _ (by omega) (by omega)
        have hrepr : prev + 1 + t = (prev + 1) / w * w + ((prev + 1) % w + t) := by omega
        rw [test_eq_testBit, hrepr, mul_add_div_self hw h1, mul_add_mod_self h1] at hq
        exact hq
      rw [firstOn_spec (show p % w - (prev + 1) % w < w from by omega) hbits hmint]
      omega
    · -- the answer lies in a later block
      have hfblt : (prev + 1) / w < p / w := Nat.lt_of_le_of_ne hfble (fun hc => hsame hc.symm)
      have hshift0 : v.blocks.getD ((prev + 1) / w) 0 >>> ((prev + 1) % w) = 0 := by
        rw [eq_zero_iff_testBit]
        intro t
        rw [Nat.testBit_shiftRight]
        by_cases hin : (prev + 1) % w + t < w
        · have hqlt : prev + 1 + t < p := by
            have h2 : ((prev + 1) / w + 1) * w ≤ p / w * w :=
              Nat.mul_le_mul_right w hfblt
            rw [Nat.add_mul, Nat.one_mul] at h2
            omega
          have hq : test w v (prev + 1 + t) = false := hmin _ (by omega) hqlt
          have hrepr : prev + 1 + t = (prev + 1) / w * w + ((prev + 1) % w + t) := by omega
          rw [test_eq_testBit, hrepr, mul_add_div_self hw hin, mul_add_mod_self hin] at hq
          exact hq
        · have hblt : v.blocks.getD ((prev + 1) / w) 0 < 2 ^ w :=
            (bound_iff_getD _ hw).mp hb _
          exact Nat.testBit_lt_two_pow
            (Nat.lt_of_lt_of_le hblt
              (Nat.pow_le_pow_right (by omega) (by omega)))
      rw [if_neg (by simpa using hshift0)]
      have hkl : p / w < v.blocks.length := by
        rw [hlen]
        exact div_lt_blocksRequired hw hpsize
      obtain ⟨k0, hk0⟩ : ∃ k0, p / w = (prev + 1) / w + 1 + k0 :=
        ⟨p / w - ((prev + 1) / w + 1), by omega⟩
      rw [hk0, Nat.add_mul, Nat.add_mul, Nat.one_mul] at hpc
      have hres := findFirstAux_min w hw (v.blocks.drop ((prev + 1) / w + 1))
        ((prev + 1) / w + 1) k0 (p % w)
        (fun x hx => hb x (List.mem_of_mem_drop hx))
        (by rw [List.length_drop]; omega)
        hpm_lt
        (by rw [getD_drop, show (prev + 1) / w + 1 + k0 = p / w from hk0.symm]
            rw [test_eq_testBit] at htp
            exact htp)
        (fun k' j' hj' hlt => by
          rw [getD_drop]
          have hqgt : prev < ((prev + 1) / w + 1 + k') * w + j' := by
            rw [Nat.add_mul, Nat.add_mul, Nat.one_mul]
            omega
          have hqlt : ((prev + 1) / w + 1 + k') * w + j' < p := by
            rw [Nat.add_mul, Nat.add_mul, Nat.one_mul]
            omega
          have hq : test w v (((prev + 1) / w + 1 + k') * w + j') = false :=
            hmin _ hqgt hqlt
          rwa [test_eq_testBit, mul_add_div_self hw hj', mul_add_mod_self hj'] at hq)
      rw [hres, Nat.add_mul, Nat.add_mul, Nat.one_mul]
      omega
  · -- no set bit above prev: npos
    intro prev hnone
    by_cases hcond : v.bitsNum = 0 ∨ prev ≥ v.bitsNum - 1
    · unfold findNext
      rw [if_pos hcond]
    · rw [findNext_eq w v prev hcond]
      have hfc : (prev + 1) / w * w + (prev + 1) % w = prev + 1 := Nat.div_add_mod' ..
      have hfbi_lt : (prev + 1) % w < w := Nat.mod_lt _ hw
      have hshift0 : v.blocks.getD ((prev + 1) / w) 0 >>> ((prev + 1) % w) = 0 := by
        rw [eq_zero_iff_testBit]
        intro t
        rw [Nat.testBit_shiftRight]
        by_cases hin : (prev + 1) % w + t < w
        · have hq : test w v (prev + 1 + t) = false := hnone _ (by omega)
          have hrepr : prev + 1 + t = (prev + 1) / w * w + ((prev + 1) % w + t) := by omega
          rw [test_eq_testBit, hrepr, mul_add_div_self hw hin, mul_add_mod_self hin] at hq
          exact hq
        · have hblt : v.blocks.getD ((prev + 1) / w) 0 < 2 ^ w :=
            (bound_iff_getD _ hw).mp hb _
          exact Nat.testBit_lt_two_pow
            (Nat.lt_of_lt_of_le hblt (Nat.pow_le_pow_right (by omega) (by omega)))
      rw [if_neg (by simpa using hshift0)]
      apply findFirstAux_all_zero
      rw [forall_mem_iff_getD _ (fun b => b = 0) rfl]
      intro i
      rw [getD_drop]
      apply Nat.eq_of_testBit_eq
      intro j
      rw [Nat.zero_testBit]
      by_cases hjw : j < w
      · have hqgt : prev < ((prev + 1) / w + 1 + i) * w + j := by
          rw [Nat.add_mul, Nat.add_mul, Nat.one_mul]
          omega
        have hq : test w v (((prev + 1) / w + 1 + i) * w + j) = false := hnone _ hqgt
        rwa [test_eq_testBit, mul_add_div_self hw hjw, mul_add_mod_self hjw] at hq
      · have hblt : v.blocks.getD ((prev + 1) / w + 1 + i) 0 < 2 ^ w :=
          (bound_iff_getD _ hw).mp hb _
        exact Nat.testBit_lt_two_pow
          (Nat.lt_of_lt_of_le hblt (Nat.pow_le_pow_right (by omega) (by omega)))
  · -- empty bitset or prev at/after the last position
    intro prev hcond
    unfold findNext
    rw [if_pos (by rcases hcond with h0 | h1
                   · exact Or.inl h0
                   · exact Or.inr h1)]

/-- Witness for C6 at `w = 4`, `v` with blocks `[4, 2]` and size 7
(set bits at positions 2 and 5). -/
theorem claim_C6_witness :
    0 < 4 ∧ Wf 4 ⟨[4, 2], 7⟩ ∧
      (((∀ p, test 4 ⟨[4, 2], 7⟩ p = false) → findFirst 4 ⟨[4, 2], 7⟩ = npos) ∧
      (∀ p, test 4 ⟨[4, 2], 7⟩ p = true → (∀ q, q < p → test 4 ⟨[4, 2], 7⟩ q = false) →
        findFirst 4 ⟨[4, 2], 7⟩ = p) ∧
      (∀ prev p, prev < p → test 4 ⟨[4, 2], 7⟩ p = true →
        (∀ q, prev < q → q < p → test 4 ⟨[4, 2], 7⟩ q = false) →
        findNext 4 ⟨[4, 2], 7⟩ prev = p) ∧
      (∀ prev, (∀ p, prev < p → test 4 ⟨[4, 2], 7⟩ p = false) →
        findNext 4 ⟨[4, 2], 7⟩ prev = npos) ∧
      (∀ prev, DynBitset.bitsNum ⟨[4, 2], 7⟩ = 0 ∨
          DynBitset.bitsNum ⟨[4, 2], 7⟩ - 1 ≤ prev →
        findNext 4 ⟨[4, 2], 7⟩ prev = npos)) :=
  ⟨by decide, by decide, claim_C6 4 (by decide) ⟨[4, 2], 7⟩ (by decide)⟩

/-- C5: `count()` returns the number of positions `p < size()` with
`test(p)` true; it is `0` on an empty bitset; and the accelerated popcount
path for a partial block agrees with the portable per-bit fallback. -/
theorem claim_C5 (w : Nat) (hw : 0 < w) (v : DynBitset) (h : Wf w v) :
    count w v = ((List.range v.bitsNum).filter (fun p => test w v p)).length ∧
    (v.bitsNum = 0 → count w v = 0) ∧
    (∀ b nbits, nbits ≤ w → blockCountAccel w b nbits = blockCountPart w b nbits) := by
  refine ⟨?_, ?_, ?_⟩
  · rw [filter_length_eq_sum]
    have hcore := count_core w hw v.blocks v.bitsNum ((wf_iff w v).mp h).1
    have hv : (⟨v.blocks, v.bitsNum⟩ : DynBitset) = v := rfl
    rw [hv] at hcore
    rw [hcore]
    apply Finset.sum_congr rfl
    intro p _
    rw [test_eq_testBit]
  · intro h0
    simp [count, h0]
  · intro b nbits hn
    exact blockCountAccel_eq_part hn

/-- Witness for C5 at `w = 4`, `v = 1011101₂` (blocks `[13, 5]`, size 7). -/
theorem claim_C5_witness :
    0 < 4 ∧ Wf 4 ⟨[13, 5], 7⟩ ∧
      (count 4 ⟨[13, 5], 7⟩ =
          ((List.range (DynBitset.bitsNum ⟨[13, 5], 7⟩)).filter
            (fun p => test 4 ⟨[13, 5], 7⟩ p)).length ∧
        (DynBitset.bitsNum ⟨[13, 5], 7⟩ = 0 → count 4 ⟨[13, 5], 7⟩ = 0) ∧
        (∀ b nbits, nbits ≤ 4 → blockCountAccel 4 b nbits = blockCountPart 4 b nbits)) :=
  ⟨by decide, by decide, claim_C5 4 (by decide) ⟨[13, 5], 7⟩ (by decide)⟩

/-- Witness for C8 at `w = 4`, `A = 1001₂` (size 4), `B = 11₂` (size 2). -/
theorem claim_C8_witness :
    0 < 4 ∧ Wf 4 ⟨[9], 4⟩ ∧ Wf 4 ⟨[3], 2⟩ ∧
      ((intersects ⟨[9], 4⟩ ⟨[3], 2⟩ = true ↔
        ∃ i, i < min (DynBitset.blocks ⟨[9], 4⟩).length (DynBitset.blocks ⟨[3], 2⟩).length ∧
          (DynBitset.blocks ⟨[9], 4⟩).getD i 0 &&& (DynBitset.blocks ⟨[3], 2⟩).getD i 0 ≠ 0) ∧
      (intersects ⟨[9], 4⟩ ⟨[3], 2⟩ = true ↔
        ∃ p, p < min (DynBitset.bitsNum ⟨[9], 4⟩) (DynBitset.bitsNum ⟨[3], 2⟩) ∧
          test 4 ⟨[9], 4⟩ p = true ∧ test 4 ⟨[3], 2⟩ p = true)) :=
  ⟨by decide, by decide, by decide,
    claim_C8 4 (by decide) ⟨[9], 4⟩ ⟨[3], 2⟩ (by decide) (by decide)⟩

/-! ### Append -/

theorem modifyLast_append_singleton (f : Nat → Nat) (l : List Nat) (a : Nat) :
    modifyLast f (l ++ [a]) = l ++ [f a] := by
  unfold modifyLast modifyIdx
  have hlen : (l ++ [a]).length - 1 = l.length := by simp
  rw [hlen, getD_append_right (Nat.le_refl _), Nat.sub_self,
    List.set_append_right _ _ (Nat.le_refl _), Nat.sub_self]
  rfl

/-- Folding `append(block)` over a block-aligned state just concatenates the
block lists. -/
theorem foldl_appendBlock_aligned (w : Nat) (xs : List Nat) :
    ∀ st : DynBitset, st.bitsNum % w = 0 →
      List.foldl (appendBlock w) st xs = ⟨st.blocks ++ xs, st.bitsNum + xs.length * w⟩ := by
  induction xs with
  | nil => intro st _; simp
  | cons x xs ih =>
    intro st h
    rw [List.foldl_cons]
    have hstep : appendBlock w st x = ⟨st.blocks ++ [x], st.bitsNum + w⟩ := by
      simp only [appendBlock]
      rw [if_pos h]
    rw [hstep, ih _ (by simpa using h)]
    congr 1
    · simp
    · simp only [List.length_cons]
      ring

/-- Folding `append(block)` over a non-aligned state whose last block is the
pending carry reproduces the carry loop `append_carry`. -/
theorem foldl_appendBlock_carry (w : Nat) (xs : List Nat) :
    ∀ (pre : List Nat) (c bits : Nat), 0 < bits % w →
      List.foldl (appendBlock w) ⟨pre ++ [c], bits⟩ xs =
        ⟨pre ++ appendCarry w (bits % w) (w - bits % w) c xs, bits + xs.length * w⟩ := by
  induction xs with
  | nil => intro pre c bits _; simp [appendCarry]
  | cons x xs ih =>
    intro pre c bits h
    rw [List.foldl_cons]
    have hstep : appendBlock w ⟨pre ++ [c], bits⟩ x =
        ⟨(pre ++ [c ||| ((x <<< (bits % w)) % 2 ^ w)]) ++ [x >>> (w - bits % w)],
          bits + w⟩ := by
      simp only [appendBlock]
      rw [if_neg (by omega), modifyLast_append_singleton]
    have hmod : (bits + w) % w = bits % w := Nat.add_mod_right ..
    rw [hstep, ih _ _ _ (by omega)]
    rw [hmod]
    congr 1
    · simp [appendCarry]
    · simp only [List.length_cons]
      ring

/-- `append(first, last)` is the fold of the single-block `append` over the
input sequence. -/
theorem appendBlocks_eq_foldl (w : Nat) (v : DynBitset) (l : List Nat) :
    appendBlocks w v l = List.foldl (appendBlock w) v l := by
  match l with
  | [] => rfl
  | x :: xs =>
    simp only [appendBlocks]
    by_cases he : v.bitsNum % w = 0
    · rw [if_pos he, List.foldl_cons]
      have hstep : appendBlock w v x = ⟨v.blocks ++ [x], v.bitsNum + w⟩ := by
        simp only [appendBlock]
        rw [if_pos he]
      rw [hstep, foldl_appendBlock_aligned w xs _ (by simpa using he)]
      congr 1
      · simp
      · simp only [List.length_cons]
        ring
    · rw [if_neg he, List.foldl_cons]
      have hstep : appendBlock w v x =
          ⟨modifyLast (fun t => t ||| ((x <<< (v.bitsNum % w)) % 2 ^ w)) v.blocks ++
              [x >>> (w - v.bitsNum % w)], v.bitsNum + w⟩ := by
        simp only [appendBlock]
        rw [if_neg he]
      have hmod : (v.bitsNum + w) % w = v.bitsNum % w := Nat.add_mod_right ..
      rw [hstep, foldl_appendBlock_carry w xs _ _ _ (by omega)]
      rw [hmod]
      congr 1
      simp only [List.length_cons]
      ring

/-- A right shift of a `w`-bit block by `w - e` fits in `e` bits. -/
theorem shiftRight_rev_lt {w e b : Nat} (hb : b < 2 ^ w) (he : e ≤ w) :
    b >>> (w - e) < 2 ^ e := by
  rw [lt_two_pow_iff_testBit]
  intro i hi
  rw [Nat.testBit_shiftRight]
  exact (lt_two_pow_iff_testBit b w).mp hb _ (by omega)

/-- Single-block `append`: the size grows by `w`, well-formedness is preserved,
old bits keep their values, and the `w` new bits are the bits of the appended
block. -/
theorem appendBlock_spec {w : Nat} (hw : 0 < w) {v : DynBitset} (h : Wf w v)
    {b : Nat} (hb : b < 2 ^ w) :
    (appendBlock w v b).bitsNum = v.bitsNum + w ∧
    Wf w (appendBlock w v b) ∧
    (∀ p, p < v.bitsNum → test w (appendBlock w v b) p = test w v p) ∧
    (∀ j, j < w → test w (appendBlock w v b) (v.bitsNum + j) = b.testBit j) := by
  obtain ⟨hlen, hbnd, hlast⟩ := (wf_iff w v).mp h
  by_cases he : v.bitsNum % w = 0
  · have hv' : appendBlock w v b = ⟨v.blocks ++ [b], v.bitsNum + w⟩ := by
      simp only [appendBlock]
      rw [if_pos he]
    have hn : v.blocks.length = v.bitsNum / w := by
      rw [hlen]; unfold blocksRequired; rw [if_neg (by omega), Nat.add_zero]
    have hs : v.bitsNum = v.blocks.length * w := by
      have hdm : v.bitsNum / w * w + v.bitsNum % w = v.bitsNum := Nat.div_add_mod' ..
      rw [hn]
      omega
    rw [hv']
    refine ⟨rfl, ?_, ?_, ?_⟩
    · rw [wf_iff]
      refine ⟨?_, ?_, ?_⟩
      · simp only [List.length_append, List.length_singleton]
        unfold blocksRequired
        rw [Nat.add_mod_right, if_neg (by omega), Nat.add_div_right _ hw, hn]
      · intro blk hblk
        rcases List.mem_append.mp hblk with hm | hm
        · exact hbnd _ hm
        · rw [List.mem_singleton.mp hm]; exact hb
      · intro hc
        rw [Nat.add_mod_right] at hc
        omega
    · intro p hp
      rw [test_eq_testBit, test_eq_testBit,
        getD_append_left (by rw [hlen]; exact div_lt_blocksRequired hw hp)]
    · intro j hj
      rw [test_eq_testBit, hs, mul_add_div_self hw hj, mul_add_mod_self hj,
        getD_append_right (Nat.le_refl _), Nat.sub_self]
      rfl
  · have hew : v.bitsNum % w < w := Nat.mod_lt _ hw
    have hv' : appendBlock w v b =
        ⟨modifyLast (fun t => t ||| ((b <<< (v.bitsNum % w)) % 2 ^ w)) v.blocks ++
            [b >>> (w - v.bitsNum % w)], v.bitsNum + w⟩ := by
      simp only [appendBlock]
      rw [if_neg he]
    have hn : v.blocks.length = v.bitsNum / w + 1 := by
      rw [hlen]; unfold blocksRequired; rw [if_pos (by omega)]
    have hs : v.bitsNum = v.bitsNum / w * w + v.bitsNum % w :=
      (Nat.div_add_mod' ..).symm
    have hlenmod :
        (modifyLast (fun t => t ||| ((b <<< (v.bitsNum % w)) % 2 ^ w)) v.blocks).length =
          v.blocks.length := length_modifyLast ..
    rw [hv']
    refine ⟨rfl, ?_, ?_, ?_⟩
    · rw [wf_iff]
      refine ⟨?_, ?_, ?_⟩
      · simp only [List.length_append, List.length_singleton, hlenmod]
        unfold blocksRequired
        rw [Nat.add_mod_right, if_pos (by omega), Nat.add_div_right _ hw, hn]
      · rw [bound_iff_getD _ hw]
        intro i
        by_cases hi : i < v.blocks.length
        · rw [getD_append_left (by omega)]
          by_cases hil : i = v.blocks.length - 1
          · subst hil
            unfold modifyLast
            rw [getD_modifyIdx_self _ (by omega)]
            exact Nat.or_lt_two_pow (hbnd _ (getD_mem (by omega)))
              (Nat.mod_lt _ (Nat.pos_pow_of_pos _ (by omega)))
          · unfold modifyLast
            rw [getD_modifyIdx_ne _ (fun hc => hil hc.symm)]
            exact (bound_iff_getD _ hw).mp hbnd i
        · by_cases hi2 : i = v.blocks.length
          · rw [getD_append_right (by omega)]
            subst hi2
            rw [hlenmod, Nat.sub_self]
            exact Nat.lt_of_lt_of_le (shiftRight_rev_lt hb (by omega))
              (Nat.pow_le_pow_right (by omega) (by omega))
          · rw [getD_of_le _ (by simp only [List.length_append,
              List.length_singleton, hlenmod]; omega)]
            exact Nat.pos_pow_of_pos _ (by omega)
      · intro hc
        simp only [List.length_append, List.length_singleton, hlenmod]
        rw [getD_append_right (by omega), hlenmod]
        have hidx : v.blocks.length + 1 - 1 - v.blocks.length = 0 := by omega
        rw [hidx, Nat.add_mod_right]
        exact shiftRight_rev_lt hb (by omega)
    · intro p hp
      have hq : p / w < v.blocks.length := by
        rw [hlen]; exact div_lt_blocksRequired hw hp
      rw [test_eq_testBit, test_eq_testBit, getD_append_left (by omega)]
      by_cases hqlast : p / w = v.blocks.length - 1
      · unfold modifyLast
        rw [hqlast, getD_modifyIdx_self _ (by omega)]
        have hr : p % w < v.bitsNum % w := by
          have hpd := Nat.div_add_mod p w
          have hq2 : p / w = v.bitsNum / w := by omega
          have h1 : w * (p / w) = w * (v.bitsNum / w) := by rw [hq2]
          have h2 : v.bitsNum / w * w = w * (v.bitsNum / w) := Nat.mul_comm ..
          omega
        rw [Nat.testBit_lor, Nat.testBit_mod_two_pow, Nat.testBit_shiftLeft]
        have hne : ¬v.bitsNum % w ≤ p % w := by omega
        simp [hne]
      · unfold modifyLast
        rw [getD_modifyIdx_ne _ (fun hc => hqlast hc.symm)]
    · intro j hj
      by_cases hjsplit : v.bitsNum % w + j < w
      · have hpos : v.bitsNum + j = v.bitsNum / w * w + (v.bitsNum % w + j) := by omega
        rw [test_eq_testBit, hpos, mul_add_div_self hw hjsplit,
          mul_add_mod_self hjsplit,
          getD_append_left (by omega)]
        unfold modifyLast
        have hql : v.bitsNum / w = v.blocks.length - 1 := by
          rw [hn, Nat.add_sub_cancel]
        rw [hql, getD_modifyIdx_self _ (by omega)]
        rw [Nat.testBit_lor, Nat.testBit_mod_two_pow, Nat.testBit_shiftLeft]
        have hold : (v.blocks.getD (v.blocks.length - 1) 0).testBit (v.bitsNum % w + j) =
            false := by
          exact (lt_two_pow_iff_testBit _ _).mp (hlast (by omega)) _ (by omega)
        have hle : v.bitsNum % w ≤ v.bitsNum % w + j := by omega
        have hsub : v.bitsNum % w + j - v.bitsNum % w = j := by omega
        rw [hold, Bool.false_or, hsub]
        simp [hjsplit, hle]
      · have hpos : v.bitsNum + j =
            (v.bitsNum / w + 1) * w + (v.bitsNum % w + j - w) := by
          rw [Nat.add_mul, Nat.one_mul]
          omega
        have hlt : v.bitsNum % w + j - w < w := by omega
        rw [test_eq_testBit, hpos, mul_add_div_self hw hlt, mul_add_mod_self hlt,
          getD_append_right (by omega), hlenmod, hn, Nat.sub_self]
        have hget : ([b >>> (w - v.bitsNum % w)] : List Nat).getD 0 0 =
            b >>> (w - v.bitsNum % w) := rfl
        rw [hget, Nat.testBit_shiftRight]
        have harg : w - v.bitsNum % w + (v.bitsNum % w + j - w) = j := by omega
        rw [harg]

/-- `append(first, last)`: the size grows by `w` per block, well-formedness is
preserved, old bits keep their values, and block `k` of the input provides
bits `s + k * w .. s + k * w + (w - 1)` of the result. -/
theorem appendBlocks_spec {w : Nat} (hw : 0 < w) :
    ∀ (l : List Nat) (v : DynBitset), Wf w v → (∀ b ∈ l, b < 2 ^ w) →
      (appendBlocks w v l).bitsNum = v.bitsNum + l.length * w ∧
      Wf w (appendBlocks w v l) ∧
      (∀ p, p < v.bitsNum → test w (appendBlocks w v l) p = test w v p) ∧
      (∀ k j, k < l.length → j < w →
        test w (appendBlocks w v l) (v.bitsNum + k * w + j) = (l.getD k 0).testBit j) := by
  intro l
  induction l with
  | nil =>
    intro v hv _
    exact ⟨by simp [appendBlocks], hv, fun p _ => rfl, fun k j hk _ => by simp at hk⟩
  | cons x xs ih =>
    intro v hv hball
    rw [appendBlocks_eq_foldl, List.foldl_cons, ← appendBlocks_eq_foldl]
    obtain ⟨h1, h2, h3, h4⟩ := appendBlock_spec hw hv (hball x (List.mem_cons_self ..))
    obtain ⟨g1, g2, g3, g4⟩ :=
      ih (appendBlock w v x) h2 (fun y hy => hball y (List.mem_cons_of_mem _ hy))
    refine ⟨?_, g2, ?_, ?_⟩
    · rw [g1, h1]
      simp only [List.length_cons]
      ring
    · intro p hp
      rw [g3 p (by omega), h3 p hp]
    · intro k j hk hj
      match k with
      | 0 =>
        have hp0 : v.bitsNum + 0 * w + j = v.bitsNum + j := by omega
        rw [hp0, g3 _ (by omega), h4 j hj]
        rfl
      | k' + 1 =>
        have hpk : v.bitsNum + (k' + 1) * w + j =
            (appendBlock w v x).bitsNum + k' * w + j := by
          rw [h1, Nat.add_mul, Nat.one_mul]
          omega
        rw [hpk, g4 k' j (by simpa using hk) hj]
        rfl

/-- C9: appending a non-empty sequence of blocks concatenates at the bit
level: the size grows to `s + n * w`, every old bit keeps its value, and the
bit at position `s + k * w + j` equals bit `j` of input block `k`. -/
theorem claim_C9 (w : Nat) (hw : 0 < w) (v : DynBitset) (h : Wf w v)
    (l : List Nat) (_hne : l ≠ []) (hb : ∀ b ∈ l, b < 2 ^ w) :
    (appendBlocks w v l).bitsNum = v.bitsNum + l.length * w ∧
    (∀ p, p < v.bitsNum → test w (appendBlocks w v l) p = test w v p) ∧
    (∀ k j, k < l.length → j < w →
      test w (appendBlocks w v l) (v.bitsNum + k * w + j) = (l.getD k 0).testBit j) := by
  obtain ⟨h1, _, h3, h4⟩ := appendBlocks_spec hw l v h hb
  exact ⟨h1, h3, h4⟩

/-- Witness for C9 at `w = 4`, `v = 101₂` (size 3, not block-aligned),
appending the blocks `[9, 3]`. -/
theorem claim_C9_witness :
    0 < 4 ∧ Wf 4 ⟨[5], 3⟩ ∧ ([9, 3] : List Nat) ≠ [] ∧
      (∀ b ∈ ([9, 3] : List Nat), b < 2 ^ 4) ∧
      ((appendBlocks 4 ⟨[5], 3⟩ [9, 3]).bitsNum =
          DynBitset.bitsNum ⟨[5], 3⟩ + ([9, 3] : List Nat).length * 4 ∧
        (∀ p, p < DynBitset.bitsNum ⟨[5], 3⟩ →
          test 4 (appendBlocks 4 ⟨[5], 3⟩ [9, 3]) p = test 4 ⟨[5], 3⟩ p) ∧
        (∀ k j, k < ([9, 3] : List Nat).length → j < 4 →
          test 4 (appendBlocks 4 ⟨[5], 3⟩ [9, 3]) (DynBitset.bitsNum ⟨[5], 3⟩ + k * 4 + j) =
            (([9, 3] : List Nat).getD k 0).testBit j)) :=
  ⟨by decide, by decide, by decide, by decide,
    claim_C9 4 (by decide) ⟨[5], 3⟩ (by decide) [9, 3] (by decide) (by decide)⟩

/-! ### String codec -/

theorem getD_of_le_gen {α : Type} (l : List α) {i : Nat} (d : α) (h : l.length ≤ i) :
    l.getD i d = d := by
  simp [List.getD_eq_getElem?_getD, List.getElem?_eq_none h]

theorem getD_set_self_gen {α : Type} {l : List α} {i : Nat} {a d : α} (h : i < l.length) :
    (l.set i a).getD i d = a := by
  simp [List.getD_eq_getElem?_getD, List.getElem?_set_self h]

theorem getD_set_ne_gen {α : Type} {l : List α} {i j : Nat} {a d : α} (h : i ≠ j) :
    (l.set i a).getD j d = l.getD j d := by
  simp [List.getD_eq_getElem?_getD, List.getElem?_set_ne h]

theorem getD_replicate_gen {α : Type} {n : Nat} {a d : α} {i : Nat} :
    (List.replicate n a).getD i d = if i < n then a else d := by
  by_cases h : i < n <;>
    simp [List.getD_eq_getElem?_getD, List.getElem?_replicate, h]

theorem getD_mem_gen {α : Type} {l : List α} {i : Nat} (d : α) (h : i < l.length) :
    l.getD i d ∈ l := by
  rw [List.getD_eq_getElem?_getD, List.getElem?_eq_getElem h]
  exact List.getElem_mem h

theorem list_eq_of_getD {α : Type} (d : α) {l1 l2 : List α} (hlen : l1.length = l2.length)
    (h : ∀ i, i < l1.length → l1.getD i d = l2.getD i d) : l1 = l2 := by
  apply List.ext_getElem hlen
  intro i h1 h2
  have hh := h i h1
  rwa [List.getD_eq_getElem?_getD, List.getD_eq_getElem?_getD,
    List.getElem?_eq_getElem h1, List.getElem?_eq_getElem h2] at hh

theorem foldl_preserve_length (step : List Char → Nat → List Char)
    (h : ∀ s i, (step s i).length = s.length) :
    ∀ (l : List Nat) (s : List Char), (List.foldl step s l).length = s.length := by
  intro l
  induction l with
  | nil => intro s; rfl
  | cons x xs ih =>
    intro s
    rw [List.foldl_cons, ih, h]

/-- Inner character loop of `to_string`: position `q` of the result holds `one`
exactly when some processed mask bit of the block addresses it, and is
otherwise untouched. -/
theorem ts_inner_getD (B w0 len k : Nat) (one : Char) :
    ∀ (n : Nat) (str : List Char) (q : Nat) (d : Char),
      (∀ i, i < n → (B &&& ((1 <<< i) % 2 ^ w0) != 0) = true →
        len - (k * w0 + i + 1) < str.length) →
      ((List.range n).foldl
          (fun s i =>
            if B &&& ((1 <<< i) % 2 ^ w0) != 0 then s.set (len - (k * w0 + i + 1)) one
            else s)
          str).getD q d =
        if ∃ i, i < n ∧ (B &&& ((1 <<< i) % 2 ^ w0) != 0) = true ∧
            len - (k * w0 + i + 1) = q then one
        else str.getD q d := by
  intro n
  induction n with
  | zero =>
    intro str q d _
    rw [if_neg (by rintro ⟨i, hi, _⟩; omega)]
    rfl
  | succ n ih =>
    intro str q d hidx
    rw [List.range_succ, List.foldl_append, List.foldl_cons, List.foldl_nil]
    have hlenp : ((List.range n).foldl
        (fun s i =>
          if B &&& ((1 <<< i) % 2 ^ w0) != 0 then s.set (len - (k * w0 + i + 1)) one
          else s)
        str).length = str.length := by
      apply foldl_preserve_length
      intro s i
      by_cases hg : (B &&& ((1 <<< i) % 2 ^ w0) != 0) = true
      · rw [if_pos hg, List.length_set]
      · rw [if_neg hg]
    by_cases hg : (B &&& ((1 <<< n) % 2 ^ w0) != 0) = true
    · rw [if_pos hg]
      by_cases hq : len - (k * w0 + n + 1) = q
      · rw [hq, getD_set_self_gen (by rw [hlenp, ← hq]; exact hidx n (by omega) hg)]
        rw [if_pos ⟨n, by omega, hg, hq⟩]
      · rw [getD_set_ne_gen hq, ih str q d (fun i hi => hidx i (by omega))]
        by_cases hex : ∃ i, i < n ∧ (B &&& ((1 <<< i) % 2 ^ w0) != 0) = true ∧
            len - (k * w0 + i + 1) = q
        · rw [if_pos hex]
          obtain ⟨i, hi, hgi, hqi⟩ := hex
          rw [if_pos ⟨i, by omega, hgi, hqi⟩]
        · rw [if_neg hex, if_neg]
          rintro ⟨i, hi, hgi, hqi⟩
          rcases Nat.lt_or_ge i n with hin | hin
          · exact hex ⟨i, hin, hgi, hqi⟩
          · have : i = n := by omega
            subst this
            exact hq hqi
    · rw [if_neg hg, ih str q d (fun i hi => hidx i (by omega))]
      by_cases hex : ∃ i, i < n ∧ (B &&& ((1 <<< i) % 2 ^ w0) != 0) = true ∧
          len - (k * w0 + i + 1) = q
      · rw [if_pos hex]
        obtain ⟨i, hi, hgi, hqi⟩ := hex
        rw [if_pos ⟨i, by omega, hgi, hqi⟩]
      · rw [if_neg hex, if_neg]
        rintro ⟨i, hi, hgi, hqi⟩
        rcases Nat.lt_or_ge i n with hin | hin
        · exact hex ⟨i, hin, hgi, hqi⟩
        · have : i = n := by omega
          subst this
          exact hg hgi

theorem mul_lt_of_lt_blocksRequired {w k len : Nat} (hw : 0 < w)
    (hk : k < blocksRequired w len) : k * w < len := by
  unfold blocksRequired at hk
  have hdm : len / w * w + len % w = len := Nat.div_add_mod' ..
  have hmw : len % w < w := Nat.mod_lt _ hw
  by_cases he : len % w > 0
  · rw [if_pos he] at hk
    have hk2 : k ≤ len / w := by omega
    have hmul := Nat.mul_le_mul_right w hk2
    omega
  · rw [if_neg he, Nat.add_zero] at hk
    have hk2 : k + 1 ≤ len / w := hk
    have hmul := Nat.mul_le_mul_right w hk2
    rw [Nat.add_mul, Nat.one_mul] at hmul
    omega

/-- Outer block loop of `to_string`, processed up to block `k`: position `q`
reports bit `len - 1 - q` if that bit lies in an already-processed block and
is set, and still holds the fill character otherwise. -/
theorem ts_fold_getD {w : Nat} (hw : 0 < w) {v : DynBitset} (h : Wf w v)
    (zero one : Char) :
    ∀ (k : Nat), k ≤ v.blocks.length → ∀ (q : Nat) (d : Char), q < v.bitsNum →
      ((List.range k).foldl
          (fun str iBlock =>
            if v.blocks.getD iBlock 0 = 0 then str
            else
              (List.range
                  (if iBlock * w < v.bitsNum then v.bitsNum - iBlock * w else w)).foldl
                (fun str iBit =>
                  if v.blocks.getD iBlock 0 &&& ((1 <<< iBit) % 2 ^ w) != 0 then
                    str.set (v.bitsNum - (iBlock * w + iBit + 1)) one
                  else str)
                str)
          (List.replicate v.bitsNum zero)).getD q d =
        if (v.bitsNum - 1 - q) / w < k ∧ test w v (v.bitsNum - 1 - q) = true then one
        else zero := by
  intro k
  induction k with
  | zero =>
    intro _ q d hq
    rw [List.range_zero, List.foldl_nil, getD_replicate_gen, if_pos hq,
      if_neg (by rintro ⟨h1, _⟩; exact absurd h1 (Nat.not_lt_zero _))]
  | succ k ih =>
    intro hk1 q d hq
    have ihk := fun q d hq => ih (by omega) q d hq
    simp only [List.range_succ, List.foldl_append, List.foldl_cons, List.foldl_nil]
    set prev : List Char :=
      (List.range k).foldl
        (fun str iBlock =>
          if v.blocks.getD iBlock 0 = 0 then str
          else
            (List.range
                (if iBlock * w < v.bitsNum then v.bitsNum - iBlock * w else w)).foldl
              (fun str iBit =>
                if v.blocks.getD iBlock 0 &&& ((1 <<< iBit) % 2 ^ w) != 0 then
                  str.set (v.bitsNum - (iBlock * w + iBit + 1)) one
                else str)
              str)
        (List.replicate v.bitsNum zero) with hprev
    have hkb : k < v.blocks.length := by omega
    obtain ⟨hlen, hbnd, hlast⟩ := (wf_iff w v).mp h
    have hkw : k * w < v.bitsNum :=
      mul_lt_of_lt_blocksRequired hw (by rw [← hlen]; exact hkb)
    by_cases hb0 : v.blocks.getD k 0 = 0
    · rw [if_pos hb0, ihk q d hq]
      by_cases ht : test w v (v.bitsNum - 1 - q) = true
      · have htb := ht
        rw [test_eq_testBit] at htb
        by_cases hd : (v.bitsNum - 1 - q) / w < k
        · rw [if_pos ⟨hd, ht⟩, if_pos ⟨Nat.lt_succ_of_lt hd, ht⟩]
        · have hdk : (v.bitsNum - 1 - q) / w ≠ k := by
            intro hdk
            rw [hdk, hb0] at htb
            simp at htb
          have hd2 : ¬((v.bitsNum - 1 - q) / w < k + 1) := fun hc => by
            rcases Nat.lt_succ_iff_lt_or_eq.mp hc with hlt | heq
            exacts [hd hlt, hdk heq]
          rw [if_neg (fun hc => hd hc.1), if_neg (fun hc => hd2 hc.1)]
      · rw [if_neg (fun hc => ht hc.2), if_neg (fun hc => ht hc.2)]
    · rw [if_neg hb0, if_pos hkw]
      have hprevlen : prev.length = v.bitsNum := by
        rw [hprev]
        refine Eq.trans (foldl_preserve_length _ ?_ _ _) (List.length_replicate ..)
        intro s i
        by_cases hbi : v.blocks.getD i 0 = 0
        · rw [if_pos hbi]
        · rw [if_neg hbi]
          apply foldl_preserve_length
          intro s' i'
          by_cases hg : (v.blocks.getD i 0 &&& ((1 <<< i') % 2 ^ w) != 0) = true
          · rw [if_pos hg, List.length_set]
          · rw [if_neg hg]
      have hidxp : ∀ i, i < v.bitsNum - k * w →
          (v.blocks.getD k 0 &&& ((1 <<< i) % 2 ^ w) != 0) = true →
          v.bitsNum - (k * w + i + 1) < prev.length := by
        intro i _hi _hg
        rw [hprevlen]
        omega
      rw [ts_inner_getD (v.blocks.getD k 0) w v.bitsNum k one (v.bitsNum - k * w)
        prev q d hidxp, ihk q d hq]
      have hiff : (∃ i, i < v.bitsNum - k * w ∧
          (v.blocks.getD k 0 &&& ((1 <<< i) % 2 ^ w) != 0) = true ∧
          v.bitsNum - (k * w + i + 1) = q) ↔
          ((v.bitsNum - 1 - q) / w = k ∧ test w v (v.bitsNum - 1 - q) = true) := by
        constructor
        · rintro ⟨i, hilim, hgi, hqi⟩
          have hgne : v.blocks.getD k 0 &&& ((1 <<< i) % 2 ^ w) ≠ 0 := by
            simpa using hgi
          have hiw : i < w := by
            by_contra hc
            apply hgne
            have hz : (1 <<< i) % 2 ^ w = 0 := by
              rw [Nat.one_shiftLeft, show i = w + (i - w) by omega, Nat.pow_add]
              exact Nat.mul_mod_right ..
            rw [hz, Nat.and_zero]
          have hmod : (1 <<< i) % 2 ^ w = 1 <<< i := by
            rw [Nat.one_shiftLeft]
            exact Nat.mod_eq_of_lt (Nat.pow_lt_pow_right (by omega) hiw)
          rw [hmod] at hgne
          have hbit := (and_mask_ne_zero_iff _ _).mp hgne
          have hposlt : k * w + i < v.bitsNum := pos_lt_of_testBit hw h hiw hbit
          have hPeq : v.bitsNum - 1 - q = k * w + i := by omega
          refine ⟨?_, ?_⟩
          · rw [hPeq]; exact mul_add_div_self hw hiw
          · rw [test_eq_testBit, hPeq, mul_add_div_self hw hiw, mul_add_mod_self hiw]
            exact hbit
        · rintro ⟨hPk, ht⟩
          have hPlt : v.bitsNum - 1 - q < v.bitsNum := by omega
          rw [test_eq_testBit, hPk] at ht
          have hiw : (v.bitsNum - 1 - q) % w < w := Nat.mod_lt _ hw
          have hdm : (v.bitsNum - 1 - q) / w * w + (v.bitsNum - 1 - q) % w =
              v.bitsNum - 1 - q := Nat.div_add_mod' ..
          rw [hPk] at hdm
          refine ⟨(v.bitsNum - 1 - q) % w, by omega, ?_, by omega⟩
          have hmod : (1 <<< ((v.bitsNum - 1 - q) % w)) % 2 ^ w =
              1 <<< ((v.bitsNum - 1 - q) % w) := by
            rw [Nat.one_shiftLeft]
            exact Nat.mod_eq_of_lt (Nat.pow_lt_pow_right (by omega) hiw)
          rw [hmod, bne_zero_eq_testBit]
          exact ht
      by_cases ht : test w v (v.bitsNum - 1 - q) = true
      · by_cases hPk : (v.bitsNum - 1 - q) / w = k
        · rw [if_pos (hiff.mpr ⟨hPk, ht⟩),
            if_pos ⟨Nat.lt_succ_of_le (Nat.le_of_eq hPk), ht⟩]
        · rw [if_neg (fun hc => hPk (hiff.mp hc).1)]
          by_cases hd : (v.bitsNum - 1 - q) / w < k
          · rw [if_pos ⟨hd, ht⟩, if_pos ⟨Nat.lt_succ_of_lt hd, ht⟩]
          · have hd2 : ¬((v.bitsNum - 1 - q) / w < k + 1) := fun hc => by
              rcases Nat.lt_succ_iff_lt_or_eq.mp hc with hlt | heq
              exacts [hd hlt, hPk heq]
            rw [if_neg (fun hc => hd hc.1), if_neg (fun hc => hd2 hc.1)]
      · rw [if_neg (fun hc => ht (hiff.mp hc).2), if_neg (fun hc => ht hc.2),
          if_neg (fun hc => ht hc.2)]

/-- Character `q` of `to_string` reports bit `size - 1 - q`. -/
theorem toString_getD {w : Nat} (hw : 0 < w) {v : DynBitset} (h : Wf w v)
    (zero one : Char) {q : Nat} (hq : q < v.bitsNum) (d : Char) :
    (toString w v zero one).getD q d =
      if test w v (v.bitsNum - 1 - q) = true then one else zero := by
  simp only [toString]
  rw [ts_fold_getD hw h zero one v.blocks.length (Nat.le_refl _) q d hq]
  by_cases ht : test w v (v.bitsNum - 1 - q) = true
  · have hPlt : v.bitsNum - 1 - q < v.bitsNum := by omega
    have hdlt : (v.bitsNum - 1 - q) / w < v.blocks.length := by
      rw [((wf_iff w v).mp h).1]
      exact div_lt_blocksRequired hw hPlt
    rw [if_pos ⟨hdlt, ht⟩, if_pos ht]
  · rw [if_neg (fun hc => ht hc.2), if_neg ht]

/-- `to_string` produces a string of length `size()`. -/
theorem toString_length (w : Nat) (v : DynBitset) (zero one : Char) :
    (toString w v zero one).length = v.bitsNum := by
  simp only [toString]
  refine Eq.trans (foldl_preserve_length _ ?_ _ _) (List.length_replicate ..)
  intro s i
  by_cases hb : v.blocks.getD i 0 = 0
  · rw [if_pos hb]
  · rw [if_neg hb]
    apply foldl_preserve_length
    intro s' i'
    by_cases hg : (v.blocks.getD i 0 &&& ((1 <<< i') % 2 ^ w) != 0) = true
    · rw [if_pos hg, List.length_set]
    · rw [if_neg hg]

/-- `set(pos, true)` keeps the size and the block count. -/
theorem setAt_true_parts (w : Nat) (st : DynBitset) (k : Nat) :
    (setAt w st k true).bitsNum = st.bitsNum ∧
    (setAt w st k true).blocks.length = st.blocks.length := by
  simp only [setAt]
  rw [if_pos trivial]
  exact ⟨rfl, length_modifyIdx st.blocks (blockIdx w k) (fun b => b ||| bitMask w k)⟩

/-- `set(pos, true)` turns exactly bit `pos` on. -/
theorem test_setAt_true {w : Nat} (hw : 0 < w) (st : DynBitset) {k : Nat}
    (hk : blockIdx w k < st.blocks.length) (p : Nat) :
    test w (setAt w st k true) p = (test w st p || decide (p = k)) := by
  rw [test_eq_testBit, test_eq_testBit]
  simp only [setAt]
  rw [if_pos trivial]
  simp only [blockIdx] at hk ⊢
  by_cases hq : p / w = k / w
  · rw [hq, getD_modifyIdx_self _ hk, Nat.testBit_lor, bitMask, bitIdx,
      Nat.one_shiftLeft, Nat.testBit_two_pow]
    have h1 := Nat.div_add_mod p w
    have h2 := Nat.div_add_mod k w
    rw [hq] at h1
    have hiff : (k % w = p % w) ↔ (p = k) := by constructor <;> intro hh <;> omega
    rw [decide_eq_decide.mpr hiff]
  · rw [getD_modifyIdx_ne _ (fun hc => hq hc.symm),
      decide_eq_false (fun hc : p = k => hq (by rw [hc])), Bool.or_false]

/-- `set(pos, true)` keeps every block inside `w` bits. -/
theorem setAt_true_bound {w : Nat} (hw : 0 < w) (st : DynBitset) (k : Nat)
    (hb : ∀ i, st.blocks.getD i 0 < 2 ^ w) :
    ∀ i, (setAt w st k true).blocks.getD i 0 < 2 ^ w := by
  intro i
  simp only [setAt]
  rw [if_pos trivial]
  by_cases hik : blockIdx w k = i
  · by_cases hlt : blockIdx w k < st.blocks.length
    · rw [← hik, getD_modifyIdx_self _ hlt]
      refine Nat.or_lt_two_pow (hb _) ?_
      rw [bitMask, bitIdx, Nat.one_shiftLeft]
      exact Nat.pow_lt_pow_right (by omega) (Nat.mod_lt _ hw)
    · unfold modifyIdx
      rw [List.set_eq_of_length_le (by omega)]
      exact hb i
  · rw [getD_modifyIdx_ne _ hik]
    exact hb i

/-- The bit-setting loop of `init_from_string`, processed up to character
offset `k`: sizes and bounds are maintained and exactly the processed `one`
characters produced set bits. -/
theorem ifs_fold_spec {w : Nat} (hw : 0 < w) (str : List Char) (pos size : Nat)
    (zero one : Char) :
    ∀ k, k ≤ size →
      (((List.range k).foldl
          (fun v i =>
            if str.getD (pos + size - 1 - i) zero = one then setAt w v i true else v)
          ⟨List.replicate (blocksRequired w size) 0, size⟩ : DynBitset)).bitsNum = size ∧
      ((List.range k).foldl
          (fun v i =>
            if str.getD (pos + size - 1 - i) zero = one then setAt w v i true else v)
          ⟨List.replicate (blocksRequired w size) 0, size⟩ : DynBitset).blocks.length =
        blocksRequired w size ∧
      (∀ i, ((List.range k).foldl
          (fun v i =>
            if str.getD (pos + size - 1 - i) zero = one then setAt w v i true else v)
          ⟨List.replicate (blocksRequired w size) 0, size⟩ : DynBitset).blocks.getD i 0 <
        2 ^ w) ∧
      (∀ p, test w ((List.range k).foldl
          (fun v i =>
            if str.getD (pos + size - 1 - i) zero = one then setAt w v i true else v)
          ⟨List.replicate (blocksRequired w size) 0, size⟩ : DynBitset) p =
        (decide (p < k) && decide (str.getD (pos + size - 1 - p) zero = one))) := by
  intro k
  induction k with
  | zero =>
    refine fun _ => ⟨rfl, by simp, ?_, ?_⟩
    · intro i
      rw [List.range_zero, List.foldl_nil]
      simp only []
      rw [getD_replicate]
      split
      · exact Nat.pos_pow_of_pos _ (by omega)
      · exact Nat.pos_pow_of_pos _ (by omega)
    · intro p
      rw [List.range_zero, List.foldl_nil, test_eq_testBit]
      simp only []
      rw [getD_replicate]
      have hz : decide (p < 0) = false := by simp
      rw [hz, Bool.false_and]
      split
      · exact Nat.zero_testBit _
      · exact Nat.zero_testBit _
  | succ k ih =>
    intro hk1
    obtain ⟨ihb, ihl, ihbd, iht⟩ := ih (by omega)
    simp only [List.range_succ, List.foldl_append, List.foldl_cons, List.foldl_nil]
    set prev : DynBitset :=
      (List.range k).foldl
        (fun v i =>
          if str.getD (pos + size - 1 - i) zero = one then setAt w v i true else v)
        ⟨List.replicate (blocksRequired w size) 0, size⟩ with hprev
    have hkdiv : blockIdx w k < prev.blocks.length := by
      rw [ihl]
      exact div_lt_blocksRequired hw (by omega)
    by_cases hc : str.getD (pos + size - 1 - k) zero = one
    · rw [if_pos hc]
      obtain ⟨hsb, hsl⟩ := setAt_true_parts w prev k
      refine ⟨by rw [hsb, ihb], by rw [hsl, ihl], ?_, ?_⟩
      · exact setAt_true_bound hw prev k ihbd
      · intro p
        rw [test_setAt_true hw prev hkdiv p, iht p]
        by_cases hpk : p = k
        · have h1 : decide (str.getD (pos + size - 1 - p) zero = one) = true := by
            rw [hpk]; exact decide_eq_true hc
          have h2 : decide (p = k) = true := decide_eq_true hpk
          have h3 : decide (p < k + 1) = true := decide_eq_true (by omega)
          rw [h1, h2, h3, Bool.or_true, Bool.true_and]
        · have h1 : decide (p = k) = false := decide_eq_false hpk
          rw [h1, Bool.or_false]
          by_cases hplt : p < k
          · have h2 : decide (p < k) = true := decide_eq_true hplt
            have h3 : decide (p < k + 1) = true := decide_eq_true (by omega)
            rw [h2, h3]
          · have h2 : decide (p < k) = false := decide_eq_false hplt
            have h3 : decide (p < k + 1) = false := decide_eq_false (by omega)
            rw [h2, h3]
    · rw [if_neg hc]
      refine ⟨ihb, ihl, ihbd, ?_⟩
      intro p
      rw [iht p]
      by_cases hpk : p = k
      · have h1 : decide (str.getD (pos + size - 1 - p) zero = one) = false := by
          rw [hpk]; exact decide_eq_false hc
        rw [h1, Bool.and_false, Bool.and_false]
      · by_cases hplt : p < k
        · have h2 : decide (p < k) = true := decide_eq_true hplt
          have h3 : decide (p < k + 1) = true := decide_eq_true (by omega)
          rw [h2, h3]
        · have h2 : decide (p < k) = false := decide_eq_false hplt
          have h3 : decide (p < k + 1) = false := decide_eq_false (by omega)
          rw [h2, h3]

/-- Characterization of `init_from_string`: the size is the effective
sub-range length, the block vector has the required size with `w`-bit
blocks, and bit `i` reports whether character `(pos + size - 1) - i` is the
`one` designator. -/
theorem initFromString_spec {w : Nat} (hw : 0 < w) (str : List Char) (pos n : Nat)
    (zero one : Char) :
    (initFromString w str pos n zero one).bitsNum = min n (str.length - pos) ∧
    (initFromString w str pos n zero one).blocks.length =
      blocksRequired w (min n (str.length - pos)) ∧
    (∀ i, (initFromString w str pos n zero one).blocks.getD i 0 < 2 ^ w) ∧
    (∀ p, test w (initFromString w str pos n zero one) p =
      (decide (p < min n (str.length - pos)) &&
        decide (str.getD (pos + min n (str.length - pos) - 1 - p) zero = one))) := by
  simp only [initFromString]
  exact ifs_fold_spec hw str pos (min n (str.length - pos)) zero one
    (min n (str.length - pos)) (Nat.le_refl _)

/-- A state with the right block count, `w`-bit blocks, and no set bit at or
beyond the size is well-formed. -/
theorem wf_of_high_false {w : Nat} (hw : 0 < w) {v : DynBitset}
    (hlen : v.blocks.length = blocksRequired w v.bitsNum)
    (hb : ∀ i, v.blocks.getD i 0 < 2 ^ w)
    (hhigh : ∀ p, v.bitsNum ≤ p → test w v p = false) : Wf w v := by
  rw [wf_iff]
  refine ⟨hlen, (bound_iff_getD _ hw).mpr hb, ?_⟩
  intro he
  rw [lt_two_pow_iff_testBit]
  intro j hj
  by_cases hjw : j < w
  · have hlen1 : v.blocks.length - 1 = v.bitsNum / w := by
      rw [hlen]; unfold blocksRequired; rw [if_pos he, Nat.add_sub_cancel]
    have hdm : v.bitsNum / w * w + v.bitsNum % w = v.bitsNum := Nat.div_add_mod' ..
    have hp := hhigh (v.bitsNum / w * w + j) (by omega)
    rw [test_eq_testBit, mul_add_div_self hw hjw, mul_add_mod_self hjw, ← hlen1] at hp
    exact hp
  · exact (lt_two_pow_iff_testBit _ _).mp (hb _) j (by omega)

/-- Two states with equal sizes, equal block counts, `w`-bit blocks, and the
same set bits are equal. -/
theorem dyn_eq_of_test {w : Nat} (hw : 0 < w) {u v : DynBitset}
    (hbits : u.bitsNum = v.bitsNum) (hlen : u.blocks.length = v.blocks.length)
    (hub : ∀ i, u.blocks.getD i 0 < 2 ^ w) (hvb : ∀ i, v.blocks.getD i 0 < 2 ^ w)
    (htest : ∀ p, test w u p = test w v p) : u = v := by
  have hblocks : u.blocks = v.blocks := by
    apply list_eq_of_getD 0 hlen
    intro i _hi
    apply Nat.eq_of_testBit_eq
    intro j
    by_cases hjw : j < w
    · have hh := htest (i * w + j)
      rwa [test_eq_testBit, test_eq_testBit, mul_add_div_self hw hjw,
        mul_add_mod_self hjw] at hh
    · rw [(lt_two_pow_iff_testBit _ _).mp (hub i) j (by omega),
        (lt_two_pow_iff_testBit _ _).mp (hvb i) j (by omega)]
  cases u
  cases v
  simp only [DynBitset.mk.injEq]
  exact ⟨hblocks, hbits⟩

/-- C4: the string codec round-trips: `from_string(to_string(v)) == v` for every
well-formed bitset, and `to_string(from_string(s)) == s` for every string made
of the two (distinct) designator characters. -/
theorem claim_C4 (w : Nat) (hw : 0 < w) (zero one : Char) (hzo : zero ≠ one) :
    (∀ v : DynBitset, Wf w v → fromString w (toString w v zero one) zero one = v) ∧
    (∀ s : List Char, (∀ c ∈ s, c = zero ∨ c = one) →
      toString w (fromString w s zero one) zero one = s) := by
  constructor
  · intro v h
    simp only [fromString]
    have hslen : (toString w v zero one).length = v.bitsNum := toString_length ..
    obtain ⟨hub, hul, hubd, hut⟩ :=
      initFromString_spec hw (toString w v zero one) 0 (toString w v zero one).length
        zero one
    have hmin : min (toString w v zero one).length ((toString w v zero one).length - 0) =
        v.bitsNum := by
      rw [Nat.sub_zero, Nat.min_self, hslen]
    rw [hmin] at hub hul hut
    rw [Nat.zero_add] at hut
    obtain ⟨hvlen, hvbnd, _⟩ := (wf_iff w v).mp h
    refine dyn_eq_of_test hw hub ?_ hubd ((bound_iff_getD _ hw).mp hvbnd) ?_
    · rw [hul, hvlen]
    · intro p
      by_cases hp : p < v.bitsNum
      · have hq1 : v.bitsNum - 1 - p < v.bitsNum := by omega
        have hchar := toString_getD hw h zero one hq1 zero
        have hpp : v.bitsNum - 1 - (v.bitsNum - 1 - p) = p := by omega
        rw [hpp] at hchar
        rw [hut p, hchar]
        rcases htv : test w v p with _ | _
        · simp [hzo]
        · simp [hp]
      · rw [hut p, decide_eq_false hp, Bool.false_and]
        rcases htv : test w v p with _ | _
        · rfl
        · exact absurd (lt_size_of_test hw h htv) hp
  · intro s hchars
    simp only [fromString]
    obtain ⟨hub, hul, hubd, hut⟩ := initFromString_spec hw s 0 s.length zero one
    have hmin : min s.length (s.length - 0) = s.length := by omega
    rw [hmin] at hub hul hut
    rw [Nat.zero_add] at hut
    have hwf : Wf w (initFromString w s 0 s.length zero one) := by
      refine wf_of_high_false hw ?_ hubd ?_
      · rw [hul, hub]
      · intro p hp
        rw [hub] at hp
        rw [hut p, decide_eq_false (by omega), Bool.false_and]
    apply list_eq_of_getD zero
    · rw [toString_length, hub]
    · intro q hq
      rw [toString_length, hub] at hq
      rw [toString_getD hw hwf zero one (by rw [hub]; exact hq) zero, hub,
        hut (s.length - 1 - q)]
      have h1 : decide (s.length - 1 - q < s.length) = true := decide_eq_true (by omega)
      have h2 : s.length - 1 - (s.length - 1 - q) = q := by omega
      rw [h1, Bool.true_and, h2]
      by_cases hone : s.getD q zero = one
      · rw [if_pos (decide_eq_true hone), hone]
      · rw [if_neg (fun hc => hone (of_decide_eq_true hc))]
        rcases hchars (s.getD q zero) (getD_mem_gen zero hq) with hz | ho
        · rw [hz]
        · exact absurd ho hone

/-! ### Invariant preservation -/

theorem xor_lt_two_pow {x y n : Nat} (hx : x < 2 ^ n) (hy : y < 2 ^ n) :
    x ^^^ y < 2 ^ n := by
  rw [lt_two_pow_iff_testBit] at hx hy ⊢
  intro i hi
  rw [Nat.testBit_xor, hx i hi, hy i hi]
  rfl

/-- A same-size state built from a well-formed one is well-formed once its
blocks are bounded and its last block stays sanitized. -/
theorem wf_same_size {w : Nat} (hw : 0 < w) {v : DynBitset} (h : Wf w v) {nb : List Nat}
    (hlen : nb.length = v.blocks.length)
    (hb : ∀ i, nb.getD i 0 < 2 ^ w)
    (hlast : v.bitsNum % w > 0 → nb.getD (nb.length - 1) 0 < 2 ^ (v.bitsNum % w)) :
    Wf w ⟨nb, v.bitsNum⟩ := by
  rw [wf_iff]
  exact ⟨by rw [hlen, ((wf_iff w v).mp h).1], (bound_iff_getD _ hw).mpr hb, hlast⟩

/-- A position strictly below the size whose block is the size's block has its
intra-block index below the extra-bits count. -/
theorem bitIdx_lt_extra {w : Nat} (_hw : 0 < w) {p s : Nat} (hp : p < s)
    (hq : p / w = s / w) : p % w < s % w := by
  have h1 : p / w * w + p % w = p := Nat.div_add_mod' ..
  have h2 : s / w * w + s % w = s := Nat.div_add_mod' ..
  rw [hq] at h1
  omega

/-- With unaligned size, the last block index is `size / w`. -/
theorem last_index_eq {w : Nat} {v : DynBitset} (h : Wf w v)
    (he : v.bitsNum % w > 0) : v.blocks.length - 1 = v.bitsNum / w := by
  rw [((wf_iff w v).mp h).1]
  unfold blocksRequired
  rw [if_pos he, Nat.add_sub_cancel]

/-- `modifyIdx` with a bound-preserving function keeps all blocks bounded. -/
theorem getD_modifyIdx_lt {w : Nat} {l : List Nat} (hb : ∀ i, l.getD i 0 < 2 ^ w)
    {k : Nat} {f : Nat → Nat} (hf : ∀ x, x < 2 ^ w → f x < 2 ^ w) :
    ∀ i, (modifyIdx l k f).getD i 0 < 2 ^ w := by
  intro i
  by_cases hik : k = i
  · subst hik
    by_cases hkl : k < l.length
    · rw [getD_modifyIdx_self _ hkl]
      exact hf _ (hb k)
    · unfold modifyIdx
      rw [List.set_eq_of_length_le (by omega)]
      exact hb k
  · rw [getD_modifyIdx_ne _ hik]
    exact hb i

/-- Bits of the two-argument `bit_mask(first, last)`. -/
theorem testBit_bitMaskRange {w first last : Nat} (hw : 0 < w)
    (hfl : first % w ≤ last % w) (j : Nat) :
    (bitMaskRange w first last).testBit j =
      decide (first % w ≤ j ∧ j ≤ last % w) := by
  have hlw : last % w < w := Nat.mod_lt _ hw
  simp only [bitMaskRange, bitIdx]
  by_cases hl : last % w = w - 1
  · rw [if_pos hl, testBit_ones_shift]
    apply decide_eq_decide.mpr
    constructor <;> rintro ⟨a, b⟩ <;> exact ⟨a, by omega⟩
  · rw [if_neg hl, Nat.testBit_xor, Nat.one_shiftLeft, Nat.one_shiftLeft,
      Nat.testBit_two_pow_sub_one, Nat.testBit_two_pow_sub_one]
    by_cases h1 : j < first % w
    · have h2 : j < last % w + 1 := by omega
      have h4 : ¬(first % w ≤ j) := Nat.not_le.mpr h1
      simp [h1, h2, h4]
    · by_cases h2 : j < last % w + 1
      · have h3 : j ≤ last % w := by omega
        have h4 : first % w ≤ j := Nat.le_of_not_lt h1
        simp [h1, h2, h3, h4]
      · have h3 : ¬j ≤ last % w := by omega
        simp [h1, h2, h3]

/-- `bit_mask(first, last)` is bounded by any power covering its top bit. -/
theorem bitMaskRange_lt_pow {w first last e : Nat} (hw : 0 < w)
    (hfl : first % w ≤ last % w) (hle : last % w < e) :
    bitMaskRange w first last < 2 ^ e := by
  rw [lt_two_pow_iff_testBit]
  intro j hj
  rw [testBit_bitMaskRange hw hfl]
  exact decide_eq_false (fun hc => by omega)

/-- `set_block_bits` stays below a power bounding both the block and the mask. -/
theorem setBlockBits_lt_pow {w first last e b : Nat} (hb : b < 2 ^ e)
    (hmask : bitMaskRange w first last < 2 ^ e) (val : Bool) :
    setBlockBits w b first last val < 2 ^ e := by
  unfold setBlockBits
  split
  · exact Nat.or_lt_two_pow hb hmask
  · exact Nat.lt_of_le_of_lt Nat.and_le_left hb

/-- `flip_block_bits` stays below a power bounding both the block and the mask. -/
theorem flipBlockBits_lt_pow {w first last e b : Nat} (hb : b < 2 ^ e)
    (hmask : bitMaskRange w first last < 2 ^ e) :
    flipBlockBits w b first last < 2 ^ e := xor_lt_two_pow hb hmask

theorem wf_mkEmpty {w : Nat} (hw : 0 < w) : Wf w mkEmpty := by
  rw [wf_iff]
  refine ⟨by simp [mkEmpty, blocksRequired], ?_, ?_⟩
  · intro b hb
    simp [mkEmpty] at hb
  · intro he
    simp [mkEmpty] at he

theorem wf_clear {w : Nat} (hw : 0 < w) (v : DynBitset) : Wf w (clear v) :=
  wf_mkEmpty hw

/-- The single-bit mask is bounded by the block width. -/
theorem bitMask_lt {w : Nat} (hw : 0 < w) (pos : Nat) : bitMask w pos < 2 ^ w := by
  rw [bitMask, bitIdx, Nat.one_shiftLeft]
  exact Nat.pow_lt_pow_right (by omega) (Nat.mod_lt _ hw)

/-- `set(pos, value)` preserves well-formedness for in-range positions. -/
theorem wf_setAt {w : Nat} (hw : 0 < w) {v : DynBitset} (h : Wf w v) {pos : Nat}
    (hpos : pos < v.bitsNum) (value : Bool) : Wf w (setAt w v pos value) := by
  obtain ⟨hlen, hbnd, hlast⟩ := (wf_iff w v).mp h
  have hdb : blockIdx w pos < v.blocks.length := by
    rw [hlen]
    unfold blockIdx
    exact div_lt_blocksRequired hw hpos
  cases value with
  | false =>
    simp only [setAt]
    rw [if_neg Bool.false_ne_true]
    refine wf_same_size hw h (length_modifyIdx ..) ?_ ?_
    · exact getD_modifyIdx_lt ((bound_iff_getD _ hw).mp hbnd)
        (fun x hx => Nat.lt_of_le_of_lt Nat.and_le_left hx)
    · intro he
      rw [length_modifyIdx]
      by_cases hq : blockIdx w pos = v.blocks.length - 1
      · rw [← hq, getD_modifyIdx_self _ hdb]
        rw [hq]
        exact Nat.lt_of_le_of_lt Nat.and_le_left (hlast he)
      · rw [getD_modifyIdx_ne _ hq]
        exact hlast he
  | true =>
    simp only [setAt]
    rw [if_pos trivial]
    refine wf_same_size hw h (length_modifyIdx ..) ?_ ?_
    · exact getD_modifyIdx_lt ((bound_iff_getD _ hw).mp hbnd)
        (fun x hx => Nat.or_lt_two_pow hx (bitMask_lt hw pos))
    · intro he
      rw [length_modifyIdx]
      by_cases hq : blockIdx w pos = v.blocks.length - 1
      · rw [← hq, getD_modifyIdx_self _ hdb]
        have hq2 : pos / w = v.bitsNum / w := by
          have := last_index_eq h he
          unfold blockIdx at hq
          omega
        have hbit : pos % w < v.bitsNum % w := bitIdx_lt_extra hw hpos hq2
        have hmk : bitMask w pos < 2 ^ (v.bitsNum % w) := by
          rw [bitMask, bitIdx, Nat.one_shiftLeft]
          exact Nat.pow_lt_pow_right (by omega) hbit
        rw [hq]
        exact Nat.or_lt_two_pow (hlast he) hmk
      · rw [getD_modifyIdx_ne _ hq]
        exact hlast he

/-- `flip(pos)` preserves well-formedness for in-range positions. -/
theorem wf_flipAt {w : Nat} (hw : 0 < w) {v : DynBitset} (h : Wf w v) {pos : Nat}
    (hpos : pos < v.bitsNum) : Wf w (flipAt w v pos) := by
  obtain ⟨hlen, hbnd, hlast⟩ := (wf_iff w v).mp h
  have hdb : blockIdx w pos < v.blocks.length := by
    rw [hlen]
    unfold blockIdx
    exact div_lt_blocksRequired hw hpos
  simp only [flipAt]
  refine wf_same_size hw h (length_modifyIdx ..) ?_ ?_
  · exact getD_modifyIdx_lt ((bound_iff_getD _ hw).mp hbnd)
      (fun x hx => xor_lt_two_pow hx (bitMask_lt hw pos))
  · intro he
    rw [length_modifyIdx]
    by_cases hq : blockIdx w pos = v.blocks.length - 1
    · rw [← hq, getD_modifyIdx_self _ hdb]
      have hq2 : pos / w = v.bitsNum / w := by
        have := last_index_eq h he
        unfold blockIdx at hq
        omega
      have hbit : pos % w < v.bitsNum % w := bitIdx_lt_extra hw hpos hq2
      have hmk : bitMask w pos < 2 ^ (v.bitsNum % w) := by
        rw [bitMask, bitIdx, Nat.one_shiftLeft]
        exact Nat.pow_lt_pow_right (by omega) hbit
      rw [hq]
      exact xor_lt_two_pow (hlast he) hmk
    · rw [getD_modifyIdx_ne _ hq]
      exact hlast he

/-- `set()` preserves well-formedness. -/
theorem wf_setAll {w : Nat} (hw : 0 < w) {v : DynBitset} (h : Wf w v) :
    Wf w (setAll w v) := by
  unfold setAll
  apply wf_sanitize hw
  · rw [List.length_replicate, ((wf_iff w v).mp h).1]
  · intro b hb
    rw [List.eq_of_mem_replicate hb]
    exact onesBlock_lt w

/-- `flip()` preserves well-formedness. -/
theorem wf_flipAll {w : Nat} (hw : 0 < w) {v : DynBitset} (h : Wf w v) :
    Wf w (flipAll w v) := by
  unfold flipAll
  apply wf_sanitize hw
  · rw [List.length_map, ((wf_iff w v).mp h).1]
  · intro b hb
    obtain ⟨a, ha, rfl⟩ := List.mem_map.mp hb
    exact xor_lt_two_pow (onesBlock_lt w) (((wf_iff w v).mp h).2.1 a ha)

/-- The blockwise compound assignments preserve well-formedness on equal
sizes, for any operation that cannot escape a power-of-two bound. -/
theorem wf_binop {w : Nat} (hw : 0 < w) {A B : DynBitset} (hA : Wf w A) (hB : Wf w B)
    (hsz : A.bitsNum = B.bitsNum) {op : Nat → Nat → Nat}
    (hop : ∀ (e x y : Nat), x < 2 ^ e → y < 2 ^ e → op x y < 2 ^ e) :
    Wf w ⟨zipBlocks op A.blocks B.blocks, A.bitsNum⟩ := by
  obtain ⟨hAl, hAb, hAu⟩ := (wf_iff w A).mp hA
  obtain ⟨hBl, hBb, hBu⟩ := (wf_iff w B).mp hB
  have hBlen : B.blocks.length = A.blocks.length := by rw [hAl, hBl, hsz]
  refine wf_same_size hw hA (length_zipBlocks ..) ?_ ?_
  · intro i
    rw [getD_zipBlocks]
    split
    · exact hop w _ _ ((bound_iff_getD _ hw).mp hAb i) ((bound_iff_getD _ hw).mp hBb i)
    · exact Nat.pos_pow_of_pos _ (by omega)
  · intro he
    have hpos : 0 < A.blocks.length := by
      rw [hAl]
      exact blocksRequired_pos hw (fun hc => by rw [hc, Nat.zero_mod] at he; omega)
    rw [length_zipBlocks, getD_zipBlocks, if_pos (by omega)]
    have hBe : B.bitsNum % w > 0 := by rw [← hsz]; exact he
    have hBlast := hBu hBe
    rw [hBlen, ← hsz] at hBlast
    exact hop _ _ _ (hAu he) hBlast

theorem blocksRequired_succ_le {w n : Nat} (hw : 0 < w) :
    blocksRequired w (n + 1) ≤ blocksRequired w n + 1 := by
  unfold blocksRequired
  have hsd := Nat.succ_div n w
  have hA : (if (n + 1) % w > 0 then 1 else 0) ≤ 1 := by split <;> omega
  by_cases hd : w ∣ n + 1
  · obtain ⟨c, hc⟩ := hd
    have hm0 : (n + 1) % w = 0 := by rw [hc]; exact Nat.mul_mod_right ..
    have hc0 : (if (n + 1) % w > 0 then 1 else 0) = 0 := by rw [hm0]; simp
    rw [hsd, if_pos ⟨c, hc⟩]
    omega
  · rw [hsd, if_neg hd]
    omega

/-- `push_back` preserves well-formedness. -/
theorem wf_pushBack {w : Nat} (hw : 0 < w) {v : DynBitset} (h : Wf w v)
    (value : Bool) : Wf w (pushBack w v value) := by
  obtain ⟨hlen, hbnd, hlast⟩ := (wf_iff w v).mp h
  simp only [pushBack]
  by_cases hroom : v.bitsNum + 1 ≤ v.blocks.length * w
  · rw [if_pos hroom]
    have hdm : v.bitsNum / w * w + v.bitsNum % w = v.bitsNum := Nat.div_add_mod' ..
    have hmw : v.bitsNum % w < w := Nat.mod_lt _ hw
    have he : v.bitsNum % w ≠ 0 := by
      intro he0
      have hn : v.blocks.length = v.bitsNum / w := by
        rw [hlen]; unfold blocksRequired; rw [if_neg (by omega), Nat.add_zero]
      rw [hn] at hroom
      omega
    have hbits : v.bitsNum + 1 = v.bitsNum / w * w + (v.bitsNum % w + 1) := by omega
    have hn : v.blocks.length = v.bitsNum / w + 1 := by
      rw [hlen]; unfold blocksRequired; rw [if_pos (by omega)]
    have hgrown : Wf w ⟨v.blocks, v.bitsNum + 1⟩ := by
      rw [wf_iff]
      refine ⟨?_, hbnd, ?_⟩
      · by_cases hcase : v.bitsNum % w + 1 < w
        · have hd2 : (v.bitsNum + 1) / w = v.bitsNum / w := by
            rw [hbits]; exact mul_add_div_self hw hcase
          have hm2 : (v.bitsNum + 1) % w = v.bitsNum % w + 1 := by
            rw [hbits]; exact mul_add_mod_self hcase
          unfold blocksRequired
          rw [hd2, hm2, if_pos (by omega), hn]
        · have hweq : v.bitsNum % w + 1 = w := by omega
          have hbits2 : v.bitsNum + 1 = (v.bitsNum / w + 1) * w := by
            rw [Nat.add_mul, Nat.one_mul]; omega
          have hd2 : (v.bitsNum + 1) / w = v.bitsNum / w + 1 := by
            rw [hbits2]; exact Nat.mul_div_left _ hw
          have hm2 : (v.bitsNum + 1) % w = 0 := by
            rw [hbits2]; exact Nat.mul_mod_left ..
          unfold blocksRequired
          rw [hd2, hm2, if_neg (by omega), Nat.add_zero, hn]
      · intro hee
        by_cases hcase : v.bitsNum % w + 1 < w
        · have hm2 : (v.bitsNum + 1) % w = v.bitsNum % w + 1 := by
            rw [hbits]; exact mul_add_mod_self hcase
          rw [hm2]
          exact Nat.lt_of_lt_of_le (hlast (by omega))
            (Nat.pow_le_pow_right (by omega) (by omega))
        · have hweq : v.bitsNum % w + 1 = w := by omega
          have hbits2 : v.bitsNum + 1 = (v.bitsNum / w + 1) * w := by
            rw [Nat.add_mul, Nat.one_mul]; omega
          have hm2 : (v.bitsNum + 1) % w = 0 := by
            rw [hbits2]; exact Nat.mul_mod_left ..
          rw [hm2] at hee
          omega
    cases value with
    | false =>
      rw [if_neg Bool.false_ne_true]
      exact hgrown
    | true =>
      rw [if_pos rfl]
      exact wf_setAt hw hgrown
        (show v.bitsNum < (⟨v.blocks, v.bitsNum + 1⟩ : DynBitset).bitsNum by
          show v.bitsNum < v.bitsNum + 1
          omega) true
  · rw [if_neg hroom]
    have hle : v.bitsNum ≤ v.blocks.length * w := by
      rw [hlen]
      exact size_le_blocksRequired_mul hw
    have hseq : v.bitsNum = v.blocks.length * w := by omega
    have he0 : v.bitsNum % w = 0 := by rw [hseq]; exact Nat.mul_mod_left ..
    rw [wf_iff]
    refine ⟨?_, ?_, ?_⟩
    · simp only [List.length_append, List.length_singleton]
      by_cases hw1 : w = 1
      · subst hw1
        unfold blocksRequired
        simp only [Nat.mod_one, Nat.div_one]
        rw [if_neg (by omega), Nat.add_zero]
        omega
      · have h1 : (v.bitsNum + 1) % w = 1 := by
          rw [hseq, Nat.mul_add_mod']
          exact Nat.mod_eq_of_lt (by omega)
        have h2 : (v.bitsNum + 1) / w = v.blocks.length := by
          have hseq2 : v.bitsNum + 1 = w * v.blocks.length + 1 := by
            rw [hseq, Nat.mul_comm]
          rw [hseq2, Nat.mul_add_div hw]
          rw [Nat.div_eq_of_lt (by omega), Nat.add_zero]
        unfold blocksRequired
        rw [h1, h2, if_pos (by omega)]
    · intro b hb
      rcases List.mem_append.mp hb with hm | hm
      · exact hbnd _ hm
      · rw [List.mem_singleton.mp hm]
        have h2 : 2 ≤ 2 ^ w := by
          calc (2:Nat) = 2 ^ 1 := rfl
            _ ≤ 2 ^ w := Nat.pow_le_pow_right (by omega) hw
        split <;> omega
    · intro hee
      simp only [List.length_append, List.length_singleton]
      rw [getD_append_right (by omega)]
      have hidx : v.blocks.length + 1 - 1 - v.blocks.length = 0 := by omega
      rw [hidx]
      have h2 : 2 ≤ 2 ^ ((v.bitsNum + 1) % w) := by
        calc (2:Nat) = 2 ^ 1 := rfl
          _ ≤ 2 ^ ((v.bitsNum + 1) % w) := Nat.pow_le_pow_right (by omega) hee
      have hgd : ([if value then 1 else 0] : List Nat).getD 0 0 =
          if value then 1 else 0 := rfl
      rw [hgd]
      split <;> omega

/-- `pop_back` preserves well-formedness. -/
theorem wf_popBack {w : Nat} (hw : 0 < w) {v : DynBitset} (h : Wf w v) :
    Wf w (popBack w v) := by
  obtain ⟨hlen, hbnd, hlast⟩ := (wf_iff w v).mp h
  simp only [popBack]
  by_cases h0 : v.bitsNum = 0
  · rw [if_pos h0]
    exact h
  · rw [if_neg h0]
    by_cases hgt : v.blocks.length > blocksRequired w (v.bitsNum - 1)
    · rw [if_pos hgt]
      have hsucc : blocksRequired w (v.bitsNum - 1 + 1) ≤
          blocksRequired w (v.bitsNum - 1) + 1 := blocksRequired_succ_le hw
      have hs1 : v.bitsNum - 1 + 1 = v.bitsNum := by omega
      rw [hs1] at hsucc
      have hBReq : v.blocks.length = blocksRequired w (v.bitsNum - 1) + 1 := by omega
      rw [wf_iff]
      refine ⟨?_, ?_, ?_⟩
      · rw [List.length_dropLast, hBReq, Nat.add_sub_cancel]
      · intro b hb
        rw [List.dropLast_eq_take] at hb
        exact hbnd _ (List.take_subset _ _ hb)
      · intro he
        exfalso
        have hr : (v.bitsNum - 1) % w < w := Nat.mod_lt _ hw
        have hdm : (v.bitsNum - 1) / w * w + (v.bitsNum - 1) % w = v.bitsNum - 1 :=
          Nat.div_add_mod' ..
        by_cases hcase : (v.bitsNum - 1) % w + 1 < w
        · have hbits : v.bitsNum = (v.bitsNum - 1) / w * w + ((v.bitsNum - 1) % w + 1) := by
            omega
          have hd2 : v.bitsNum / w = (v.bitsNum - 1) / w := by
            nth_rewrite 1 [hbits]
            exact mul_add_div_self hw hcase
          have hm2 : v.bitsNum % w = (v.bitsNum - 1) % w + 1 := by
            nth_rewrite 1 [hbits]
            exact mul_add_mod_self hcase
          unfold blocksRequired at hlen hgt
          rw [if_pos he] at hgt
          rw [hd2, hm2, if_pos (by omega)] at hlen
          omega
        · have hbits : v.bitsNum = ((v.bitsNum - 1) / w + 1) * w := by
            rw [Nat.add_mul, Nat.one_mul]; omega
          have hd2 : v.bitsNum / w = (v.bitsNum - 1) / w + 1 := by
            nth_rewrite 1 [hbits]
            exact Nat.mul_div_left _ hw
          have hm2 : v.bitsNum % w = 0 := by
            rw [hbits]; exact Nat.mul_mod_left ..
          unfold blocksRequired at hlen hgt
          rw [if_pos he] at hgt
          rw [hd2, hm2, if_neg (by omega), Nat.add_zero] at hlen
          omega
    · rw [if_neg hgt]
      apply wf_sanitize hw
      · have hmono : blocksRequired w (v.bitsNum - 1) ≤ blocksRequired w v.bitsNum :=
          blocksRequired_mono hw (by omega)
        omega
      · exact hbnd

theorem listResize_length (l : List Nat) (n fill : Nat) :
    (listResize l n fill).length = n := by
  unfold listResize
  split
  · rw [List.length_take]
    omega
  · rw [List.length_append, List.length_replicate]
    omega

theorem mem_listResize {l : List Nat} {n fill b : Nat} (hb : b ∈ listResize l n fill) :
    b ∈ l ∨ b = fill := by
  unfold listResize at hb
  split at hb
  · exact Or.inl (List.take_subset _ _ hb)
  · rcases List.mem_append.mp hb with hm | hm
    · exact Or.inl hm
    · exact Or.inr (List.eq_of_mem_replicate hm)

/-- `resize` preserves well-formedness. -/
theorem wf_resize {w : Nat} (hw : 0 < w) {v : DynBitset} (h : Wf w v)
    (nbits : Nat) (value : Bool) : Wf w (resize w v nbits value) := by
  obtain ⟨hlen, hbnd, hlast⟩ := (wf_iff w v).mp h
  simp only [resize]
  by_cases hn : nbits = v.bitsNum
  · rw [if_pos hn]
    exact h
  · rw [if_neg hn]
    have key : ∀ (b1 : List Nat), b1.length = blocksRequired w nbits →
        (∀ b ∈ b1, b < 2 ^ w) →
        Wf w (sanitize w
          ⟨(if value = true ∧ v.bitsNum < nbits ∧ 0 < v.blocks.length then
              (if v.bitsNum % w > 0 then
                modifyIdx b1 (v.blocks.length - 1)
                  (fun b => b |||
                    (((if value then onesBlock w else 0) <<< (v.bitsNum % w)) % 2 ^ w))
              else b1)
            else b1), nbits⟩) := by
      intro b1 hb1len hb1
      apply wf_sanitize hw
      · split
        · split
          · rw [length_modifyIdx]
            exact hb1len
          · exact hb1len
        · exact hb1len
      · split
        · split
          · intro b hb
            rcases List.mem_or_eq_of_mem_set hb with hm | heq
            · exact hb1 _ hm
            · rw [heq]
              apply Nat.or_lt_two_pow
              · by_cases hi : v.blocks.length - 1 < b1.length
                · exact hb1 _ (getD_mem hi)
                · rw [getD_of_le _ (by omega)]
                  exact Nat.pos_pow_of_pos _ (by omega)
              · exact Nat.mod_lt _ (Nat.pos_pow_of_pos _ (by omega))
          · exact hb1
        · exact hb1
    by_cases hc1 : blocksRequired w nbits ≠ v.blocks.length
    · rw [if_pos hc1]
      refine key _ (listResize_length ..) ?_
      intro b hb
      rcases mem_listResize hb with hm | heq
      · exact hbnd _ hm
      · rw [heq]
        split
        · exact onesBlock_lt w
        · exact Nat.pos_pow_of_pos _ (by omega)
    · rw [if_neg hc1]
      exact key v.blocks (not_ne_iff.mp hc1).symm hbnd

/-- The `(nbits, init_val)` constructor produces a well-formed bitset. -/
theorem wf_mkFromVal {w : Nat} (hw : 0 < w) (ull nbits initVal : Nat) :
    Wf w (mkFromVal w ull nbits initVal) := by
  simp only [mkFromVal]
  by_cases hz : nbits = 0 ∨ initVal = 0
  · rw [if_pos hz, wf_iff]
    refine ⟨by simp, ?_, ?_⟩
    · intro b hb
      rw [List.eq_of_mem_replicate hb]
      exact Nat.pos_pow_of_pos _ (by omega)
    · intro _he
      rw [getD_replicate]
      split
      · exact Nat.pos_pow_of_pos _ (by omega)
      · exact Nat.pos_pow_of_pos _ (by omega)
  · rw [if_neg hz]
    apply wf_sanitize hw
    · split
      · rw [List.length_set, List.length_replicate]
      · rw [List.length_map, List.length_range]
    · split
      · intro b hb
        rcases List.mem_or_eq_of_mem_set hb with hm | heq
        · rw [List.eq_of_mem_replicate hm]
          exact Nat.pos_pow_of_pos _ (by omega)
        · rw [heq]
          exact Nat.mod_lt _ (Nat.pos_pow_of_pos _ (by omega))
      · intro b hb
        obtain ⟨i, _hi, rfl⟩ := List.mem_map.mp hb
        split
        · exact Nat.lt_of_le_of_lt Nat.and_le_right (onesBlock_lt w)
        · exact Nat.pos_pow_of_pos _ (by omega)

/-- `init_from_string` produces a well-formed bitset. -/
theorem wf_initFromString {w : Nat} (hw : 0 < w) (str : List Char) (pos n : Nat)
    (zero one : Char) : Wf w (initFromString w str pos n zero one) := by
  obtain ⟨hub, hul, hubd, hut⟩ := initFromString_spec hw str pos n zero one
  refine wf_of_high_false hw ?_ hubd ?_
  · rw [hul, hub]
  · intro p hp
    rw [hub] at hp
    rw [hut p, decide_eq_false (by omega), Bool.false_and]

/-- The full-block overwrite loop of the ranged operations preserves
well-formedness as long as it does not touch the last block when the size is
unaligned. -/
theorem wf_mapRange {w : Nat} (hw : 0 < w) {v : DynBitset} (h : Wf w v)
    (blocks2 : List Nat) (ffb lfb : Nat) (g : Nat → Nat)
    (hlen2 : blocks2.length = v.blocks.length)
    (hb2 : ∀ i, blocks2.getD i 0 < 2 ^ w)
    (hg : ∀ i, g i < 2 ^ w)
    (hlast2 : v.bitsNum % w > 0 →
      ¬(ffb ≤ v.blocks.length - 1 ∧ v.blocks.length - 1 ≤ lfb) ∧
      blocks2.getD (v.blocks.length - 1) 0 < 2 ^ (v.bitsNum % w)) :
    Wf w ⟨(List.range blocks2.length).map
        (fun i => if ffb ≤ i ∧ i ≤ lfb then g i else blocks2.getD i 0), v.bitsNum⟩ := by
  refine wf_same_size hw h ?_ ?_ ?_
  · rw [List.length_map, List.length_range, hlen2]
  · intro i
    rw [getD_range_map]
    split
    · split
      · exact hg i
      · exact hb2 i
    · exact Nat.pos_pow_of_pos _ (by omega)
  · intro he
    obtain ⟨hnotin, hgood⟩ := hlast2 he
    have hpos : 0 < v.blocks.length := by
      rw [((wf_iff w v).mp h).1]
      exact blocksRequired_pos hw (fun hc => by rw [hc, Nat.zero_mod] at he; omega)
    rw [List.length_map, List.length_range, hlen2, getD_range_map,
      if_pos (by omega), if_neg hnotin]
    exact hgood

/-- Ranged `set(pos, len, value)` preserves well-formedness for in-range
arguments. -/
theorem wf_setRange {w : Nat} (hw : 0 < w) {v : DynBitset} (h : Wf w v)
    {pos len : Nat} (hpl : pos + len ≤ v.bitsNum) (value : Bool) :
    Wf w (setRange w v pos len value) := by
  obtain ⟨hlen, hbnd, hlast⟩ := (wf_iff w v).mp h
  have hmm : ∀ a : Nat, a % w % w = a % w :=
    fun a => Nat.mod_eq_of_lt (Nat.mod_lt _ hw)
  have hw1m : (w - 1) % w = w - 1 := Nat.mod_eq_of_lt (by omega)
  have hposm : pos % w < w := Nat.mod_lt _ hw
  simp only [setRange]
  by_cases h0 : len = 0
  · rw [if_pos h0]
    exact h
  · rw [if_neg h0]
    have hplt : pos + len - 1 < v.bitsNum := by omega
    have hlb : blockIdx w (pos + len - 1) < v.blocks.length := by
      rw [hlen]
      unfold blockIdx
      exact div_lt_blocksRequired hw hplt
    have hfb_le : blockIdx w pos ≤ blockIdx w (pos + len - 1) := by
      unfold blockIdx
      exact Nat.div_le_div_right (by omega)
    by_cases hfl : blockIdx w pos = blockIdx w (pos + len - 1)
    · rw [if_pos hfl]
      have hfbi_le : pos % w ≤ (pos + len - 1) % w := by
        have h1 : pos / w * w + pos % w = pos := Nat.div_add_mod' ..
        have h2 : (pos + len - 1) / w * w + (pos + len - 1) % w = pos + len - 1 :=
          Nat.div_add_mod' ..
        unfold blockIdx at hfl
        rw [hfl] at h1
        omega
      refine wf_same_size hw h (length_modifyIdx ..) ?_ ?_
      · apply getD_modifyIdx_lt ((bound_iff_getD _ hw).mp hbnd)
        intro x hx
        refine setBlockBits_lt_pow hx (bitMaskRange_lt_pow hw ?_ ?_) value
        · show pos % w % w ≤ (pos + len - 1) % w % w
          rw [hmm, hmm]
          exact hfbi_le
        · show (pos + len - 1) % w % w < w
          rw [hmm]
          exact Nat.mod_lt _ hw
      · intro he
        rw [length_modifyIdx]
        by_cases hq : blockIdx w pos = v.blocks.length - 1
        · rw [← hq, getD_modifyIdx_self _ (by rw [hfl]; exact hlb)]
          have hql : (pos + len - 1) / w = v.bitsNum / w := by
            have hli := last_index_eq h he
            unfold blockIdx at hfl hq
            omega
          have hlbi_e : (pos + len - 1) % w < v.bitsNum % w :=
            bitIdx_lt_extra hw hplt hql
          have hold : v.blocks.getD (blockIdx w pos) 0 < 2 ^ (v.bitsNum % w) := by
            rw [hq]
            exact hlast he
          refine setBlockBits_lt_pow hold (bitMaskRange_lt_pow hw ?_ ?_) value
          · show pos % w % w ≤ (pos + len - 1) % w % w
            rw [hmm, hmm]
            exact hfbi_le
          · show (pos + len - 1) % w % w < v.bitsNum % w
            rw [hmm]
            exact hlbi_e
        · rw [getD_modifyIdx_ne _ hq]
          exact hlast he
    · rw [if_neg hfl]
      have hfb_lt : blockIdx w pos < blockIdx w (pos + len - 1) :=
        Nat.lt_of_le_of_ne hfb_le hfl
      have hB1len : (if bitIdx w pos ≠ 0 then
          modifyIdx v.blocks (blockIdx w pos)
            (fun b => setBlockBits w b (bitIdx w pos) (w - 1) value)
        else v.blocks).length = v.blocks.length := by
        split
        · exact length_modifyIdx ..
        · rfl
      have hB1b : ∀ i, (if bitIdx w pos ≠ 0 then
          modifyIdx v.blocks (blockIdx w pos)
            (fun b => setBlockBits w b (bitIdx w pos) (w - 1) value)
        else v.blocks).getD i 0 < 2 ^ w := by
        intro i
        split
        · apply getD_modifyIdx_lt ((bound_iff_getD _ hw).mp hbnd)
          intro x hx
          refine setBlockBits_lt_pow hx (bitMaskRange_lt_pow hw ?_ ?_) value
          · show pos % w % w ≤ (w - 1) % w
            rw [hmm, hw1m]
            omega
          · show (w - 1) % w < w
            rw [hw1m]
            omega
        · exact (bound_iff_getD _ hw).mp hbnd i
      have hB1last : blockIdx w (pos + len - 1) = v.blocks.length - 1 →
          (if bitIdx w pos ≠ 0 then
            modifyIdx v.blocks (blockIdx w pos)
              (fun b => setBlockBits w b (bitIdx w pos) (w - 1) value)
          else v.blocks).getD (v.blocks.length - 1) 0 =
            v.blocks.getD (v.blocks.length - 1) 0 := by
        intro hlb_eq
        split
        · rw [getD_modifyIdx_ne _ (by omega)]
        · rfl
      refine wf_mapRange hw h _ _ _ _ ?_ ?_ ?_ ?_
      · -- blocks2 length
        split
        · rw [length_modifyIdx]
          exact hB1len
        · exact hB1len
      · -- blocks2 bounds
        intro i
        split
        · apply getD_modifyIdx_lt hB1b
          intro x hx
          refine setBlockBits_lt_pow hx (bitMaskRange_lt_pow hw ?_ ?_) value
          · show 0 % w ≤ (pos + len - 1) % w % w
            rw [Nat.zero_mod]
            exact Nat.zero_le _
          · show (pos + len - 1) % w % w < w
            rw [hmm]
            exact Nat.mod_lt _ hw
        · exact hB1b i
      · -- overwrite value bound
        intro i
        split
        · exact onesBlock_lt w
        · exact Nat.pos_pow_of_pos _ (by omega)
      · -- last block untouched and still sanitized
        intro he
        have hli := last_index_eq h he
        have hmw2 : v.bitsNum % w < w := Nat.mod_lt _ hw
        constructor
        · rintro ⟨_hf1, hf2⟩
          by_cases hlb_eq : blockIdx w (pos + len - 1) = v.blocks.length - 1
          · have hql : (pos + len - 1) / w = v.bitsNum / w := by
              unfold blockIdx at hlb_eq
              omega
            have hlbi_e : (pos + len - 1) % w < v.bitsNum % w :=
              bitIdx_lt_extra hw hplt hql
            have hlbine : bitIdx w (pos + len - 1) ≠ w - 1 := by
              unfold bitIdx
              omega
            rw [if_pos hlbine] at hf2
            omega
          · by_cases hlbine : bitIdx w (pos + len - 1) ≠ w - 1
            · rw [if_pos hlbine] at hf2
              omega
            · rw [if_neg hlbine] at hf2
              omega
        · by_cases hlb_eq : blockIdx w (pos + len - 1) = v.blocks.length - 1
          · have hql : (pos + len - 1) / w = v.bitsNum / w := by
              unfold blockIdx at hlb_eq
              omega
            have hlbi_e : (pos + len - 1) % w < v.bitsNum % w :=
              bitIdx_lt_extra hw hplt hql
            have hlbine : bitIdx w (pos + len - 1) ≠ w - 1 := by
              unfold bitIdx
              omega
            rw [if_pos hlbine, ← hlb_eq,
              getD_modifyIdx_self _ (by rw [hB1len]; exact hlb), hlb_eq,
              hB1last hlb_eq]
            refine setBlockBits_lt_pow (hlast he) (bitMaskRange_lt_pow hw ?_ ?_) value
            · show 0 % w ≤ (pos + len - 1) % w % w
              rw [Nat.zero_mod]
              exact Nat.zero_le _
            · show (pos + len - 1) % w % w < v.bitsNum % w
              rw [hmm]
              exact hlbi_e
          · have hlt : blockIdx w (pos + len - 1) < v.blocks.length - 1 := by omega
            split
            · rw [getD_modifyIdx_ne _ (by omega)]
              split
              · rw [getD_modifyIdx_ne _ (by omega)]
                exact hlast he
              · exact hlast he
            · split
              · rw [getD_modifyIdx_ne _ (by omega)]
                exact hlast he
              · exact hlast he

/-- Ranged `flip(pos, len)` preserves well-formedness for in-range
arguments. -/
theorem wf_flipRange {w : Nat} (hw : 0 < w) {v : DynBitset} (h : Wf w v)
    {pos len : Nat} (hpl : pos + len ≤ v.bitsNum) :
    Wf w (flipRange w v pos len) := by
  obtain ⟨hlen, hbnd, hlast⟩ := (wf_iff w v).mp h
  have hmm : ∀ a : Nat, a % w % w = a % w :=
    fun a => Nat.mod_eq_of_lt (Nat.mod_lt _ hw)
  have hw1m : (w - 1) % w = w - 1 := Nat.mod_eq_of_lt (by omega)
  have hposm : pos % w < w := Nat.mod_lt _ hw
  simp only [flipRange]
  by_cases h0 : len = 0
  · rw [if_pos h0]
    exact h
  · rw [if_neg h0]
    have hplt : pos + len - 1 < v.bitsNum := by omega
    have hlb : blockIdx w (pos + len - 1) < v.blocks.length := by
      rw [hlen]
      unfold blockIdx
      exact div_lt_blocksRequired hw hplt
    have hfb_le : blockIdx w pos ≤ blockIdx w (pos + len - 1) := by
      unfold blockIdx
      exact Nat.div_le_div_right (by omega)
    by_cases hfl : blockIdx w pos = blockIdx w (pos + len - 1)
    · rw [if_pos hfl]
      have hfbi_le : pos % w ≤ (pos + len - 1) % w := by
        have h1 : pos / w * w + pos % w = pos := Nat.div_add_mod' ..
        have h2 : (pos + len - 1) / w * w + (pos + len - 1) % w = pos + len - 1 :=
          Nat.div_add_mod' ..
        unfold blockIdx at hfl
        rw [hfl] at h1
        omega
      refine wf_same_size hw h (length_modifyIdx ..) ?_ ?_
      · apply getD_modifyIdx_lt ((bound_iff_getD _ hw).mp hbnd)
        intro x hx
        refine flipBlockBits_lt_pow hx (bitMaskRange_lt_pow hw ?_ ?_)
        · show pos % w % w ≤ (pos + len - 1) % w % w
          rw [hmm, hmm]
          exact hfbi_le
        · show (pos + len - 1) % w % w < w
          rw [hmm]
          exact Nat.mod_lt _ hw
      · intro he
        rw [length_modifyIdx]
        by_cases hq : blockIdx w pos = v.blocks.length - 1
        · rw [← hq, getD_modifyIdx_self _ (by rw [hfl]; exact hlb)]
          have hql : (pos + len - 1) / w = v.bitsNum / w := by
            have hli := last_index_eq h he
            unfold blockIdx at hfl hq
            omega
          have hlbi_e : (pos + len - 1) % w < v.bitsNum % w :=
            bitIdx_lt_extra hw hplt hql
          have hold : v.blocks.getD (blockIdx w pos) 0 < 2 ^ (v.bitsNum % w) := by
            rw [hq]
            exact hlast he
          refine flipBlockBits_lt_pow hold (bitMaskRange_lt_pow hw ?_ ?_)
          · show pos % w % w ≤ (pos + len - 1) % w % w
            rw [hmm, hmm]
            exact hfbi_le
          · show (pos + len - 1) % w % w < v.bitsNum % w
            rw [hmm]
            exact hlbi_e
        · rw [getD_modifyIdx_ne _ hq]
          exact hlast he
    · rw [if_neg hfl]
      have hfb_lt : blockIdx w pos < blockIdx w (pos + len - 1) :=
        Nat.lt_of_le_of_ne hfb_le hfl
      have hB1len : (if bitIdx w pos ≠ 0 then
          modifyIdx v.blocks (blockIdx w pos)
            (fun b => flipBlockBits w b (bitIdx w pos) (w - 1))
        else v.blocks).length = v.blocks.length := by
        split
        · exact length_modifyIdx ..
        · rfl
      have hB1b : ∀ i, (if bitIdx w pos ≠ 0 then
          modifyIdx v.blocks (blockIdx w pos)
            (fun b => flipBlockBits w b (bitIdx w pos) (w - 1))
        else v.blocks).getD i 0 < 2 ^ w := by
        intro i
        split
        · apply getD_modifyIdx_lt ((bound_iff_getD _ hw).mp hbnd)
          intro x hx
          refine flipBlockBits_lt_pow hx (bitMaskRange_lt_pow hw ?_ ?_)
          · show pos % w % w ≤ (w - 1) % w
            rw [hmm, hw1m]
            omega
          · show (w - 1) % w < w
            rw [hw1m]
            omega
        · exact (bound_iff_getD _ hw).mp hbnd i
      have hB1last : blockIdx w (pos + len - 1) = v.blocks.length - 1 →
          (if bitIdx w pos ≠ 0 then
            modifyIdx v.blocks (blockIdx w pos)
              (fun b => flipBlockBits w b (bitIdx w pos) (w - 1))
          else v.blocks).getD (v.blocks.length - 1) 0 =
            v.blocks.getD (v.blocks.length - 1) 0 := by
        intro hlb_eq
        split
        · rw [getD_modifyIdx_ne _ (by omega)]
        · rfl
      have hB2b : ∀ i, (if bitIdx w (pos + len - 1) ≠ w - 1 then
          modifyIdx
            (if bitIdx w pos ≠ 0 then
              modifyIdx v.blocks (blockIdx w pos)
                (fun b => flipBlockBits w b (bitIdx w pos) (w - 1))
            else v.blocks)
            (blockIdx w (pos + len - 1))
            (fun b => flipBlockBits w b 0 (bitIdx w (pos + len - 1)))
        else
          (if bitIdx w pos ≠ 0 then
            modifyIdx v.blocks (blockIdx w pos)
              (fun b => flipBlockBits w b (bitIdx w pos) (w - 1))
          else v.blocks)).getD i 0 < 2 ^ w := by
        intro i
        split
        · apply getD_modifyIdx_lt hB1b
          intro x hx
          refine flipBlockBits_lt_pow hx (bitMaskRange_lt_pow hw ?_ ?_)
          · show 0 % w ≤ (pos + len - 1) % w % w
            rw [Nat.zero_mod]
            exact Nat.zero_le _
          · show (pos + len - 1) % w % w < w
            rw [hmm]
            exact Nat.mod_lt _ hw
        · exact hB1b i
      refine wf_mapRange hw h _ _ _ _ ?_ ?_ ?_ ?_
      · split
        · rw [length_modifyIdx]
          exact hB1len
        · exact hB1len
      · exact hB2b
      · intro i
        exact xor_lt_two_pow (onesBlock_lt w) (hB2b i)
      · intro he
        have hli := last_index_eq h he
        have hmw2 : v.bitsNum % w < w := Nat.mod_lt _ hw
        constructor
        · rintro ⟨_hf1, hf2⟩
          by_cases hlb_eq : blockIdx w (pos + len - 1) = v.blocks.length - 1
          · have hql : (pos + len - 1) / w = v.bitsNum / w := by
              unfold blockIdx at hlb_eq
              omega
            have hlbi_e : (pos + len - 1) % w < v.bitsNum % w :=
              bitIdx_lt_extra hw hplt hql
            have hlbine : bitIdx w (pos + len - 1) ≠ w - 1 := by
              unfold bitIdx
              omega
            rw [if_pos hlbine] at hf2
            omega
          · by_cases hlbine : bitIdx w (pos + len - 1) ≠ w - 1
            · rw [if_pos hlbine] at hf2
              omega
            · rw [if_neg hlbine] at hf2
              omega
        · by_cases hlb_eq : blockIdx w (pos + len - 1) = v.blocks.length - 1
          · have hql : (pos + len - 1) / w = v.bitsNum / w := by
              unfold blockIdx at hlb_eq
              omega
            have hlbi_e : (pos + len - 1) % w < v.bitsNum % w :=
              bitIdx_lt_extra hw hplt hql
            have hlbine : bitIdx w (pos + len - 1) ≠ w - 1 := by
              unfold bitIdx
              omega
            rw [if_pos hlbine, ← hlb_eq,
              getD_modifyIdx_self _ (by rw [hB1len]; exact hlb), hlb_eq,
              hB1last hlb_eq]
            refine flipBlockBits_lt_pow (hlast he) (bitMaskRange_lt_pow hw ?_ ?_)
            · show 0 % w ≤ (pos + len - 1) % w % w
              rw [Nat.zero_mod]
              exact Nat.zero_le _
            · show (pos + len - 1) % w % w < v.bitsNum % w
              rw [hmm]
              exact hlbi_e
          · have hlt : blockIdx w (pos + len - 1) < v.blocks.length - 1 := by omega
            split
            · rw [getD_modifyIdx_ne _ (by omega)]
              split
              · rw [getD_modifyIdx_ne _ (by omega)]
                exact hlast he
              · exact hlast he
            · split
              · rw [getD_modifyIdx_ne _ (by omega)]
                exact hlast he
              · exact hlast he

/-- C1: every mutating operation and every constructor preserves the two
structural invariants (`check_size` and `check_unused_bits`, bundled with the
block-type bound in `Wf`): resize, clear, push_back, pop_back, both appends,
the compound assignments, both shifts, set/reset/flip in single-bit, ranged
and whole-bitset form, and the constructors. -/
theorem claim_C1 (w : Nat) (hw : 0 < w) :
    (∀ v, Wf w v → ∀ nbits value, Wf w (resize w v nbits value)) ∧
    (∀ v, Wf w (clear v)) ∧
    (∀ v, Wf w v → ∀ value, Wf w (pushBack w v value)) ∧
    (∀ v, Wf w v → Wf w (popBack w v)) ∧
    (∀ v, Wf w v → ∀ b, b < 2 ^ w → Wf w (appendBlock w v b)) ∧
    (∀ v, Wf w v → ∀ l, (∀ b ∈ l, b < 2 ^ w) → Wf w (appendBlocks w v l)) ∧
    (∀ A B, Wf w A → Wf w B → A.bitsNum = B.bitsNum → Wf w (andEq A B)) ∧
    (∀ A B, Wf w A → Wf w B → A.bitsNum = B.bitsNum → Wf w (orEq A B)) ∧
    (∀ A B, Wf w A → Wf w B → A.bitsNum = B.bitsNum → Wf w (xorEq A B)) ∧
    (∀ A B, Wf w A → Wf w B → A.bitsNum = B.bitsNum → Wf w (diffEq w A B)) ∧
    (∀ v, Wf w v → ∀ k, Wf w (shlEq w v k)) ∧
    (∀ v, Wf w v → ∀ k, Wf w (shrEq w v k)) ∧
    (∀ v, Wf w v → ∀ pos value, pos < v.bitsNum → Wf w (setAt w v pos value)) ∧
    (∀ v, Wf w v → ∀ pos len value, pos + len ≤ v.bitsNum →
      Wf w (setRange w v pos len value)) ∧
    (∀ v, Wf w v → Wf w (setAll w v)) ∧
    (∀ v, Wf w v → ∀ pos, pos < v.bitsNum → Wf w (resetAt w v pos)) ∧
    (∀ v, Wf w v → ∀ pos len, pos + len ≤ v.bitsNum → Wf w (resetRange w v pos len)) ∧
    (∀ v, Wf w v → Wf w (resetAll v)) ∧
    (∀ v, Wf w v → ∀ pos, pos < v.bitsNum → Wf w (flipAt w v pos)) ∧
    (∀ v, Wf w v → ∀ pos len, pos + len ≤ v.bitsNum → Wf w (flipRange w v pos len)) ∧
    (∀ v, Wf w v → Wf w (flipAll w v)) ∧
    Wf w mkEmpty ∧
    (∀ ull nbits initVal, Wf w (mkFromVal w ull nbits initVal)) ∧
    (∀ str pos n zero one, Wf w (initFromString w str pos n zero one)) ∧
    (∀ s zero one, Wf w (fromString w s zero one)) ∧
    (∀ l, (∀ b ∈ l, b < 2 ^ w) → Wf w (mkFromBlocks w l)) := by
  refine ⟨?_, ?_, ?_, ?_, ?_, ?_, ?_, ?_, ?_, ?_, ?_, ?_, ?_, ?_, ?_, ?_, ?_, ?_,
    ?_, ?_, ?_, ?_, ?_, ?_, ?_, ?_⟩
  · exact fun v h nbits value => wf_resize hw h nbits value
  · exact fun v => wf_clear hw v
  · exact fun v h value => wf_pushBack hw h value
  · exact fun v h => wf_popBack hw h
  · exact fun v h b hb => (appendBlock_spec hw h hb).2.1
  · exact fun v h l hl => (appendBlocks_spec hw l v h hl).2.1
  · exact fun A B hA hB hsz =>
      wf_binop hw hA hB hsz (fun e x y hx _hy => Nat.lt_of_le_of_lt Nat.and_le_left hx)
  · exact fun A B hA hB hsz =>
      wf_binop hw hA hB hsz (fun e x y hx hy => Nat.or_lt_two_pow hx hy)
  · exact fun A B hA hB hsz =>
      wf_binop hw hA hB hsz (fun e x y hx hy => xor_lt_two_pow hx hy)
  · exact fun A B hA hB hsz =>
      wf_binop hw hA hB hsz (fun e x y hx _hy => Nat.lt_of_le_of_lt Nat.and_le_left hx)
  · exact fun v h k => wf_shlEq hw h k
  · exact fun v h k => wf_shrEq hw h k
  · exact fun v h pos value hpos => wf_setAt hw h hpos value
  · exact fun v h pos len value hpl => wf_setRange hw h hpl value
  · exact fun v h => wf_setAll hw h
  · exact fun v h pos hpos => wf_setAt hw h hpos false
  · exact fun v h pos len hpl => wf_setRange hw h hpl false
  · exact fun v h => wf_resetAll hw h
  · exact fun v h pos hpos => wf_flipAt hw h hpos
  · exact fun v h pos len hpl => wf_flipRange hw h hpl
  · exact fun v h => wf_flipAll hw h
  · exact wf_mkEmpty hw
  · exact fun ull nbits initVal => wf_mkFromVal hw ull nbits initVal
  · exact fun str pos n zero one => wf_initFromString hw str pos n zero one
  · exact fun s zero one => wf_initFromString hw s 0 s.length zero one
  · exact fun l hl => (appendBlocks_spec hw l mkEmpty (wf_mkEmpty hw) hl).2.1

/-- Witness for C1 at `w = 4`. -/
theorem claim_C1_witness :
    0 < 4 ∧
      ((∀ v, Wf 4 v → ∀ nbits value, Wf 4 (resize 4 v nbits value)) ∧
      (∀ v, Wf 4 (clear v)) ∧
      (∀ v, Wf 4 v → ∀ value, Wf 4 (pushBack 4 v value)) ∧
      (∀ v, Wf 4 v → Wf 4 (popBack 4 v)) ∧
      (∀ v, Wf 4 v → ∀ b, b < 2 ^ 4 → Wf 4 (appendBlock 4 v b)) ∧
      (∀ v, Wf 4 v → ∀ l, (∀ b ∈ l, b < 2 ^ 4) → Wf 4 (appendBlocks 4 v l)) ∧
      (∀ A B, Wf 4 A → Wf 4 B → A.bitsNum = B.bitsNum → Wf 4 (andEq A B)) ∧
      (∀ A B, Wf 4 A → Wf 4 B → A.bitsNum = B.bitsNum → Wf 4 (orEq A B)) ∧
      (∀ A B, Wf 4 A → Wf 4 B → A.bitsNum = B.bitsNum → Wf 4 (xorEq A B)) ∧
      (∀ A B, Wf 4 A → Wf 4 B → A.bitsNum = B.bitsNum → Wf 4 (diffEq 4 A B)) ∧
      (∀ v, Wf 4 v → ∀ k, Wf 4 (shlEq 4 v k)) ∧
      (∀ v, Wf 4 v → ∀ k, Wf 4 (shrEq 4 v k)) ∧
      (∀ v, Wf 4 v → ∀ pos value, pos < v.bitsNum → Wf 4 (setAt 4 v pos value)) ∧
      (∀ v, Wf 4 v → ∀ pos len value, pos + len ≤ v.bitsNum →
        Wf 4 (setRange 4 v pos len value)) ∧
      (∀ v, Wf 4 v → Wf 4 (setAll 4 v)) ∧
      (∀ v, Wf 4 v → ∀ pos, pos < v.bitsNum → Wf 4 (resetAt 4 v pos)) ∧
      (∀ v, Wf 4 v → ∀ pos len, pos + len ≤ v.bitsNum → Wf 4 (resetRange 4 v pos len)) ∧
      (∀ v, Wf 4 v → Wf 4 (resetAll v)) ∧
      (∀ v, Wf 4 v → ∀ pos, pos < v.bitsNum → Wf 4 (flipAt 4 v pos)) ∧
      (∀ v, Wf 4 v → ∀ pos len, pos + len ≤ v.bitsNum → Wf 4 (flipRange 4 v pos len)) ∧
      (∀ v, Wf 4 v → Wf 4 (flipAll 4 v)) ∧
      Wf 4 mkEmpty ∧
      (∀ ull nbits initVal, Wf 4 (mkFromVal 4 ull nbits initVal)) ∧
      (∀ str pos n zero one, Wf 4 (initFromString 4 str pos n zero one)) ∧
      (∀ s zero one, Wf 4 (fromString 4 s zero one)) ∧
      (∀ l, (∀ b ∈ l, b < 2 ^ 4) → Wf 4 (mkFromBlocks 4 l))) :=
  ⟨by decide, claim_C1 4 (by decide)⟩

/-- Witness for C4 at `w = 4` with the default designators. -/
theorem claim_C4_witness :
    0 < 4 ∧ ('0' : Char) ≠ '1' ∧
      ((∀ v : DynBitset, Wf 4 v → fromString 4 (toString 4 v '0' '1') '0' '1' = v) ∧
       (∀ s : List Char, (∀ c ∈ s, c = '0' ∨ c = '1') →
         toString 4 (fromString 4 s '0' '1') '0' '1' = s)) :=
  ⟨by decide, by decide, claim_C4 4 (by decide) '0' '1' (by decide)⟩

end DB
